import Mathlib

/-!
# `avro_schema_rt.c`: MsgPack parser, unparser and perfect-hash builder

A shallow embedding of the runtime core of tarantool-avro.

Conventions of the embedding.

* Bytes, tags and machine integers are natural numbers; every place where the
  C code truncates (a cast, a store into a narrower field) carries an explicit
  `% 2^w`.
* `struct Value` is the pair of its two 32-bit halves `xlen`, `xoff`; the 64-bit
  members `uval`, `ival`, `dval`, `p` are views of the two halves in the
  little-endian layout (`xlen` is the low word).
* Pointers into the two arrays of slots and into the result buffer are indices;
  pointers into the data banks are addresses of a flat byte memory.
* `realloc`/`malloc` always succeed.  The `error_alloc` exits are kept in the
  control flow but cannot be taken.
* Loops run on fuel; a run that leaves its arrays or exhausts its fuel is `none`.
-/

namespace AvroSchemaRt

/-! ## Type ids and values -/

/-- `enum TypeId`. -/
abbrev NilValue : Nat := 1
/-- `enum TypeId`. -/
abbrev FalseValue : Nat := 2
/-- `enum TypeId`. -/
abbrev TrueValue : Nat := 3
/-- `enum TypeId`. -/
abbrev LongValue : Nat := 4
/-- `enum TypeId`; the parser prefers `LongValue`. -/
abbrev UlongValue : Nat := 5
/-- `enum TypeId`. -/
abbrev FloatValue : Nat := 6
/-- `enum TypeId`. -/
abbrev DoubleValue : Nat := 7
/-- `enum TypeId`. -/
abbrev StringValue : Nat := 8
/-- `enum TypeId`. -/
abbrev BinValue : Nat := 9
/-- `enum TypeId`. -/
abbrev ExtValue : Nat := 10
/-- `enum TypeId`. -/
abbrev ArrayValue : Nat := 11
/-- `enum TypeId`. -/
abbrev MapValue : Nat := 12
/-- `enum TypeId`. -/
abbrev CStringValue : Nat := 18
/-- `enum TypeId`. -/
abbrev CBinValue : Nat := 19
/-- `enum TypeId`: copy N bytes verbatim from the data bank. -/
abbrev CopyCommand : Nat := 20

/-- `struct Value`: a 64-bit union, kept as its two 32-bit halves. -/
structure Value where
  xlen : Nat
  xoff : Nat
  deriving DecidableEq, Repr, Inhabited

/-- The `uval` member (also `p`, and the bit pattern of `dval`). -/
def Value.uval (v : Value) : Nat := v.xlen + 4294967296 * v.xoff

/-- Store through the `uval` member. -/
def Value.of_uval (u : Nat) : Value :=
  ⟨u % 4294967296, u / 4294967296 % 4294967296⟩

/-- The `ival` member: the two's complement reading of `uval`. -/
def Value.ival (v : Value) : Int :=
  if v.uval < 9223372036854775808 then (v.uval : Int)
  else (v.uval : Int) - 18446744073709551616

/-- Store through the `ival` member. -/
def Value.of_ival (i : Int) : Value :=
  Value.of_uval (i % 18446744073709551616).toNat

/-- `struct State`. -/
structure State where
  t_capacity : Nat
  ot_capacity : Nat
  res_capacity : Nat
  res_size : Nat
  res : List Nat
  b1 : Nat
  b2 : Nat
  t : List Nat
  v : List Value
  ot : List Nat
  ov : List Value
  deriving DecidableEq, Repr

/-- A state whose arrays have the sizes its capacity fields record. -/
def State.wf (s : State) : Prop :=
  s.t.length = s.t_capacity ∧ s.v.length = s.t_capacity ∧
  s.ot.length = s.ot_capacity ∧ s.ov.length = s.ot_capacity ∧
  s.res.length = s.res_capacity

instance (s : State) : Decidable s.wf := by
  unfold State.wf; infer_instance

/-- The state before the first call: no buffer allocated yet. -/
def State.zero : State :=
  { t_capacity := 0, ot_capacity := 0, res_capacity := 0, res_size := 0,
    res := [], b1 := 0, b2 := 0, t := [], v := [], ot := [], ov := [] }

/-! ## Buffers -/

/-- The loop of `next_capacity`; `fuel` bounds the number of iterations. -/
def next_capacity_loop : Nat → Nat → Nat → Nat
  | 0, capacity, _ => capacity
  | fuel + 1, capacity, min_capacity =>
    if capacity < min_capacity then
      next_capacity_loop fuel (capacity + capacity / 2) min_capacity
    else capacity

/-- `next_capacity`: start at 128, grow by half until `min_capacity` is reached.
Every iteration adds at least 64, so `min_capacity` iterations are enough. -/
def next_capacity (min_capacity : Nat) : Nat :=
  next_capacity_loop min_capacity 128 min_capacity

/-- `realloc(p, n * sizeof p[0])`: the first `n` items are kept, the items past
the old size (indeterminate in C) read as `fill`.  It never fails. -/
def realloc {α : Type} (fill : α) (p : List α) (n : Nat) : Option (List α) :=
  some (p.take n ++ List.replicate (n - p.length) fill)

/-- `buf_grow`: the return code, the new `*t` and the new `*capacity`. -/
def buf_grow (t : List Nat) (capacity new_capacity : Nat) : Int × List Nat × Nat :=
  match realloc 0 t new_capacity with
  | none => (-1, t, capacity)
  | some new_t => (0, new_t, new_capacity)

/-- `buf_grow_tv`: the return code, the new `*t`, `*v` and `*capacity`. -/
def buf_grow_tv (t : List Nat) (v : List Value) (capacity new_capacity : Nat) :
    Int × List Nat × List Value × Nat :=
  match realloc (Value.mk 0 0) v new_capacity with
  | none => (-1, t, v, capacity)
  | some new_v =>
    let r := buf_grow t capacity new_capacity
    (r.1, r.2.1, new_v, r.2.2)

/-- Write the bytes `bs` into `buf` from index `out` on (`memcpy` and the
unaligned stores). -/
def store (buf : List Nat) (out : Nat) : List Nat → List Nat
  | [] => buf
  | b :: bs => store (buf.set out b) (out + 1) bs

/-- The bytes of a C string literal. -/
def cstr (s : String) : List Nat := s.toList.map Char.toNat

/-- `set_error`: copy the message into `res`; it always returns -1. -/
def set_error (state : State) (msg : List Nat) : Int × State :=
  let len := msg.length
  if state.res_capacity < len then
    let r := buf_grow state.res state.res_capacity (next_capacity len)
    if r.1 ≠ 0 then
      (-1, { state with res_size := 0 })
    else
      (-1, { state with res := store r.2.1 0 msg, res_capacity := r.2.2, res_size := len })
  else
    (-1, { state with res := store state.res 0 msg, res_size := len })

/-! ## Reading the input -/

/-- The byte at offset `i` of the input (`mi[i]`). -/
def byte_at (inp : List Nat) (i : Nat) : Nat := inp.getD i 0

/-- A big-endian 16-bit field: `net2host16(unaligned(p)->u16)`. -/
def load16 (inp : List Nat) (p : Nat) : Nat :=
  byte_at inp p * 256 + byte_at inp (p + 1)

/-- A big-endian 32-bit field: `net2host32(unaligned(p)->u32)`. -/
def load32 (inp : List Nat) (p : Nat) : Nat :=
  load16 inp p * 65536 + load16 inp (p + 2)

/-- A big-endian 64-bit field: `net2host64(unaligned(p)->u64)`. -/
def load64 (inp : List Nat) (p : Nat) : Nat :=
  load32 inp p * 4294967296 + load32 inp (p + 4)

/-- The cast of a `w`-bit pattern to the signed type of that width. -/
def sign_extend (w : Nat) (x : Nat) : Int :=
  if x % 2 ^ w < 2 ^ (w - 1) then ((x % 2 ^ w : Nat) : Int)
  else ((x % 2 ^ w : Nat) : Int) - ((2 ^ w : Nat) : Int)

/-! ## `parse_msgpack` -/

/-- The stack of `parse_msgpack` lives in `ov`: `uint32_t` item `i` of the stack
is half `i % 2` of `ov[i / 2]`. -/
def stack_get (ov : List Value) (i : Nat) : Nat :=
  let w := ov.getD (i / 2) ⟨0, 0⟩
  if i % 2 = 0 then w.xlen else w.xoff

/-- Store into item `i` of the stack that lives in `ov`. -/
def stack_set (ov : List Value) (i : Nat) (x : Nat) : List Value :=
  let w := ov.getD (i / 2) ⟨0, 0⟩
  ov.set (i / 2) (if i % 2 = 0 then { w with xlen := x } else { w with xoff := x })

/-- The locals of `parse_msgpack` together with the state they point into.
`mi` is the offset of the read cursor in the input, `value` the index of the
slot under the write cursor (`value - value_buf`, also `typeid - state->t`),
`stack` the depth of the stack (`stack - stack_buf`). -/
structure ParseCfg where
  st : State
  mi : Nat
  value : Nat
  todo : Nat
  patch : Nat
  stack : Nat
  deriving DecidableEq, Repr

/-- Where one pass through the body of `parse_msgpack` leaves the function. -/
inductive ParseStep where
  | again (c : ParseCfg)
  | done (c : ParseCfg)
  | error_underflow (c : ParseCfg)
  | error_c1 (c : ParseCfg)
  | error_alloc (c : ParseCfg)
  deriving DecidableEq, Repr

/-- `*typeid = tag`. -/
def ParseCfg.set_typeid (c : ParseCfg) (tag : Nat) : ParseCfg :=
  { c with st := { c.st with t := c.st.t.set c.value tag } }

/-- `*value = w` (a store through `ival`, `uval` or `dval`). -/
def ParseCfg.set_value (c : ParseCfg) (w : Value) : ParseCfg :=
  { c with st := { c.st with v := c.st.v.set c.value w } }

/-- `value->xlen = x`. -/
def ParseCfg.set_xlen (c : ParseCfg) (x : Nat) : ParseCfg :=
  { c with st := { c.st with
      v := c.st.v.set c.value { c.st.v.getD c.value ⟨0, 0⟩ with xlen := x } } }

/-- `value->xoff = x`. -/
def ParseCfg.set_xoff (c : ParseCfg) (x : Nat) : ParseCfg :=
  { c with st := { c.st with
      v := c.st.v.set c.value { c.st.v.getD c.value ⟨0, 0⟩ with xoff := x } } }

/-- Label `repeat`: `value++; typeid++;`. -/
def ParseCfg.next_slot (c : ParseCfg) : ParseStep :=
  .again { c with value := c.value + 1 }

/-- Label `setup_nested`: link the container into the patch chain, push `todo`. -/
def setup_nested (c : ParseCfg) (len : Nat) : ParseStep :=
  let c := c.set_xoff c.patch
  let c := { c with patch := c.value % 4294967296 }
  if c.stack = 2 * c.st.ot_capacity then
    let old_capacity := c.st.ot_capacity
    let r := buf_grow_tv c.st.ot c.st.ov c.st.ot_capacity (next_capacity (old_capacity + 1))
    if r.1 ≠ 0 then .error_alloc c
    else
      let c := { c with st := { c.st with ot := r.2.1, ov := r.2.2.1, ot_capacity := r.2.2.2 } }
      let c := { c with stack := 2 * old_capacity }
      let c := { c with st := { c.st with ov := stack_set c.st.ov c.stack c.todo },
                        stack := c.stack + 1 }
      ParseCfg.next_slot { c with todo := len }
  else
    let c := { c with st := { c.st with ov := stack_set c.st.ov c.stack c.todo },
                      stack := c.stack + 1 }
    ParseCfg.next_slot { c with todo := len }

/-- Label `do_xdata`: a string, bin or ext whose length field ends at `mi`. -/
def do_xdata (inp : List Nat) (c : ParseCfg) (len : Nat) : ParseStep :=
  if c.mi + len + 1 > inp.length then .error_underflow c
  else
    let c := c.set_xlen len
    let c := c.set_xoff ((inp.length - c.mi - 1) % 4294967296)
    ParseCfg.next_slot { c with mi := c.mi + len + 1 }

/-- The `switch (*mi)` of `parse_msgpack`. -/
def parse_switch (f32_to_f64 : Nat → Nat) (inp : List Nat) (c : ParseCfg) : ParseStep :=
  let b := byte_at inp c.mi
  if b ≤ 0x7f then
    -- positive fixint
    ParseCfg.next_slot
      { (c.set_typeid LongValue).set_value (Value.of_ival b) with mi := c.mi + 1 }
  else if b ≤ 0x8f then
    -- fixmap
    let len := b - 0x80
    let c := { c with mi := c.mi + 1 }
    let c := (c.set_typeid MapValue).set_xlen len
    setup_nested c (len * 2 % 4294967296)
  else if b ≤ 0x9f then
    -- fixarray
    let len := b - 0x90
    let c := { c with mi := c.mi + 1 }
    let c := (c.set_typeid ArrayValue).set_xlen len
    setup_nested c len
  else if b ≤ 0xbf then
    -- fixstr
    do_xdata inp (c.set_typeid StringValue) (b - 0xa0)
  else if b = 0xc0 then ParseCfg.next_slot { c.set_typeid NilValue with mi := c.mi + 1 }
  else if b = 0xc1 then .error_c1 c
  else if b = 0xc2 then ParseCfg.next_slot { c.set_typeid FalseValue with mi := c.mi + 1 }
  else if b = 0xc3 then ParseCfg.next_slot { c.set_typeid TrueValue with mi := c.mi + 1 }
  else if b = 0xc4 then (
    -- bin 8
    if c.mi + 2 > inp.length then .error_underflow c
    else do_xdata inp { c.set_typeid BinValue with mi := c.mi + 1 } (byte_at inp (c.mi + 1)))
  else if b = 0xc5 then (
    -- bin 16
    if c.mi + 3 > inp.length then .error_underflow c
    else do_xdata inp { c.set_typeid BinValue with mi := c.mi + 2 } (load16 inp (c.mi + 1)))
  else if b = 0xc6 then (
    -- bin 32
    if c.mi + 5 > inp.length then .error_underflow c
    else do_xdata inp { c.set_typeid BinValue with mi := c.mi + 4 } (load32 inp (c.mi + 1)))
  else if b = 0xc7 then (
    -- ext 8
    if c.mi + 2 > inp.length then .error_underflow c
    else do_xdata inp { c.set_typeid ExtValue with mi := c.mi + 1 } (byte_at inp (c.mi + 1) + 1))
  else if b = 0xc8 then (
    -- ext 16
    if c.mi + 3 > inp.length then .error_underflow c
    else do_xdata inp { c.set_typeid ExtValue with mi := c.mi + 2 } (load16 inp (c.mi + 1)))
  else if b = 0xc9 then (
    -- ext 32
    if c.mi + 5 > inp.length then .error_underflow c
    else do_xdata inp { c.set_typeid ExtValue with mi := c.mi + 4 } (load32 inp (c.mi + 1)))
  else if b = 0xca then (
    -- float 32
    if c.mi + 5 > inp.length then .error_underflow c
    else
      ParseCfg.next_slot
        { (c.set_typeid FloatValue).set_value
            (Value.of_uval (f32_to_f64 (load32 inp (c.mi + 1)))) with mi := c.mi + 5 })
  else if b = 0xcb then (
    -- float 64
    if c.mi + 9 > inp.length then .error_underflow c
    else
      ParseCfg.next_slot
        { (c.set_typeid DoubleValue).set_value
            (Value.of_uval (load64 inp (c.mi + 1))) with mi := c.mi + 9 })
  else if b = 0xcc then (
    -- uint 8
    if c.mi + 2 > inp.length then .error_underflow c
    else
      ParseCfg.next_slot
        { (c.set_typeid LongValue).set_value
            (Value.of_ival (byte_at inp (c.mi + 1))) with mi := c.mi + 2 })
  else if b = 0xcd then (
    -- uint 16
    if c.mi + 3 > inp.length then .error_underflow c
    else
      ParseCfg.next_slot
        { (c.set_typeid LongValue).set_value
            (Value.of_ival (load16 inp (c.mi + 1))) with mi := c.mi + 3 })
  else if b = 0xce then (
    -- uint 32
    if c.mi + 5 > inp.length then .error_underflow c
    else
      ParseCfg.next_slot
        { (c.set_typeid LongValue).set_value
            (Value.of_ival (load32 inp (c.mi + 1))) with mi := c.mi + 5 })
  else if b = 0xcf then (
    -- uint 64
    if c.mi + 9 > inp.length then .error_underflow c
    else
      let v := load64 inp (c.mi + 1)
      if v > 9223372036854775807 then
        ParseCfg.next_slot
          { (c.set_typeid UlongValue).set_value (Value.of_uval v) with mi := c.mi + 9 }
      else
        ParseCfg.next_slot
          { (c.set_typeid LongValue).set_value (Value.of_ival v) with mi := c.mi + 9 })
  else if b = 0xd0 then (
    -- int 8
    if c.mi + 2 > inp.length then .error_underflow c
    else
      ParseCfg.next_slot
        { (c.set_typeid LongValue).set_value
            (Value.of_ival (sign_extend 8 (byte_at inp (c.mi + 1)))) with mi := c.mi + 2 })
  else if b = 0xd1 then (
    -- int 16
    if c.mi + 3 > inp.length then .error_underflow c
    else
      ParseCfg.next_slot
        { (c.set_typeid LongValue).set_value
            (Value.of_ival (sign_extend 16 (load16 inp (c.mi + 1)))) with mi := c.mi + 3 })
  else if b = 0xd2 then (
    -- int 32
    if c.mi + 5 > inp.length then .error_underflow c
    else
      ParseCfg.next_slot
        { (c.set_typeid LongValue).set_value
            (Value.of_ival (sign_extend 32 (load32 inp (c.mi + 1)))) with mi := c.mi + 5 })
  else if b = 0xd3 then (
    -- int 64
    if c.mi + 9 > inp.length then .error_underflow c
    else
      ParseCfg.next_slot
        { (c.set_typeid LongValue).set_value
            (Value.of_ival (sign_extend 64 (load64 inp (c.mi + 1)))) with mi := c.mi + 9 })
  else if b = 0xd4 then do_xdata inp (c.set_typeid ExtValue) (0xd4 - 0xd3)  -- fixext 1
  else if b = 0xd5 then do_xdata inp (c.set_typeid ExtValue) (0xd5 - 0xd3)  -- fixext 2
  else if b = 0xd6 then do_xdata inp (c.set_typeid ExtValue) 5  -- fixext 4
  else if b = 0xd7 then do_xdata inp (c.set_typeid ExtValue) 9  -- fixext 8
  else if b = 0xd8 then do_xdata inp (c.set_typeid ExtValue) 17  -- fixext 16
  else if b = 0xd9 then (
    -- str 8
    if c.mi + 2 > inp.length then .error_underflow c
    else do_xdata inp { c.set_typeid StringValue with mi := c.mi + 1 } (byte_at inp (c.mi + 1)))
  else if b = 0xda then (
    -- str 16
    if c.mi + 3 > inp.length then .error_underflow c
    else do_xdata inp { c.set_typeid StringValue with mi := c.mi + 2 } (load16 inp (c.mi + 1)))
  else if b = 0xdb then (
    -- str 32
    if c.mi + 5 > inp.length then .error_underflow c
    else do_xdata inp { c.set_typeid StringValue with mi := c.mi + 4 } (load32 inp (c.mi + 1)))
  else if b = 0xdc then (
    -- array 16
    if c.mi + 3 > inp.length then .error_underflow c
    else
      let len := load16 inp (c.mi + 1)
      let c := { c.set_typeid ArrayValue with mi := c.mi + 3 }
      setup_nested (c.set_xlen len) len)
  else if b = 0xdd then (
    -- array 32
    if c.mi + 5 > inp.length then .error_underflow c
    else
      let len := load32 inp (c.mi + 1)
      let c := { c.set_typeid ArrayValue with mi := c.mi + 5 }
      setup_nested (c.set_xlen len) len)
  else if b = 0xde then (
    -- map 16
    if c.mi + 3 > inp.length then .error_underflow c
    else
      let len := load16 inp (c.mi + 1)
      let c := { c.set_typeid MapValue with mi := c.mi + 3 }
      setup_nested (c.set_xlen len) (len * 2 % 4294967296))
  else if b = 0xdf then (
    -- map 32
    if c.mi + 5 > inp.length then .error_underflow c
    else
      let len := load32 inp (c.mi + 1)
      let c := { c.set_typeid MapValue with mi := c.mi + 5 }
      setup_nested (c.set_xlen len) len)
  else
    -- 0xe0 ... 0xff: negative fixint
    ParseCfg.next_slot
      { (c.set_typeid LongValue).set_value (Value.of_ival (sign_extend 8 b)) with
        mi := c.mi + 1 }

/-- One pass from the `while (todo-- == 0)` test of `parse_msgpack`: either one
turn of the pop loop, or the decoding of one value up to `goto repeat`. -/
def parse_step (f32_to_f64 : Nat → Nat) (inp : List Nat) (c : ParseCfg) : ParseStep :=
  if c.todo = 0 then
    let c := { c with todo := 4294967295 }
    if c.stack = 0 then .done c
    else
      let stack := c.stack - 1
      let todo := stack_get c.st.ov stack
      let fixit := c.patch
      let w := c.st.v.getD fixit ⟨0, 0⟩
      let patch := w.xoff
      let xoff := (((c.value : Int) - (fixit : Int)) % 4294967296).toNat
      .again { c with st := { c.st with v := c.st.v.set fixit { w with xoff := xoff } },
                      todo := todo, patch := patch, stack := stack }
  else
    let c := { c with todo := c.todo - 1 }
    if c.mi = inp.length then .error_underflow c
    else if c.value = c.st.t_capacity then
      -- ensure output has capacity for 1 more item
      let old_capacity := c.st.t_capacity
      let r := buf_grow_tv c.st.t c.st.v c.st.t_capacity (next_capacity (old_capacity + 1))
      if r.1 ≠ 0 then .error_alloc c
      else
        parse_switch f32_to_f64 inp
          { c with st := { c.st with t := r.2.1, v := r.2.2.1, t_capacity := r.2.2.2 },
                   value := old_capacity }
    else parse_switch f32_to_f64 inp c

/-- The body of `parse_msgpack` run until it leaves through a label. -/
def parse_run (f32_to_f64 : Nat → Nat) (inp : List Nat) : Nat → ParseCfg → Option ParseStep
  | 0, _ => none
  | fuel + 1, c =>
    match parse_step f32_to_f64 inp c with
    | .again c => parse_run f32_to_f64 inp fuel c
    | e => some e

/-- The locals of `parse_msgpack` on entry. -/
def parse_init (state : State) : ParseCfg :=
  { st := state, mi := 0, value := 0, todo := 1, patch := 4294967295, stack := 0 }

/-- The label through which `parse_msgpack` leaves.  A pass either consumes
input or pops the stack, and a push consumes input, so `2 * ms + 2` passes
are enough. -/
def parse_exit (f32_to_f64 : Nat → Nat) (state : State) (inp : List Nat) : Option ParseStep :=
  parse_run f32_to_f64 inp (2 * inp.length + 2) (parse_init state)

/-- `parse_msgpack(state, mi, ms)`: `inp` is the `ms` bytes at address `mi`. -/
def parse_msgpack (f32_to_f64 : Nat → Nat) (state : State) (inp : List Nat) (mi : Nat) :
    Option (Int × State) :=
  match parse_exit f32_to_f64 state inp with
  | none => none
  | some (.again _) => none
  | some (.done c) => some (0, { c.st with b1 := mi + inp.length })
  | some (.error_underflow c) => some (set_error c.st (cstr "Truncated data"))
  | some (.error_c1 c) => some (set_error c.st (cstr "Invalid data"))
  | some (.error_alloc c) => some (set_error c.st (cstr "Out of memory"))

/-- The number of slots a successful `parse_msgpack` has written: the final
`value - value_buf`. -/
def parse_nslots (f32_to_f64 : Nat → Nat) (state : State) (inp : List Nat) : Nat :=
  match parse_exit f32_to_f64 state inp with
  | some (.done c) => c.value
  | _ => 0

/-- What the `switch (*mi)` of `parse_msgpack` decides at offset `mi`, as data:
a slot without payload bytes of its own, a string/bin/ext that goes through
`do_xdata`, a container that goes through `setup_nested`, or an error exit. -/
inductive Decoded where
  | scalar (tag : Nat) (w : Option Value) (adv : Nat)
  | xdata (tag : Nat) (pre : Nat) (len : Nat)
  | nested (tag : Nat) (adv : Nat) (xlen : Nat) (len : Nat)
  | underflow
  | c1
  deriving DecidableEq, Repr

/-- The case analysis of `parse_switch`, without the state. -/
def decode_at (f32_to_f64 : Nat → Nat) (inp : List Nat) (mi : Nat) : Decoded :=
  let b := byte_at inp mi
  if b ≤ 0x7f then .scalar LongValue (some (Value.of_ival b)) 1
  else if b ≤ 0x8f then .nested MapValue 1 (b - 0x80) ((b - 0x80) * 2 % 4294967296)
  else if b ≤ 0x9f then .nested ArrayValue 1 (b - 0x90) (b - 0x90)
  else if b ≤ 0xbf then .xdata StringValue 0 (b - 0xa0)
  else if b = 0xc0 then .scalar NilValue none 1
  else if b = 0xc1 then .c1
  else if b = 0xc2 then .scalar FalseValue none 1
  else if b = 0xc3 then .scalar TrueValue none 1
  else if b = 0xc4 then if mi + 2 > inp.length then .underflow else .xdata BinValue 1 (byte_at inp (mi + 1))
  else if b = 0xc5 then if mi + 3 > inp.length then .underflow else .xdata BinValue 2 (load16 inp (mi + 1))
  else if b = 0xc6 then if mi + 5 > inp.length then .underflow else .xdata BinValue 4 (load32 inp (mi + 1))
  else if b = 0xc7 then (
    if mi + 2 > inp.length then .underflow else .xdata ExtValue 1 (byte_at inp (mi + 1) + 1))
  else if b = 0xc8 then if mi + 3 > inp.length then .underflow else .xdata ExtValue 2 (load16 inp (mi + 1))
  else if b = 0xc9 then if mi + 5 > inp.length then .underflow else .xdata ExtValue 4 (load32 inp (mi + 1))
  else if b = 0xca then (
    if mi + 5 > inp.length then .underflow
    else .scalar FloatValue (some (Value.of_uval (f32_to_f64 (load32 inp (mi + 1))))) 5)
  else if b = 0xcb then (
    if mi + 9 > inp.length then .underflow
    else .scalar DoubleValue (some (Value.of_uval (load64 inp (mi + 1)))) 9)
  else if b = 0xcc then (
    if mi + 2 > inp.length then .underflow
    else .scalar LongValue (some (Value.of_ival (byte_at inp (mi + 1)))) 2)
  else if b = 0xcd then (
    if mi + 3 > inp.length then .underflow
    else .scalar LongValue (some (Value.of_ival (load16 inp (mi + 1)))) 3)
  else if b = 0xce then (
    if mi + 5 > inp.length then .underflow
    else .scalar LongValue (some (Value.of_ival (load32 inp (mi + 1)))) 5)
  else if b = 0xcf then (
    if mi + 9 > inp.length then .underflow
    else if load64 inp (mi + 1) > 9223372036854775807 then
      .scalar UlongValue (some (Value.of_uval (load64 inp (mi + 1)))) 9
    else .scalar LongValue (some (Value.of_ival (load64 inp (mi + 1)))) 9)
  else if b = 0xd0 then (
    if mi + 2 > inp.length then .underflow
    else .scalar LongValue (some (Value.of_ival (sign_extend 8 (byte_at inp (mi + 1))))) 2)
  else if b = 0xd1 then (
    if mi + 3 > inp.length then .underflow
    else .scalar LongValue (some (Value.of_ival (sign_extend 16 (load16 inp (mi + 1))))) 3)
  else if b = 0xd2 then (
    if mi + 5 > inp.length then .underflow
    else .scalar LongValue (some (Value.of_ival (sign_extend 32 (load32 inp (mi + 1))))) 5)
  else if b = 0xd3 then (
    if mi + 9 > inp.length then .underflow
    else .scalar LongValue (some (Value.of_ival (sign_extend 64 (load64 inp (mi + 1))))) 9)
  else if b = 0xd4 then .xdata ExtValue 0 1
  else if b = 0xd5 then .xdata ExtValue 0 2
  else if b = 0xd6 then .xdata ExtValue 0 5
  else if b = 0xd7 then .xdata ExtValue 0 9
  else if b = 0xd8 then .xdata ExtValue 0 17
  else if b = 0xd9 then if mi + 2 > inp.length then .underflow else .xdata StringValue 1 (byte_at inp (mi + 1))
  else if b = 0xda then if mi + 3 > inp.length then .underflow else .xdata StringValue 2 (load16 inp (mi + 1))
  else if b = 0xdb then if mi + 5 > inp.length then .underflow else .xdata StringValue 4 (load32 inp (mi + 1))
  else if b = 0xdc then (
    if mi + 3 > inp.length then .underflow
    else .nested ArrayValue 3 (load16 inp (mi + 1)) (load16 inp (mi + 1)))
  else if b = 0xdd then (
    if mi + 5 > inp.length then .underflow
    else .nested ArrayValue 5 (load32 inp (mi + 1)) (load32 inp (mi + 1)))
  else if b = 0xde then (
    if mi + 3 > inp.length then .underflow
    else .nested MapValue 3 (load16 inp (mi + 1)) (load16 inp (mi + 1) * 2 % 4294967296))
  else if b = 0xdf then (
    if mi + 5 > inp.length then .underflow
    else .nested MapValue 5 (load32 inp (mi + 1)) (load32 inp (mi + 1)))
  else
    .scalar LongValue (some (Value.of_ival (sign_extend 8 b))) 1

/-- What `parse_switch` does with the state for each decision of `decode_at`. -/
def apply_decoded (inp : List Nat) (c : ParseCfg) : Decoded → ParseStep
  | .scalar tag none adv => ParseCfg.next_slot { c.set_typeid tag with mi := c.mi + adv }
  | .scalar tag (some w) adv =>
    ParseCfg.next_slot { (c.set_typeid tag).set_value w with mi := c.mi + adv }
  | .xdata tag pre len => do_xdata inp { c.set_typeid tag with mi := c.mi + pre } len
  | .nested tag adv xlen len =>
    setup_nested (ParseCfg.set_xlen { c.set_typeid tag with mi := c.mi + adv } xlen) len
  | .underflow => .error_underflow c
  | .c1 => .error_c1 c

/-- The configuration after the capacity check at the head of the loop body of
`parse_msgpack` (`realloc` never fails). -/
def ParseCfg.with_room (c : ParseCfg) : ParseCfg :=
  if c.value = c.st.t_capacity then
    let r := buf_grow_tv c.st.t c.st.v c.st.t_capacity (next_capacity (c.st.t_capacity + 1))
    { c with st := { c.st with t := r.2.1, v := r.2.2.1, t_capacity := r.2.2.2 },
             value := c.st.t_capacity }
  else c

/-- The configuration after `k` passes that all end in `goto repeat` or in one
more turn of the pop loop. -/
def parse_steps (f32_to_f64 : Nat → Nat) (inp : List Nat) : Nat → ParseCfg → Option ParseCfg
  | 0, c => some c
  | k + 1, c =>
    match parse_step f32_to_f64 inp c with
    | .again c => parse_steps f32_to_f64 inp k c
    | _ => none

/-- The MsgPack framing of a string, bin or ext whose first byte stands at
offset `p` of the input, read off the format: the type id, the size of the
header (opcode and length field) and the size of the payload.  The payload of
an ext is its type byte followed by its data. -/
def blob_frame (inp : List Nat) (p : Nat) : Option (Nat × Nat × Nat) :=
  let b := byte_at inp p
  if 0xa0 ≤ b ∧ b ≤ 0xbf then some (StringValue, 1, b - 0xa0)
  else if b = 0xd9 then some (StringValue, 2, byte_at inp (p + 1))
  else if b = 0xda then some (StringValue, 3, load16 inp (p + 1))
  else if b = 0xdb then some (StringValue, 5, load32 inp (p + 1))
  else if b = 0xc4 then some (BinValue, 2, byte_at inp (p + 1))
  else if b = 0xc5 then some (BinValue, 3, load16 inp (p + 1))
  else if b = 0xc6 then some (BinValue, 5, load32 inp (p + 1))
  else if b = 0xd4 then some (ExtValue, 1, 1 + 1)
  else if b = 0xd5 then some (ExtValue, 1, 2 + 1)
  else if b = 0xd6 then some (ExtValue, 1, 4 + 1)
  else if b = 0xd7 then some (ExtValue, 1, 8 + 1)
  else if b = 0xd8 then some (ExtValue, 1, 16 + 1)
  else if b = 0xc7 then some (ExtValue, 2, byte_at inp (p + 1) + 1)
  else if b = 0xc8 then some (ExtValue, 3, load16 inp (p + 1) + 1)
  else if b = 0xc9 then some (ExtValue, 5, load32 inp (p + 1) + 1)
  else none

/-- The ext opcodes for which `parse_switch` takes a length that is one less
than the size of the payload: fixext 1, fixext 2, ext 16 and ext 32. -/
def short_ext (b : Nat) : Prop := b = 0xd4 ∨ b = 0xd5 ∨ b = 0xc8 ∨ b = 0xc9

instance (b : Nat) : Decidable (short_ext b) := by
  unfold short_ext; infer_instance

/-- What the parser relies on for each decision of `decode_at` at an offset
`mi` inside the input: the cursor moves forward and stays inside the input,
the type id fits the kind of slot, and a blob is framed as the format says. -/
def decode_good (inp : List Nat) (mi : Nat) : Decoded → Prop
  | .scalar tag _ adv =>
    1 ≤ adv ∧ mi + adv ≤ inp.length ∧ tag ≠ StringValue ∧ tag ≠ BinValue ∧ tag ≠ ExtValue ∧
      tag ≠ ArrayValue ∧ tag ≠ MapValue
  | .xdata tag pre len =>
    mi + pre < inp.length ∧ (tag = StringValue ∨ tag = BinValue ∨ tag = ExtValue) ∧
      ∃ n, blob_frame inp mi = some (tag, pre + 1, n) ∧
        (¬ short_ext (byte_at inp mi) → len = n)
  | .nested tag adv _ _ =>
    1 ≤ adv ∧ mi + adv ≤ inp.length ∧ (tag = ArrayValue ∨ tag = MapValue)
  | .underflow => True
  | .c1 => byte_at inp mi = 0xc1

/-- The patch chain: `depth` containers not yet closed, linked through their
`xoff` fields from `patch` downwards, all below `bound`. -/
def Chain (t : List Nat) (v : List Value) : Nat → Nat → Nat → Prop
  | _, _, 0 => True
  | bound, patch, depth + 1 =>
    patch < bound ∧ (t.getD patch 0 = ArrayValue ∨ t.getD patch 0 = MapValue) ∧
    Chain t v patch (v.getD patch ⟨0, 0⟩).xoff depth

/-- A slot with a blob type id agrees with the framing of some blob of the
input: its payload starts `xoff` bytes before the end of the input and, unless
the opcode is one of `short_ext`, `xlen` is the size of the payload, which
lies inside the input. -/
def blob_ok (inp : List Nat) (tag : Nat) (w : Value) : Prop :=
  ∃ p hdr n, blob_frame inp p = some (tag, hdr, n) ∧ p + hdr + w.xoff = inp.length ∧
    (¬ short_ext (byte_at inp p) → w.xlen = n ∧ p + hdr + n ≤ inp.length)

/-- What every pass of `parse_msgpack` keeps true. -/
structure ParseInv (inp : List Nat) (c : ParseCfg) : Prop where
  len_t : c.st.t.length = c.st.t_capacity
  len_v : c.st.v.length = c.st.t_capacity
  value_le : c.value ≤ c.st.t_capacity
  mi_le : c.mi ≤ inp.length
  value_mi : c.value ≤ c.mi
  chain : Chain c.st.t c.st.v c.value c.patch c.stack
  blobs : ∀ i, i < c.value →
    (c.st.t.getD i 0 = StringValue ∨ c.st.t.getD i 0 = BinValue ∨ c.st.t.getD i 0 = ExtValue) →
    blob_ok inp (c.st.t.getD i 0) (c.st.v.getD i ⟨0, 0⟩)

/-! ## `unparse_msgpack` -/

/-- The `n` bytes of memory from address `a` on. -/
def load_bytes (mem : Nat → Nat) (a n : Nat) : List Nat :=
  (List.range n).map (fun k => mem (a + k))

/-- The two bytes of `host2net16((uint16_t)x)`. -/
def be16 (x : Nat) : List Nat := [x / 256 % 256, x % 256]

/-- The four bytes of `host2net32((uint32_t)x)`. -/
def be32 (x : Nat) : List Nat := be16 (x / 65536) ++ be16 x

/-- The eight bytes of `host2net64(x)`. -/
def be64 (x : Nat) : List Nat := be32 (x / 4294967296) ++ be32 x

/-- The locals of `unparse_msgpack` together with the state.  `typeid` is the
index of the slot under the read cursor (`typeid - state->ot`, also
`value - state->ov`), `out` the write offset in `res`, `copy_from` the
address of the end of the current bank. -/
structure UnparseCfg where
  st : State
  typeid : Nat
  out : Nat
  copy_from : Nat
  deriving DecidableEq, Repr

/-- Where one pass through the loop body of `unparse_msgpack` leaves it. -/
inductive UnparseStep where
  | again (c : UnparseCfg)
  | done (c : UnparseCfg)
  | error_alloc (c : UnparseCfg)
  | error_badcode (c : UnparseCfg)
  deriving DecidableEq, Repr

/-- The buffer test shared by `check_buf` (`need = 10`) and `copy_data`
(`need = xlen + 10`): grow `res` when fewer than `need` bytes are left. -/
def ensure_res (state : State) (out need : Nat) : Int × State :=
  if out + need > state.res_capacity then
    let r := buf_grow state.res state.res_capacity (next_capacity (state.res_capacity + need))
    if r.1 ≠ 0 then (-1, state)
    else (0, { state with res := r.2.1, res_capacity := r.2.2 })
  else (0, state)

/-- `out[0..] = bs; out += n`. -/
def UnparseCfg.emit (c : UnparseCfg) (at_ : Nat) (bs : List Nat) (n : Nat) : UnparseCfg :=
  { c with st := { c.st with res := store c.st.res (c.out + at_) bs }, out := c.out + n }

/-- Label `check_buf`, then `continue`. -/
def check_buf (c : UnparseCfg) : UnparseStep :=
  let r := ensure_res c.st c.out 10
  if r.1 ≠ 0 then .error_alloc c
  else .again { c with st := r.2, typeid := c.typeid + 1 }

/-- Label `copy_data`, then `continue`.  `none`: the slot after the last one
of the array was read. -/
def copy_data (mem : Nat → Nat) (c : UnparseCfg) (value : Value) : Option UnparseStep :=
  let r := ensure_res c.st c.out (value.xlen + 10)
  if r.1 ≠ 0 then some (.error_alloc c)
  else
    let c := { c with st := r.2 }
    if value.xoff = 4294967295 then
      -- offset is too big; next item contains explicit ptr
      match c.st.ov.get? (c.typeid + 1) with
      | none => none
      | some next =>
        let c := c.emit 0 (load_bytes mem next.uval value.xlen) value.xlen
        some (.again { c with typeid := c.typeid + 1 + 1, copy_from := c.st.b1 })
    else
      let c := c.emit 0 (load_bytes mem (c.copy_from - value.xoff) value.xlen) value.xlen
      some (.again { c with typeid := c.typeid + 1, copy_from := c.st.b1 })

/-- The `LongValue` case for a negative value. -/
def unparse_negative (c : UnparseCfg) (uval : Nat) : UnparseStep :=
  if uval ≥ 18446744073709551616 - 0x20 then
    check_buf (c.emit 0 [uval % 256] 1)
  else if uval ≥ 18446744073709551616 - 128 then
    check_buf (c.emit 0 [0xd0, uval % 256] 2)
  else if uval ≥ 18446744073709551616 - 32768 then
    check_buf (c.emit 0 (0xd1 :: be16 uval) 3)
  else if uval ≥ 18446744073709551616 - 2147483648 then
    check_buf (c.emit 0 (0xd2 :: be32 uval) 5)
  else
    check_buf (c.emit 0 (0xd3 :: be64 uval) 9)

/-- The `UlongValue` case, which a non-negative `LongValue` falls through to. -/
def unparse_unsigned (c : UnparseCfg) (uval : Nat) : UnparseStep :=
  if uval ≤ 0x7f then
    check_buf (c.emit 0 [uval % 256] 1)
  else if uval ≤ 255 then
    check_buf (c.emit 0 [0xcc, uval % 256] 2)
  else if uval ≤ 65535 then
    check_buf (c.emit 0 (0xcd :: be16 uval) 3)
  else if uval ≤ 4294967295 then
    check_buf (c.emit 0 (0xce :: be32 uval) 5)
  else
    check_buf (c.emit 0 (0xcf :: be64 uval) 9)

/-- The `StringValue` case (`CStringValue` after its bank switch). -/
def unparse_string (mem : Nat → Nat) (c : UnparseCfg) (value : Value) : Option UnparseStep :=
  if value.xlen ≤ 31 then
    copy_data mem (c.emit 0 [(0xa0 + value.xlen % 256) % 256] 1) value
  else if value.xlen ≤ 255 then
    copy_data mem (c.emit 0 [0xd9, value.xlen % 256] 2) value
  else if value.xlen ≤ 65535 then
    -- out[1] = 0xda; unaligned(out+1)->u16 = ...; out += 3
    copy_data mem ((c.emit 1 [0xda] 0).emit 1 (be16 value.xlen) 3) value
  else
    -- out[1] = 0xdb; unaligned(out+1)->u32 = ...; out += 5
    copy_data mem ((c.emit 1 [0xdb] 0).emit 1 (be32 value.xlen) 5) value

/-- The `BinValue` case (`CBinValue` after its bank switch). -/
def unparse_bin (mem : Nat → Nat) (c : UnparseCfg) (value : Value) : Option UnparseStep :=
  if value.xlen ≤ 255 then
    copy_data mem (c.emit 0 [0xc4, value.xlen % 256] 2) value
  else if value.xlen ≤ 65535 then
    copy_data mem (c.emit 0 (0xc5 :: be16 value.xlen) 3) value
  else
    copy_data mem (c.emit 0 (0xc6 :: be32 value.xlen) 5) value

/-- The `ExtValue` case. -/
def unparse_ext (mem : Nat → Nat) (c : UnparseCfg) (value : Value) : Option UnparseStep :=
  let src := c.copy_from - value.xoff
  match value.xlen with
  | 2 => some (check_buf (c.emit 0 (0xd4 :: load_bytes mem src 2) 3))
  | 3 => some (check_buf (c.emit 0 (0xd5 :: mem src :: load_bytes mem (src + 1) 2) 4))
  | 5 => some (check_buf (c.emit 0 (0xd6 :: mem src :: load_bytes mem (src + 1) 4) 6))
  | 9 => some (check_buf (c.emit 0 (0xd5 :: mem src :: load_bytes mem (src + 1) 8) 10))
  | 17 => copy_data mem (c.emit 0 [0xd8] 1) value
  | _ =>
    let len1 := (value.xlen + 4294967295) % 4294967296
    if len1 ≤ 255 then
      copy_data mem (c.emit 0 [0xc7, len1 % 256] 2) value
    else if len1 ≤ 65535 then
      copy_data mem (c.emit 0 (0xc8 :: be16 len1) 3) value
    else
      copy_data mem (c.emit 0 (0xc9 :: be32 len1) 5) value

/-- The array and map cases: `fix` is `0x90`/`0x80`, `op16` is `0xdc`/`0xde`. -/
def unparse_nested (c : UnparseCfg) (value : Value) (fix op16 : Nat) : UnparseStep :=
  if value.xlen ≤ 15 then
    check_buf (c.emit 0 [(fix + value.xlen % 256) % 256] 1)
  else if value.xlen ≤ 65535 then
    check_buf (c.emit 0 (op16 :: be16 value.xlen) 3)
  else
    check_buf (c.emit 0 ((op16 + 1) :: be32 value.xlen) 5)

/-- The `switch (*typeid)` of `unparse_msgpack`. -/
def unparse_switch (f64_to_f32 : Nat → Nat) (mem : Nat → Nat) (c : UnparseCfg)
    (tag : Nat) (value : Value) : Option UnparseStep :=
  match tag with
  | 1 => some (check_buf (c.emit 0 [0xc0] 1))
  | 2 => some (check_buf (c.emit 0 [0xc2] 1))
  | 3 => some (check_buf (c.emit 0 [0xc3] 1))
  | 4 =>
    if value.uval > 9223372036854775807 then some (unparse_negative c value.uval)
    else some (unparse_unsigned c value.uval)
  | 5 => some (unparse_unsigned c value.uval)
  | 6 => some (check_buf (c.emit 0 (0xca :: be32 (f64_to_f32 value.uval)) 5))
  | 7 => some (check_buf (c.emit 0 (0xcb :: be64 value.uval) 9))
  | 18 => unparse_string mem { c with copy_from := c.st.b2 } value
  | 8 => unparse_string mem c value
  | 19 => unparse_bin mem { c with copy_from := c.st.b2 } value
  | 9 => unparse_bin mem c value
  | 10 => unparse_ext mem c value
  | 11 => some (unparse_nested c value 0x90 0xdc)
  | 12 => some (unparse_nested c value 0x80 0xde)
  | 20 => copy_data mem { c with copy_from := c.st.b2 } value
  | _ => some (.error_badcode c)

/-- One pass of the `for` loop of `unparse_msgpack`, from its test on.
`none`: the cursor is outside the arrays `ot`/`ov`. -/
def unparse_step (f64_to_f32 : Nat → Nat) (mem : Nat → Nat) (nitems : Nat)
    (c : UnparseCfg) : Option UnparseStep :=
  if c.typeid = nitems then some (.done c)
  else
    match c.st.ot.get? c.typeid, c.st.ov.get? c.typeid with
    | some tag, some value => unparse_switch f64_to_f32 mem c tag value
    | _, _ => none

/-- The loop of `unparse_msgpack` run until it leaves through a label. -/
def unparse_run (f64_to_f32 : Nat → Nat) (mem : Nat → Nat) (nitems : Nat) :
    Nat → UnparseCfg → Option UnparseStep
  | 0, _ => none
  | fuel + 1, c =>
    match unparse_step f64_to_f32 mem nitems c with
    | some (.again c) => unparse_run f64_to_f32 mem nitems fuel c
    | r => r

/-- The label through which `unparse_msgpack` leaves.  It is entered by
`goto check_buf` with the cursor one slot before the first; every pass moves
the cursor forward inside `ot`, so `ot_capacity + 1` passes are enough. -/
def unparse_exit (f64_to_f32 : Nat → Nat) (mem : Nat → Nat) (state : State) (nitems : Nat) :
    Option UnparseStep :=
  let r := ensure_res state 0 10
  let c : UnparseCfg := { st := state, typeid := 0, out := 0, copy_from := state.b1 }
  if r.1 ≠ 0 then some (.error_alloc c)
  else unparse_run f64_to_f32 mem nitems (state.ot.length + 1) { c with st := r.2 }

/-- `unparse_msgpack(state, nitems)`; `mem` is the memory the banks and the
explicit blob pointers refer to. -/
def unparse_msgpack (f64_to_f32 : Nat → Nat) (mem : Nat → Nat) (state : State) (nitems : Nat) :
    Option (Int × State) :=
  match unparse_exit f64_to_f32 mem state nitems with
  | none => none
  | some (.again _) => none
  | some (.done c) => some (0, { c.st with res_size := c.out })
  | some (.error_alloc c) => some (set_error c.st (cstr "Out of memory"))
  | some (.error_badcode c) => some (set_error c.st (cstr "Internal error: unknown code"))

/-- `schema_rt_buf_grow`: the return code and the state. -/
def schema_rt_buf_grow (state : State) (min_capacity : Nat) : Int × State :=
  let r := buf_grow_tv state.ot state.ov state.ot_capacity (next_capacity min_capacity)
  (r.1, { state with ot := r.2.1, ov := r.2.2.1, ot_capacity := r.2.2.2 })

/-! ## Hash functions -/

/-- `str[i]` of an ASCII-Z string, given by its bytes before the terminator:
the terminator reads 0 (and so does, in this model, everything after it). -/
def char_at (str : List Nat) (i : Nat) : Nat := str.getD i 0

/-- `eval_fnv1a_func`. -/
def eval_fnv1a_func (seed : Nat) (str : List Nat) (len : Nat) : Nat :=
  (List.range len).foldl
    (fun res i => (res ^^^ char_at str i) * 0x1000193 % 4294967296) seed

/-- `eval_hash_func`. -/
def eval_hash_func (func : Nat) (str : List Nat) (len : Nat) : Nat :=
  let family := func / 16777216
  if family > 0xf then
    let seed := eval_fnv1a_func 0x811c9dc5 (be32 func) 4
    eval_fnv1a_func seed str len
  else
    let a := func / 65536 % 256
    let b := func / 256 % 256
    let c := func % 256
    match family with
    | 0x1 => char_at str a
    | 0x2 => char_at str a + char_at str b
    | 0x3 => char_at str a + char_at str b + char_at str c
    | 0x4 => len % 4294967296
    | 0x5 => (len + char_at str a) % 4294967296
    | 0x6 => (len + char_at str a + char_at str b) % 4294967296
    | 0x7 => (len + char_at str a + char_at str b + char_at str c) % 4294967296
    | 0x9 => char_at str a
    | 0xa => (char_at str a <<< 8) ||| char_at str b
    | 0xb => (char_at str a <<< 16) ||| (char_at str b <<< 8) ||| char_at str c
    | 0xc => len % 4294967296
    | 0xd => ((len <<< 8) ||| char_at str a) % 4294967296
    | 0xe => ((len <<< 16) ||| (char_at str a <<< 8) ||| char_at str b) % 4294967296
    | 0xf =>
      ((len <<< 24) ||| (char_at str a <<< 16) ||| (char_at str b <<< 8) ||| char_at str c)
        % 4294967296
    | _ => 0

/-- The loop `while (bucket_count <= n) bucket_count *= 2`. -/
def bucket_count_loop : Nat → Nat → Nat → Nat
  | 0, bucket_count, _ => bucket_count
  | fuel + 1, bucket_count, n =>
    if bucket_count ≤ n then bucket_count_loop fuel (bucket_count * 2 % 4294967296) n
    else bucket_count

/-- The `while (1)` probe loop of `collisions_found` for one hash: `none` when
the fuel runs out, else whether a collision was found, with the bitmap and the
buckets as the loop leaves them. -/
def probe_loop (bucket_count hash : Nat) :
    Nat → Nat → Nat → List Nat → List Nat → Option (Bool × List Nat × List Nat)
  | 0, _, _, _, _ => none
  | fuel + 1, j, perturb, bitmap, buckets =>
    let j := (j * 5 + 1 + perturb) % 4294967296
    let perturb := perturb >>> 5
    let index := j &&& (bucket_count - 1)
    let mask := 1 <<< (index &&& 63)
    if bitmap.getD (index / 64) 0 &&& mask ≠ 0 then
      -- bucket used; maybe a collision
      if buckets.getD index 0 = hash then some (true, bitmap, buckets)
      else probe_loop bucket_count hash fuel j perturb bitmap buckets
    else
      -- mark bucket as used and store hash
      some (false, bitmap.set (index / 64) (bitmap.getD (index / 64) 0 ||| mask),
            buckets.set index hash)

/-- The `for` loop of `collisions_found` over the strings `i, i + 1, ..., n - 1`. -/
def collisions_loop (func n : Nat) (strings : List (List Nat)) (bucket_count : Nat) :
    Nat → Nat → List Nat → List Nat → Option Int
  | 0, _, _, _ => some 0
  | k + 1, i, bitmap, buckets =>
    let str := strings.getD i []
    let hash := eval_hash_func func str (if 0xf4000000 &&& func ≠ 0 then str.length else 0)
    match probe_loop bucket_count hash (bucket_count + 7) 0 hash bitmap buckets with
    | none => none
    | some (true, _, _) => some 1
    | some (false, bitmap, buckets) =>
      collisions_loop func n strings bucket_count k (i + 1) bitmap buckets

/-- `collisions_found`; `mem` is the scratch area as 32-bit words.  The bitmap
lies behind the buckets and is cleared first. -/
def collisions_found (func n : Nat) (strings : List (List Nat)) (mem : List Nat) :
    Option Int :=
  if n < 2 then some 0
  else
    let bucket_count := bucket_count_loop (n + 1) 1 n
    let bitmap := List.replicate ((bucket_count + 63) / 64) 0
    collisions_loop func n strings bucket_count n 0 bitmap mem

/-- The loop of `create_fnv_func` over the windows at offsets `off, off + 1, ...`
of the random pool. -/
def create_fnv_loop (n : Nat) (strings : List (List Nat)) (random : List Nat)
    (mem : List Nat) : Nat → Nat → Option Nat
  | 0, _ => some 0
  | k + 1, off =>
    let v := load32 random off
    if v > 0xf000000 then
      match collisions_found v n strings mem with
      | none => none
      | some r =>
        if r = 0 then some v
        else create_fnv_loop n strings random mem k (off + 1)
    else create_fnv_loop n strings random mem k (off + 1)

/-- `create_fnv_func`; `random.length` is `size_random`. -/
def create_fnv_func (n : Nat) (strings : List (List Nat)) (random : List Nat)
    (mem : List Nat) : Option Nat :=
  if random.length < 4 then some 0
  else create_fnv_loop n strings random mem (random.length - 4 + 1) 0

/-- `DOMAIN_END_BIT`. -/
abbrev DOMAIN_END_BIT : Nat := 0x80000000
/-- `IDX_MASK`. -/
abbrev IDX_MASK : Nat := 0x7fffffff

/-- The probe of a string at a position: `0x7f & strlen(str)` for position -1,
else `str[pos]`. -/
def probe_of (str : List Nat) (pos : Int) : Nat :=
  if pos = -1 then 0x7f &&& str.length else char_at str pos.toNat

/-- The inner loop of the position scan: the strings `i, ..., n_active - 1` of
the active list.  Returns the probes and, unless a string ends at `pos`
(`goto save_best_pos`), the generation and the collision count. -/
def scan_strings (strings : List (List Nat)) (slots : List Nat) (indices : Nat) (pos : Int) :
    Nat → Nat → List Nat → Nat → Nat → List Nat × Option (Nat × Nat)
  | 0, _, probes, gen, collisions => (probes, some (gen, collisions))
  | k + 1, i, probes, gen, collisions =>
    let idx := slots.getD (indices + i) 0
    let str := strings.getD (idx &&& IDX_MASK) []
    if pos ≠ -1 ∧ char_at str pos.toNat = 0 then (probes, none)
    else
      let probe := probe_of str pos
      let hit := probes.getD probe 0 = gen
      scan_strings strings slots indices pos k (i + 1)
        (if hit then probes else probes.set probe gen)
        ((gen + (idx >>> 31)) % 4294967296)
        (if hit then collisions + 1 else collisions)

/-- What the position scan hands to `save_best_pos`. -/
structure ScanOut where
  probes : List Nat
  best_pos : Int
  collisions_min : Nat
  max_len : Int
  deriving DecidableEq, Repr

/-- The loop `for (pos = use_len - 1; pos < max_len; pos++)`. -/
def scan_positions (strings : List (List Nat)) (slots : List Nat) (indices n_active : Nat)
    (max_len : Int) : Nat → Int → List Nat → Nat → Nat → Int → Option ScanOut
  | 0, _, _, _, _, _ => none
  | fuel + 1, pos, probes, gen, collisions_min, best_pos =>
    if pos < max_len then
      match scan_strings strings slots indices pos n_active 0 probes gen 0 with
      | (probes, none) =>
        -- we may drop the string when splitting domains
        some { probes := probes, best_pos := best_pos, collisions_min := collisions_min,
               max_len := pos }
      | (probes, some (gen, collisions)) =>
        if collisions < collisions_min then
          scan_positions strings slots indices n_active max_len fuel (pos + 1) probes gen
            collisions pos
        else
          scan_positions strings slots indices n_active max_len fuel (pos + 1) probes gen
            collisions_min best_pos
    else
      some { probes := probes, best_pos := best_pos, collisions_min := collisions_min,
             max_len := max_len }

/-- The loop at label `sort_sample_pos` on the first three sample positions. -/
def sort_sample_pos : Nat → List Nat → Option (List Nat)
  | 0, _ => none
  | fuel + 1, sp =>
    let sp := if sp.getD 0 0 > sp.getD 1 0 then (sp.set 0 (sp.getD 1 0)).set 1 (sp.getD 0 0) else sp
    if sp.getD 1 0 > sp.getD 2 0 then
      sort_sample_pos fuel ((sp.set 1 (sp.getD 2 0)).set 2 (sp.getD 1 0))
    else some sp

/-- `__builtin_ctzll` of a nonzero 64-bit word. -/
def ctz : Nat → Nat → Nat
  | 0, _ => 0
  | fuel + 1, m => if m % 2 = 1 then 0 else 1 + ctz fuel (m / 2)

/-- The first inner loop of the rebuild: count the probes of one collision
domain, from item `j` up to its end marker, and mark where the new domains
begin.  Returns the slots, the probes, the map and the index of the last item. -/
def rebuild_count (strings : List (List Nat)) (best_pos : Int) (indices : Nat) :
    Nat → Nat → List Nat → List Nat → Nat → Option (List Nat × List Nat × Nat × Nat)
  | 0, _, _, _, _ => none
  | fuel + 1, j, slots, probes, map =>
    let idx := slots.getD (indices + j) 0
    let str := strings.getD (idx &&& IDX_MASK) []
    let probe := probe_of str best_pos
    let map := map ||| (1 <<< (probe / 2))
    let probes := probes.set probe ((probes.getD probe 0 + 1) % 4294967296)
    if idx &&& DOMAIN_END_BIT ≠ 0 then
      -- the end of the original collision domain
      some (if probes.getD probe 0 ≠ 1 then slots.set (indices + j) (idx &&& IDX_MASK) else slots,
            probes, map, j)
    else
      rebuild_count strings best_pos indices fuel (j + 1)
        (if probes.getD probe 0 = 1 then slots.set (indices + j) (DOMAIN_END_BIT ||| idx)
         else slots)
        probes map

/-- The second inner loop of the rebuild: give every new domain of two or more
strings its output position; one-string domains get `n_active`. -/
def rebuild_assign (n_active : Nat) : Nat → Nat → List Nat → Nat → Option (List Nat × Nat)
  | 0, _, _, _ => none
  | fuel + 1, map_copy, probes, o =>
    if map_copy ≠ 0 then
      let pos := 2 * ctz 64 map_copy
      let o0 := if probes.getD pos 0 > 1 then o + probes.getD pos 0 else o
      let probes := probes.set pos (if probes.getD pos 0 > 1 then o0 else n_active)
      let o1 := if probes.getD (pos + 1) 0 > 1 then o0 + probes.getD (pos + 1) 0 else o0
      let probes := probes.set (pos + 1) (if probes.getD (pos + 1) 0 > 1 then o1 else n_active)
      rebuild_assign n_active fuel (map_copy &&& (map_copy - 1)) probes o1
    else some (probes, o)

/-- The third inner loop of the rebuild: copy the items `j, ..., end - 1` to
their output positions. -/
def rebuild_copy (strings : List (List Nat)) (best_pos : Int) (indices next_indices : Nat) :
    Nat → Nat → List Nat → List Nat → List Nat × List Nat
  | 0, _, slots, probes => (slots, probes)
  | k + 1, j, slots, probes =>
    let idx := slots.getD (indices + j) 0
    let str := strings.getD (idx &&& IDX_MASK) []
    let probe := probe_of str best_pos
    let probes := probes.set probe ((probes.getD probe 0 + 4294967295) % 4294967296)
    rebuild_copy strings best_pos indices next_indices k (j + 1)
      (slots.set (next_indices + probes.getD probe 0) idx) probes

/-- The last inner loop of the rebuild: zero out the probes that were touched. -/
def rebuild_zero : Nat → Nat → List Nat → Option (List Nat)
  | 0, _, _ => none
  | fuel + 1, map, probes =>
    if map ≠ 0 then
      let pos := 2 * ctz 64 map
      rebuild_zero fuel (map &&& (map - 1)) ((probes.set pos 0).set (pos + 1) 0)
    else some probes

/-- The loop `for (i = 0; i < n_active; )` that rebuilds the collision domains.
Returns the slots, the probes and `o`. -/
def rebuild_domains (strings : List (List Nat)) (best_pos : Int)
    (indices next_indices n_active : Nat) :
    Nat → Nat → List Nat → List Nat → Nat → Option (List Nat × List Nat × Nat)
  | 0, _, _, _, _ => none
  | fuel + 1, i, slots, probes, o =>
    if i < n_active then
      match rebuild_count strings best_pos indices (n_active - i) i slots probes 0 with
      | none => none
      | some (slots, probes, map, j) =>
        let end_ := j + 1
        match rebuild_assign n_active 65 map probes o with
        | none => none
        | some (probes, o) =>
          let r := rebuild_copy strings best_pos indices next_indices (end_ - i) i slots probes
          match rebuild_zero 65 map r.2 with
          | none => none
          | some probes =>
            rebuild_domains strings best_pos indices next_indices n_active fuel end_ r.1 probes o
    else some (slots, probes, o)

/-- The locals of `create_hash_func` that live across `pick_next_sample`.
`indices` is the offset of the active list inside `slots`. -/
structure HashCfg where
  probes : List Nat
  slots : List Nat
  indices : Nat
  use_len : Nat
  sample_count : Nat
  sample_pos : List Nat
  n_active : Nat
  max_len : Int
  deriving DecidableEq, Repr

/-- The body of `create_hash_func` from label `pick_next_sample` on; every turn
selects the length or one more position, so five turns reach an exit. -/
def pick_next_sample (n : Nat) (strings : List (List Nat)) (random : List Nat) :
    Nat → HashCfg → Option Nat
  | 0, _ => none
  | fuel + 1, c =>
    match scan_positions strings c.slots c.indices c.n_active c.max_len 258
        ((c.use_len : Int) - 1) c.probes 1 (c.n_active + 1) 0 with
    | none => none
    | some s =>
      -- save the best pos
      let c := { c with probes := s.probes, max_len := s.max_len }
      let c :=
        if s.best_pos = -1 then { c with use_len := 1 }
        else { c with sample_pos := c.sample_pos.set c.sample_count s.best_pos.toNat,
                      sample_count := c.sample_count + 1 }
      if s.collisions_min = 0 then
        -- found a solution, sort sample_pos[] first
        match sort_sample_pos 4 c.sample_pos with
        | none => none
        | some sp =>
          let func := ((c.sample_count <<< 24) |||
                       ((sp.getD 0 0 &&& 255) <<< 16) |||
                       ((sp.getD 1 0 &&& 255) <<< 8) |||
                       (sp.getD 2 0 &&& 255)) % 4294967296
          let func := if c.use_len ≠ 0 then func ||| 0x04000000 else func
          -- check if we can get away with a simple func
          match collisions_found func n strings (c.probes ++ c.slots) with
          | none => none
          | some r => some (if r ≠ 0 then func ||| 0x08000000 else func)
      else if c.sample_count = 4 then
        -- too many samples, yet no solution
        create_fnv_func n strings random (c.probes ++ c.slots)
      else
        -- rebuild collision domains
        let next_indices := if c.indices = 0 then c.n_active else 0
        let probes := List.replicate 128 0
        match rebuild_domains strings s.best_pos c.indices next_indices c.n_active
            (c.n_active + 1) 0 c.slots probes 0 with
        | none => none
        | some (slots, probes, o) =>
          pick_next_sample n strings random fuel
            { c with probes := probes, slots := slots, indices := next_indices, n_active := o }

/-- `create_hash_func(n, strings, random, size_random)`; `random.length` is
`size_random`.  The scratch area is `probes[128]` followed by `slots[n * 2]`. -/
def create_hash_func (n : Nat) (strings : List (List Nat)) (random : List Nat) : Option Nat :=
  if n = 0 then some 0
  else
    let probes := List.replicate 128 0
    let slots := List.replicate (n * 2) 0
    if n > 1000 then create_fnv_func n strings random (probes ++ slots)
    else
      let slots := store slots 0 (List.range n)
      let slots := slots.set (n - 1) (DOMAIN_END_BIT ||| (n - 1))
      pick_next_sample n strings random 6
        { probes := probes, slots := slots, indices := 0, use_len := 0, sample_count := 0,
          sample_pos := [256, 256, 256, 256], n_active := n, max_len := 256 }

/-- `schema_rt_key_eq`: 0 when the keys are equal, else nonzero (`memcmp` is
modelled by its sign). -/
def schema_rt_key_eq (key str : List Nat) (klen len : Nat) : Int :=
  if klen = 0 ∨ klen ≠ len then -1
  else
    match compare (key.take klen) (str.take klen) with
    | .lt => -1
    | .eq => 0
    | .gt => 1

/-! ## Definitions used by the statements -/

/-- The measure that every pass of the parser decreases. -/
def parse_measure (inp : List Nat) (c : ParseCfg) : Nat := 2 * (inp.length - c.mi) + c.stack


/-- An integer encoding of MsgPack: a fixint byte, or the payload bytes of the
unsigned (`0xcc..0xcf`) or signed (`0xd0..0xd3`) family. -/
inductive IntEnc where
  | pos_fixint (b : Nat)
  | neg_fixint (b : Nat)
  | uint (payload : List Nat)
  | int (payload : List Nat)

/-- The number a sequence of bytes denotes, most significant byte first. -/
def be_value (payload : List Nat) : Nat := payload.foldl (fun acc b => acc * 256 + b) 0

/-- The position of a payload size among 1, 2, 4, 8. -/
def width_code (len : Nat) : Nat :=
  if len = 1 then 0 else if len = 2 then 1 else if len = 4 then 2 else 3

/-- The encodings the format allows. -/
def IntEnc.wf : IntEnc → Prop
  | .pos_fixint b => b ≤ 0x7f
  | .neg_fixint b => 0xe0 ≤ b ∧ b ≤ 0xff
  | .uint p => (p.length = 1 ∨ p.length = 2 ∨ p.length = 4 ∨ p.length = 8) ∧ ∀ b ∈ p, b < 256
  | .int p => (p.length = 1 ∨ p.length = 2 ∨ p.length = 4 ∨ p.length = 8) ∧ ∀ b ∈ p, b < 256

/-- The bytes of an encoding. -/
def IntEnc.bytes : IntEnc → List Nat
  | .pos_fixint b => [b]
  | .neg_fixint b => [b]
  | .uint p => (0xcc + width_code p.length) :: p
  | .int p => (0xd0 + width_code p.length) :: p

/-- The mathematical value of an encoding: unsigned big-endian, or two's
complement for the signed family and the negative fixint. -/
def IntEnc.value : IntEnc → Int
  | .pos_fixint b => b
  | .neg_fixint b => (b : Int) - 256
  | .uint p => be_value p
  | .int p =>
    if be_value p < 2 ^ (8 * p.length - 1) then (be_value p : Int)
    else (be_value p : Int) - ((2 ^ (8 * p.length) : Nat) : Int)


/-- The type ids `unparse_msgpack` has a case for. -/
def known_tag (tag : Nat) : Prop := (1 ≤ tag ∧ tag ≤ 12) ∨ tag = 18 ∨ tag = 19 ∨ tag = 20

instance (tag : Nat) : Decidable (known_tag tag) := by
  unfold known_tag; infer_instance

/-- The slots that reach `copy_data` with `xoff = 0xFFFFFFFF` and so take their
bytes through the pointer in the next slot: the string, bin and copy slots, and
an ext that is not one of the inlined fixext sizes. -/
def takes_next (tag : Nat) (value : Value) : Prop :=
  value.xoff = 4294967295 ∧
    (tag = StringValue ∨ tag = CStringValue ∨ tag = BinValue ∨ tag = CBinValue ∨
      tag = CopyCommand ∨
      (tag = ExtValue ∧ value.xlen ≠ 2 ∧ value.xlen ≠ 3 ∧ value.xlen ≠ 5 ∧ value.xlen ≠ 9))

instance (tag : Nat) (value : Value) : Decidable (takes_next tag value) := by
  unfold takes_next; infer_instance

/-- The walk of the read cursor of `unparse_msgpack` over the first `nitems`
slots, looking at type ids only.  `some true`: it stops at a slot among the
first `nitems` whose type id is unknown.  `some false`: it arrives at `nitems`
having seen known type ids only.  `none`: a slot it needs is outside the
arrays, or a slot with `xoff = 0xFFFFFFFF` is the last of the `nitems`, so that
the cursor steps over `nitems`. -/
def tags_walk (ot : List Nat) (ov : List Value) (nitems : Nat) : Nat → Nat → Option Bool
  | 0, _ => none
  | fuel + 1, i =>
    if i = nitems then some false
    else if i > nitems then none
    else
      match ot.get? i, ov.get? i with
      | some tag, some value =>
        if ¬ known_tag tag then some true
        else if takes_next tag value then
          if i + 1 < nitems ∧ i + 1 < ov.length then tags_walk ot ov nitems fuel (i + 2)
          else none
        else tags_walk ot ov nitems fuel (i + 1)
      | _, _ => none

/-- The pass ends in `continue` with the cursor `n` slots further, the arrays
of slots untouched and `res` as long as its capacity. -/
def Advances (c : UnparseCfg) (n : Nat) (r : Option UnparseStep) : Prop :=
  ∃ c2, r = some (.again c2) ∧ c2.typeid = c.typeid + n ∧ c2.st.ot = c.st.ot ∧
    c2.st.ov = c.st.ov ∧ c2.st.res.length = c2.st.res_capacity


/-- The `k` low bytes of `x`, most significant first. -/
def big_endian : Nat → Nat → List Nat
  | 0, _ => []
  | k + 1, x => big_endian k (x / 256) ++ [x % 256]

/-- The shortest MsgPack encoding of the integer `n`, read off the format:
one byte for -32..127 (fixint), then the narrowest of the 8-, 16-, 32- and
64-bit classes, of the unsigned family (`0xcc..0xcf`) for `n ≥ 0` and of the
signed family (`0xd0..0xd3`, two's complement) for `n < 0`. -/
def shortest_int (n : Int) : List Nat :=
  if 0 ≤ n then
    if n ≤ 127 then [n.toNat]
    else if n ≤ 255 then 0xcc :: big_endian 1 n.toNat
    else if n ≤ 65535 then 0xcd :: big_endian 2 n.toNat
    else if n ≤ 4294967295 then 0xce :: big_endian 4 n.toNat
    else 0xcf :: big_endian 8 n.toNat
  else
    if -32 ≤ n then [(n + 256).toNat]
    else if -128 ≤ n then 0xd0 :: big_endian 1 (n + 256).toNat
    else if -32768 ≤ n then 0xd1 :: big_endian 2 (n + 65536).toNat
    else if -2147483648 ≤ n then 0xd2 :: big_endian 4 (n + 4294967296).toNat
    else 0xd3 :: big_endian 8 (n + 18446744073709551616).toNat

/-- The first bytes of the signed family: negative fixint and int 8/16/32/64. -/
def signed_opcode (b : Nat) : Prop := (0xe0 ≤ b ∧ b ≤ 0xff) ∨ (0xd0 ≤ b ∧ b ≤ 0xd3)


/-- The round trip of a message: `parse_msgpack` on `inp` stored at address
`mi`, the slots `t`/`v` copied unchanged to `ot`/`ov` with `b1` as the parse
set it, then `unparse_msgpack` over the slots the parse produced.  The result
is the status of the unparse and the first `res_size` bytes of `res`. -/
def roundtrip (f32_to_f64 f64_to_f32 : Nat → Nat) (inp : List Nat) (mi : Nat) :
    Option (Int × List Nat) :=
  match parse_msgpack f32_to_f64 State.zero inp mi with
  | none => none
  | some (rc, st) =>
    if rc ≠ 0 then none
    else
      match unparse_msgpack f64_to_f32 (fun a => inp.getD (a - mi) 0)
          { st with ot := st.t, ov := st.v, ot_capacity := st.t_capacity }
          (parse_nslots f32_to_f64 State.zero inp) with
      | none => none
      | some (rc2, st2) => some (rc2, st2.res.take st2.res_size)

/-- What a caller sees of a parse: the status, the number of slots, the slots
and the first `res_size` bytes of `res`. -/
def parse_view (f32_to_f64 : Nat → Nat) (inp : List Nat) :
    Option (Int × Nat × List (Nat × Nat × Nat) × List Nat) :=
  match parse_msgpack f32_to_f64 State.zero inp 0 with
  | none => none
  | some (rc, st) =>
    some (rc, parse_nslots f32_to_f64 State.zero inp,
      ((st.t.zip st.v).take (parse_nslots f32_to_f64 State.zero inp)).map
        (fun s => (s.1, s.2.xlen, s.2.xoff)),
      st.res.take st.res_size)

/-- The state of a caller that has filled `ot`/`ov` by hand. -/
def slot_state (ot : List Nat) (ov : List Value) : State :=
  { State.zero with ot := ot, ov := ov, ot_capacity := ot.length }

/-- The state a parse on a fresh state leaves. -/
def parsed (f32_to_f64 : Nat → Nat) (inp : List Nat) : State :=
  ((parse_msgpack f32_to_f64 State.zero inp 0).getD (0, State.zero)).2


/-- The FNV-1a update of the claims, folded from the left over a list of bytes:
`res := ((res XOR byte) * 0x01000193) mod 2^32`, starting from `seed`. -/
def fnv1a_fold (seed : Nat) (bytes : List Nat) : Nat :=
  bytes.foldl (fun res b => (res ^^^ b) * 0x01000193 % 4294967296) seed

/-- The value the claims give for a descriptor of family `F` with position
bytes `a`, `b`, `c`, before the cut to 32 bits: for `F` in 1..7 the sum of the
selected terms (the length when bit 2 of `F` is set, then as many of `str[a]`,
`str[b]`, `str[c]` as the low two bits of `F` count), for `F` in 9..15 the
packed value numbered by `F & 7`, and 0 for `F = 0` and `F = 8`. -/
def sampling_value (F a b c : Nat) (str : List Nat) (len : Nat) : Nat :=
  if 1 ≤ F ∧ F ≤ 7 then
    (if F &&& 4 ≠ 0 then len else 0) +
      (if 1 ≤ F &&& 3 then char_at str a else 0) +
      (if 2 ≤ F &&& 3 then char_at str b else 0) +
      (if 3 ≤ F &&& 3 then char_at str c else 0)
  else if 9 ≤ F ∧ F ≤ 15 then
    if F &&& 7 = 1 then char_at str a
    else if F &&& 7 = 2 then (char_at str a <<< 8) ||| char_at str b
    else if F &&& 7 = 3 then (char_at str a <<< 16) ||| (char_at str b <<< 8) ||| char_at str c
    else if F &&& 7 = 4 then len
    else if F &&& 7 = 5 then (len <<< 8) ||| char_at str a
    else if F &&& 7 = 6 then (len <<< 16) ||| (char_at str a <<< 8) ||| char_at str b
    else (len <<< 24) ||| (char_at str a <<< 16) ||| (char_at str b <<< 8) ||| char_at str c
  else 0


/-- What a caller sees of an unparse: the status, `res_size` and the first `k`
bytes of the result. -/
def unparse_view (f64_to_f32 : Nat → Nat) (mem : Nat → Nat) (state : State) (nitems k : Nat) :
    Option (Int × Nat × List Nat) :=
  match unparse_msgpack f64_to_f32 mem state nitems with
  | none => none
  | some (rc, st) => some (rc, st.res_size, (st.res.take st.res_size).take k)


/-- The number of bytes the case of `unparse_msgpack` for a slot puts in front
of the bytes it copies (its `out += k` before `copy_data`, or all it writes
when it goes to `check_buf`; the inlined fixext cases count the opcode only). -/
def header_len (tag : Nat) (value : Value) : Nat :=
  if tag = NilValue ∨ tag = FalseValue ∨ tag = TrueValue then 1
  else if tag = LongValue ∧ value.uval > 9223372036854775807 then
    if value.uval ≥ 18446744073709551616 - 0x20 then 1
    else if value.uval ≥ 18446744073709551616 - 128 then 2
    else if value.uval ≥ 18446744073709551616 - 32768 then 3
    else if value.uval ≥ 18446744073709551616 - 2147483648 then 5
    else 9
  else if tag = LongValue ∨ tag = UlongValue then
    if value.uval ≤ 0x7f then 1
    else if value.uval ≤ 255 then 2
    else if value.uval ≤ 65535 then 3
    else if value.uval ≤ 4294967295 then 5
    else 9
  else if tag = FloatValue then 5
  else if tag = DoubleValue then 9
  else if tag = StringValue ∨ tag = CStringValue then
    if value.xlen ≤ 31 then 1
    else if value.xlen ≤ 255 then 2
    else if value.xlen ≤ 65535 then 3
    else 5
  else if tag = BinValue ∨ tag = CBinValue then
    if value.xlen ≤ 255 then 2
    else if value.xlen ≤ 65535 then 3
    else 5
  else if tag = ExtValue then
    if value.xlen = 2 ∨ value.xlen = 3 ∨ value.xlen = 5 ∨ value.xlen = 9 ∨ value.xlen = 17 then 1
    else if (value.xlen + 4294967295) % 4294967296 ≤ 255 then 2
    else if (value.xlen + 4294967295) % 4294967296 ≤ 65535 then 3
    else 5
  else if tag = ArrayValue ∨ tag = MapValue then
    if value.xlen ≤ 15 then 1
    else if value.xlen ≤ 65535 then 3
    else 5
  else 0

/-- The payload of a slot that does not use the `xoff = 0xFFFFFFFF` escape, as
the claims give it: the `xlen` bytes at `b1 - xoff` for String, Bin and Ext,
the `xlen` bytes at `b2 - xoff` for CString, CBin and CopyCommand, nothing for
the other slots. -/
def slot_payload (mem : Nat → Nat) (b1 b2 : Nat) (tag : Nat) (value : Value) : List Nat :=
  if tag = StringValue ∨ tag = BinValue ∨ tag = ExtValue then
    load_bytes mem (b1 - value.xoff) value.xlen
  else if tag = CStringValue ∨ tag = CBinValue ∨ tag = CopyCommand then
    load_bytes mem (b2 - value.xoff) value.xlen
  else []

/-- The output of a walk over the first `nitems` slots, given the header bytes
`hdr i` of every slot: each slot contributes its header and its payload, where
a slot that takes its bytes through a pointer (`takes_next`) has the `xlen`
bytes at the pointer `p` of the next slot as payload and is followed by the
slot two positions later.  `none` when the walk is not defined. -/
def walk_bytes (hdr : Nat → List Nat) (mem : Nat → Nat) (b1 b2 : Nat) (ot : List Nat)
    (ov : List Value) (nitems : Nat) : Nat → Nat → Option (List Nat)
  | 0, _ => none
  | fuel + 1, i =>
    if i = nitems then some []
    else if i > nitems then none
    else
      match ot.get? i, ov.get? i with
      | some tag, some value =>
        if ¬ known_tag tag then none
        else if takes_next tag value then
          match ov.get? (i + 1) with
          | some next =>
            if i + 1 < nitems then
              (walk_bytes hdr mem b1 b2 ot ov nitems fuel (i + 2)).map
                (fun rest => hdr i ++ load_bytes mem next.uval value.xlen ++ rest)
            else none
          | none => none
        else
          (walk_bytes hdr mem b1 b2 ot ov nitems fuel (i + 1)).map
            (fun rest => hdr i ++ slot_payload mem b1 b2 tag value ++ rest)
      | _, _ => none

/-- What holds at the top of every pass of `unparse_msgpack`: `res` is as long
as its capacity, 10 bytes are free at `out`, and the current bank is `b1`. -/
def Ready (c : UnparseCfg) : Prop :=
  c.st.res.length = c.st.res_capacity ∧ c.out + 10 ≤ c.st.res_capacity ∧
    c.copy_from = c.st.b1

/-- The pass ends in `continue` with the read cursor `n` slots further and the
slots and banks untouched; it has appended to the output a header of `hlen`
bytes followed by `payload`, and the next pass can start. -/
def Writes (c : UnparseCfg) (n hlen : Nat) (payload : List Nat)
    (r : Option UnparseStep) : Prop :=
  ∃ c2 hdr, r = some (.again c2) ∧ c2.typeid = c.typeid + n ∧ c2.st.ot = c.st.ot ∧
    c2.st.ov = c.st.ov ∧ c2.st.b1 = c.st.b1 ∧ c2.st.b2 = c.st.b2 ∧ Ready c2 ∧
    hdr.length = hlen ∧ c2.out = c.out + hlen + payload.length ∧
    c2.st.res.take c2.out = c.st.res.take c.out ++ hdr ++ payload

/-- The configuration `c1` is `c` after the header of a slot was written: `h`
bytes further in `res`, everything before `out` and all the rest untouched. -/
structure Header (c c1 : UnparseCfg) (h : Nat) : Prop where
  typeid : c1.typeid = c.typeid
  ot : c1.st.ot = c.st.ot
  ov : c1.st.ov = c.st.ov
  b1 : c1.st.b1 = c.st.b1
  b2 : c1.st.b2 = c.st.b2
  len : c1.st.res.length = c.st.res.length
  cap : c1.st.res_capacity = c.st.res_capacity
  pre : c1.st.res.take c.out = c.st.res.take c.out
  out : c1.out = c.out + h


/-- A memory with the bytes `ab` at address 1000 and `xy` at address 2000. -/
def two_banks (a : Nat) : Nat :=
  if a < 2000 then [0x61, 0x62].getD (a - 1000) 0 else [0x78, 0x79].getD (a - 2000) 0


/-- The orbit of 0 under `x ↦ 5 x + 1`: `geo5 m = 1 + 5 + ... + 5^(m-1)`. -/
def geo5 : Nat → Nat
  | 0 => 0
  | m + 1 => 5 * geo5 m + 1


/-- The bit of a bucket in the bitmap of `collisions_found`:
`bitmap[index / 64] & ((uint64_t)1 << (index & 63))`. -/
def bucket_used (bitmap : List Nat) (index : Nat) : Prop :=
  bitmap.getD (index / 64) 0 &&& (1 <<< (index &&& 63)) ≠ 0

/-- One turn of the probe loop on `j` and `perturb`. -/
def probe_step (s : Nat × Nat) : Nat × Nat :=
  ((s.1 * 5 + 1 + s.2) % 4294967296, s.2 >>> 5)

/-- The bucket the probe loop looks at in its turn `m` (counted from 1) when it
starts from `j`, `perturb`. -/
def probe_index (bucket_count : Nat) (s : Nat × Nat) (m : Nat) : Nat :=
  (probe_step^[m] s).1 &&& (bucket_count - 1)


instance (bitmap : List Nat) (index : Nat) : Decidable (bucket_used bitmap index) := by
  unfold bucket_used; infer_instance


/-- The hash `collisions_found` computes for string `i`: `eval_hash_func` with
the length of the string, or with 0 when `func & 0xf4000000` is zero. -/
def hash_of (func : Nat) (strings : List (List Nat)) (i : Nat) : Nat :=
  eval_hash_func func (strings.getD i [])
    (if 0xf4000000 &&& func ≠ 0 then (strings.getD i []).length else 0)

/-- The state of the open-addressing table of `collisions_found` after the
hashes `H 0, ..., H (i - 1)` went in without a collision. -/
structure TableInv (K : Nat) (H : Nat → Nat) (i : Nat) (bitmap buckets : List Nat) : Prop where
  lenb : 2 ^ K ≤ buckets.length
  lenm : ∀ idx, idx < 2 ^ K → idx / 64 < bitmap.length
  count : ∃ U : Finset Nat, U.card ≤ i ∧ ∀ idx, bucket_used bitmap idx → idx ∈ U
  holds : ∀ idx, idx < 2 ^ K → bucket_used bitmap idx → ∃ t, t < i ∧ buckets.getD idx 0 = H t
  path : ∀ t, t < i → ∃ m, 1 ≤ m ∧
    bucket_used bitmap (probe_index (2 ^ K) (0, H t) m) ∧
    buckets.getD (probe_index (2 ^ K) (0, H t) m) 0 = H t ∧
    ∀ m2, 1 ≤ m2 → m2 < m →
      bucket_used bitmap (probe_index (2 ^ K) (0, H t) m2) ∧
      buckets.getD (probe_index (2 ^ K) (0, H t) m2) 0 ≠ H t
  inj : ∀ s t, s < t → t < i → H s ≠ H t


/-- A window value qualifies, in the words of the claim: it is greater than
`0x0F000000` and the first `n` strings have pairwise distinct hashes under
`eval_hash_func(v, s, strlen(s))`. -/
def window_ok (n : Nat) (strings : List (List Nat)) (v : Nat) : Prop :=
  v > 0x0F000000 ∧ ∀ t, t < n → ∀ s, s < t →
    eval_hash_func v (strings.getD s []) (strings.getD s []).length ≠
      eval_hash_func v (strings.getD t []) (strings.getD t []).length

instance (n : Nat) (strings : List (List Nat)) (v : Nat) : Decidable (window_ok n strings v) := by
  unfold window_ok; infer_instance

/-- The big-endian value of the 4-byte window of lowest offset in the random
pool that qualifies, or 0 when there is none (in particular when the pool has
fewer than 4 bytes). -/
def first_window (n : Nat) (strings : List (List Nat)) (random : List Nat) : Nat :=
  match (List.range (random.length - 3)).find?
      (fun off => decide (window_ok n strings (load32 random off))) with
  | some off => load32 random off
  | none => 0


/-- The configuration with which `create_hash_func` enters `pick_next_sample`. -/
def greedy_start (n : Nat) : HashCfg :=
  { probes := List.replicate 128 0,
    slots := (store (List.replicate (n * 2) 0) 0 (List.range n)).set (n - 1)
      (DOMAIN_END_BIT ||| (n - 1)),
    indices := 0, use_len := 0, sample_count := 0,
    sample_pos := [256, 256, 256, 256], n_active := n, max_len := 256 }

/-- Whether the greedy search gives up: it follows `pick_next_sample` pass by
pass and returns `some (some mem)` when the pass that has selected the fourth
position without a solution hands the scratch area `mem` to `create_fnv_func`,
`some none` when a pass finds a solution, `none` when the fuel runs out. -/
def fallback_mem (n : Nat) (strings : List (List Nat)) :
    Nat → HashCfg → Option (Option (List Nat))
  | 0, _ => none
  | fuel + 1, c =>
    match scan_positions strings c.slots c.indices c.n_active c.max_len 258
        ((c.use_len : Int) - 1) c.probes 1 (c.n_active + 1) 0 with
    | none => none
    | some s =>
      let c := { c with probes := s.probes, max_len := s.max_len }
      let c :=
        if s.best_pos = -1 then { c with use_len := 1 }
        else { c with sample_pos := c.sample_pos.set c.sample_count s.best_pos.toNat,
                      sample_count := c.sample_count + 1 }
      if s.collisions_min = 0 then some none
      else if c.sample_count = 4 then some (some (c.probes ++ c.slots))
      else
        let next_indices := if c.indices = 0 then c.n_active else 0
        let probes := List.replicate 128 0
        match rebuild_domains strings s.best_pos c.indices next_indices c.n_active
            (c.n_active + 1) 0 c.slots probes 0 with
        | none => none
        | some (slots, probes, o) =>
          fallback_mem n strings fuel
            { c with probes := probes, slots := slots, indices := next_indices, n_active := o }


/-- The sequence of the claim: `c 0 = 128`, `c (k + 1) = c k + c k / 2`. -/
def cap_seq : Nat → Nat
  | 0 => 128
  | k + 1 => cap_seq k + cap_seq k / 2


/-- A state whose output arrays hold `n` slots. -/
def out_state (n : Nat) : State :=
  { State.zero with ot := List.replicate n 0, ov := List.replicate n ⟨0, 0⟩, ot_capacity := n }


/-- The final read cursor of a successful `parse_msgpack`: the final
`mi` as an offset into the input. -/
def parse_cursor (f32_to_f64 : Nat → Nat) (state : State) (inp : List Nat) : Nat :=
  match parse_exit f32_to_f64 state inp with
  | some (.done c) => c.mi
  | _ => 0

/-- A state that holds a five-byte result from an earlier call. -/
def used_state : State :=
  { State.zero with res := [1, 2, 3, 4, 5], res_capacity := 5, res_size := 5 }


/-- The month names of the scenario, as byte strings. -/
def march : List Nat := cstr "March"

/-- The string `May`. -/
def may : List Nat := cstr "May"

/-- The string `June`. -/
def june : List Nat := cstr "June"


/-- The opcodes at which `parse_switch` departs from the framing of the
format: fixext 1, fixext 2, ext 16, ext 32 (one payload byte short) and
map 32 (count not doubled). -/
def slip_opcode (b : Nat) : Prop := short_ext b ∨ b = 0xdf

instance (b : Nat) : Decidable (slip_opcode b) := by
  unfold slip_opcode; infer_instance

/-- The MsgPack format, opcode by opcode: for the value whose first byte stands
at offset `p`, the number of bytes it takes without its children (opcode,
length or count field, payload) and the number of its children (the elements
of an array, the keys and values of a map).  `none` when these bytes do not
lie inside the input, for the opcode `0xc1`, and for a byte above `0xff`. -/
def value_head (inp : List Nat) (p : Nat) : Option (Nat × Nat) :=
  let b := byte_at inp p
  let fits (size kids : Nat) : Option (Nat × Nat) :=
    if p + size ≤ inp.length then some (size, kids) else none
  if b ≤ 0x7f then fits 1 0
  else if b ≤ 0x8f then fits 1 (2 * (b - 0x80))
  else if b ≤ 0x9f then fits 1 (b - 0x90)
  else if b ≤ 0xbf then fits (1 + (b - 0xa0)) 0
  else if b = 0xc0 then fits 1 0
  else if b = 0xc1 then none
  else if b = 0xc2 then fits 1 0
  else if b = 0xc3 then fits 1 0
  else if b = 0xc4 then fits (2 + byte_at inp (p + 1)) 0
  else if b = 0xc5 then fits (3 + load16 inp (p + 1)) 0
  else if b = 0xc6 then fits (5 + load32 inp (p + 1)) 0
  else if b = 0xc7 then fits (2 + 1 + byte_at inp (p + 1)) 0
  else if b = 0xc8 then fits (3 + 1 + load16 inp (p + 1)) 0
  else if b = 0xc9 then fits (5 + 1 + load32 inp (p + 1)) 0
  else if b = 0xca then fits 5 0
  else if b = 0xcb then fits 9 0
  else if b = 0xcc then fits 2 0
  else if b = 0xcd then fits 3 0
  else if b = 0xce then fits 5 0
  else if b = 0xcf then fits 9 0
  else if b = 0xd0 then fits 2 0
  else if b = 0xd1 then fits 3 0
  else if b = 0xd2 then fits 5 0
  else if b = 0xd3 then fits 9 0
  else if b = 0xd4 then fits (1 + 1 + 1) 0
  else if b = 0xd5 then fits (1 + 1 + 2) 0
  else if b = 0xd6 then fits (1 + 1 + 4) 0
  else if b = 0xd7 then fits (1 + 1 + 8) 0
  else if b = 0xd8 then fits (1 + 1 + 16) 0
  else if b = 0xd9 then fits (2 + byte_at inp (p + 1)) 0
  else if b = 0xda then fits (3 + load16 inp (p + 1)) 0
  else if b = 0xdb then fits (5 + load32 inp (p + 1)) 0
  else if b = 0xdc then fits 3 (load16 inp (p + 1))
  else if b = 0xdd then fits 5 (load32 inp (p + 1))
  else if b = 0xde then fits 3 (2 * load16 inp (p + 1))
  else if b = 0xdf then fits 5 (2 * load32 inp (p + 1))
  else if b ≤ 0xff then fits 1 0
  else none

/-- What reading the input as a sequence of MsgPack values comes to. -/
inductive Walk where
  | ok (count : Nat) (stop : Nat)
  | slip
  | bad
  deriving DecidableEq, Repr

/-- Read `pending` values and all their descendants from offset `p` on, by the
format (`value_head`), counting every value, container or leaf, once.
`ok count stop`: the values are complete, there are `count` of them (on top of
the count passed in) and they end at offset `stop`.  `slip`: a value begins
with one of the opcodes of `slip_opcode`.  `bad`: a value is cut short or
begins with `0xc1`.  A value takes at least one byte, so a fuel of one more
than the number of bytes from `p` on is enough. -/
def value_walk (inp : List Nat) : Nat → Nat → Nat → Nat → Walk
  | 0, _, _, _ => .bad
  | fuel + 1, p, pending, count =>
    if pending = 0 then .ok count p
    else if slip_opcode (byte_at inp p) then .slip
    else
      match value_head inp p with
      | none => .bad
      | some (size, kids) => value_walk inp fuel (p + size) (pending - 1 + kids) (count + 1)

/-- The sum of the first `k` items of the stack of `parse_msgpack`: the number
of values still to come in the containers that are open below the innermost. -/
def stack_sum (ov : List Value) : Nat → Nat
  | 0 => 0
  | k + 1 => stack_sum ov k + stack_get ov k

/-- The decision of `decode_at` agrees with the format on the size and on the
number of children of the value. -/
def head_agrees (inp : List Nat) (mi : Nat) : Decoded → Prop
  | .scalar _ _ adv => value_head inp mi = some (adv, 0)
  | .xdata _ pre len => mi + pre + len + 1 ≤ inp.length → value_head inp mi = some (pre + len + 1, 0)
  | .nested _ adv _ len => value_head inp mi = some (adv, len)
  | .underflow => True
  | .c1 => True

/-- What the count of slots relies on: the stack lies inside `ov`. -/
structure WalkInv (inp : List Nat) (c : ParseCfg) : Prop where
  len_ov : c.st.ov.length = c.st.ot_capacity
  stack_le : c.stack ≤ 2 * c.st.ot_capacity
  mi_le : c.mi ≤ inp.length


/-- The greedy search of `create_hash_func` followed pass by pass, like
`pick_next_sample`, up to the pass that finds a solution: `some (some c)` with
the locals `c` as they stand after `save_best_pos` in that pass, `some none`
when the search falls back to `create_fnv_func`, `none` when the fuel runs
out. -/
def greedy_exit (n : Nat) (strings : List (List Nat)) :
    Nat → HashCfg → Option (Option HashCfg)
  | 0, _ => none
  | fuel + 1, c =>
    match scan_positions strings c.slots c.indices c.n_active c.max_len 258
        ((c.use_len : Int) - 1) c.probes 1 (c.n_active + 1) 0 with
    | none => none
    | some s =>
      let c := { c with probes := s.probes, max_len := s.max_len }
      let c :=
        if s.best_pos = -1 then { c with use_len := 1 }
        else { c with sample_pos := c.sample_pos.set c.sample_count s.best_pos.toNat,
                      sample_count := c.sample_count + 1 }
      if s.collisions_min = 0 then some (some c)
      else if c.sample_count = 4 then some none
      else
        let next_indices := if c.indices = 0 then c.n_active else 0
        let probes := List.replicate 128 0
        match rebuild_domains strings s.best_pos c.indices next_indices c.n_active
            (c.n_active + 1) 0 c.slots probes 0 with
        | none => none
        | some (slots, probes, o) =>
          greedy_exit n strings fuel
            { c with probes := probes, slots := slots, indices := next_indices, n_active := o }

/-- The code of `create_hash_func` from label `sort_sample_pos` to
`return func`, on the locals `c`. -/
def encode_func (n : Nat) (strings : List (List Nat)) (c : HashCfg) : Option Nat :=
  match sort_sample_pos 4 c.sample_pos with
  | none => none
  | some sp =>
    let func := ((c.sample_count <<< 24) |||
                 ((sp.getD 0 0 &&& 255) <<< 16) |||
                 ((sp.getD 1 0 &&& 255) <<< 8) |||
                 (sp.getD 2 0 &&& 255)) % 4294967296
    let func := if c.use_len ≠ 0 then func ||| 0x04000000 else func
    match collisions_found func n strings (c.probes ++ c.slots) with
    | none => none
    | some r => some (if r ≠ 0 then func ||| 0x08000000 else func)

/-- What the passes of the greedy search keep true of `sample_pos[]`: the
positions selected so far are below 256 and the entries behind them still
hold the initial 256. -/
structure PosInv (n : Nat) (c : HashCfg) : Prop where
  sp_len : c.sample_pos.length = 4
  lo : ∀ i, i < c.sample_count → c.sample_pos.getD i 0 < 256
  hi : ∀ i, c.sample_count ≤ i → i < 4 → c.sample_pos.getD i 0 = 256
  ml : c.max_len ≤ 256
  sl : c.slots.length = 2 * n


/-- What the greedy search keeps true of the strings: the positions selected
so far lie inside every string (at most at its terminator), and either
`max_len` does not exceed the length of any string, or the active list still
holds all `n` strings, as it does before the first pass. -/
structure InsideInv (n : Nat) (strings : List (List Nat)) (c : HashCfg) : Prop where
  pos_le : ∀ i, i < c.sample_count → ∀ t, t < n →
    c.sample_pos.getD i 0 ≤ (strings.getD t []).length
  len_or : (∀ t, t < n → c.max_len ≤ ((strings.getD t []).length : Int)) ∨
    (c.n_active = n ∧ c.use_len ≤ 1 ∧
      ∀ j, j < n → c.slots.getD (c.indices + j) 0 &&& IDX_MASK = j)


/-- The number of input bytes the decision of `decode_at` makes the decoder
consume for one value: what `parse_switch` (and `do_xdata`) add to `mi` before
`goto repeat`. -/
def decoded_size : Decoded → Option Nat
  | .scalar _ _ adv => some adv
  | .xdata _ pre len => some (pre + len + 1)
  | .nested _ adv _ _ => some adv
  | .underflow => none
  | .c1 => none

/-- The offset of the input at which the decoder reads the opcode of slot `i`:
slot 0 begins at offset 0, and each slot begins where the bytes the decoder
consumed for the slot before it end. -/
def slot_offset (f32_to_f64 : Nat → Nat) (inp : List Nat) : Nat → Option Nat
  | 0 => some 0
  | i + 1 =>
    match slot_offset f32_to_f64 inp i with
    | none => none
    | some p =>
      match decoded_size (decode_at f32_to_f64 inp p) with
      | none => none
      | some size => some (p + size)

/-- The offset of the input at which value number `i` of the MsgPack message
begins, the values counted depth first (a container before its children), by
the format: value 0 begins at offset 0, and each value begins where the bytes
of the value before it (opcode, length or count field, payload) end. -/
def value_offset (inp : List Nat) : Nat → Option Nat
  | 0 => some 0
  | i + 1 =>
    match value_offset inp i with
    | none => none
    | some p =>
      match value_head inp p with
      | none => none
      | some (size, _) => some (p + size)

/-- The message `92 a2 62 63 a1 61`: the array of the strings `bc` and `a`. -/
def two_strings : List Nat := [0x92, 0xa2, 0x62, 0x63, 0xa1, 0x61]

/-- The decision of `decode_at` agrees with the format on the size of the
value. -/
def size_agrees (inp : List Nat) (mi : Nat) : Decoded → Prop
  | .scalar _ _ adv => ∃ kids, value_head inp mi = some (adv, kids)
  | .xdata _ pre len =>
    mi + pre + len + 1 ≤ inp.length → ∃ kids, value_head inp mi = some (pre + len + 1, kids)
  | .nested _ adv _ _ => ∃ kids, value_head inp mi = some (adv, kids)
  | .underflow => True
  | .c1 => True

/-- What every pass of `parse_msgpack` keeps true of the slots written so
far: the read cursor stands where the next slot begins, the offset of a slot
is the one the format gives as long as no value before it begins with an
opcode of `short_ext`, and every String, Bin or Ext slot carries the framing
of the blob that begins at the offset of that very slot. -/
structure OwnInv (f32_to_f64 : Nat → Nat) (inp : List Nat) (c : ParseCfg) : Prop where
  start : slot_offset f32_to_f64 inp c.value = some c.mi
  fmt : ∀ i, i ≤ c.value →
    (∀ j, j < i → ∀ q, value_offset inp j = some q → ¬ short_ext (byte_at inp q)) →
    value_offset inp i = slot_offset f32_to_f64 inp i
  own : ∀ i, i < c.value →
    (c.st.t.getD i 0 = StringValue ∨ c.st.t.getD i 0 = BinValue ∨ c.st.t.getD i 0 = ExtValue) →
    ∃ p hdr n, slot_offset f32_to_f64 inp i = some p ∧
      blob_frame inp p = some (c.st.t.getD i 0, hdr, n) ∧
      p + hdr + (c.st.v.getD i ⟨0, 0⟩).xoff = inp.length ∧
      (¬ short_ext (byte_at inp p) →
        (c.st.v.getD i ⟨0, 0⟩).xlen = n ∧ p + hdr + n ≤ inp.length)

/-! ## Theorems -/


/-! ## Buffers -/

theorem next_capacity_loop_ge (fuel : Nat) : ∀ capacity min_capacity : Nat,
    128 ≤ capacity → min_capacity ≤ capacity + 64 * fuel →
    min_capacity ≤ next_capacity_loop fuel capacity min_capacity := by
  induction fuel with
  | zero => intro capacity m _ h; simpa [next_capacity_loop] using h
  | succ k ih =>
    intro capacity m h128 h
    unfold next_capacity_loop
    split_ifs with hlt
    · apply ih
      · omega
      · omega
    · omega

theorem next_capacity_ge (min_capacity : Nat) : min_capacity ≤ next_capacity min_capacity := by
  unfold next_capacity
  apply next_capacity_loop_ge <;> omega

theorem store_length (bs : List Nat) : ∀ (buf : List Nat) (out : Nat),
    (store buf out bs).length = buf.length := by
  induction bs with
  | nil => intro buf out; rfl
  | cons b bs ih => intro buf out; simp [store, ih]

theorem take_store (bs : List Nat) : ∀ (buf : List Nat) (out : Nat),
    out + bs.length ≤ buf.length →
    (store buf out bs).take (out + bs.length) = buf.take out ++ bs := by
  induction bs with
  | nil => intro buf out _; simp [store]
  | cons b bs ih =>
    intro buf out h
    simp only [List.length_cons] at h
    have h1 : (out + 1) + bs.length ≤ (buf.set out b).length := by simp; omega
    have := ih (buf.set out b) (out + 1) h1
    simp only [store, List.length_cons]
    rw [show out + (bs.length + 1) = out + 1 + bs.length by omega, this]
    have hlt : out < buf.length := by omega
    have e1 : List.take out (buf.set out b) = List.take out buf := by
      rw [List.set_take]; apply List.set_eq_of_length_le; simp
    rw [List.take_succ, e1]
    simp [hlt]

theorem take_store_zero (bs buf : List Nat) (h : bs.length ≤ buf.length) :
    (store buf 0 bs).take bs.length = bs := by
  have := take_store bs buf 0 (by omega)
  simpa using this

/-! ## The parser: one pass -/

theorem parse_switch_eq (f : Nat → Nat) (inp : List Nat) (c : ParseCfg) :
    parse_switch f inp c = apply_decoded inp c (decode_at f inp c.mi) := by
  unfold parse_switch decode_at
  simp only [apply_ite (apply_decoded inp c)]
  simp only [apply_decoded, ParseCfg.set_typeid, ParseCfg.set_xlen, ParseCfg.set_value,
    Nat.add_zero]

theorem parse_step_eq (f : Nat → Nat) (inp : List Nat) (c : ParseCfg) :
    parse_step f inp c =
      if c.todo = 0 then
        if c.stack = 0 then .done { c with todo := 4294967295 }
        else
          .again { c with
            st := { c.st with v := (c.st.v.set c.patch (Value.mk (c.st.v.getD c.patch ⟨0, 0⟩).xlen
                (((c.value : Int) - (c.patch : Int)) % 4294967296).toNat)) },
            todo := stack_get c.st.ov (c.stack - 1),
            patch := (c.st.v.getD c.patch ⟨0, 0⟩).xoff,
            stack := c.stack - 1 }
      else if c.mi = inp.length then .error_underflow { c with todo := c.todo - 1 }
      else
        apply_decoded inp (ParseCfg.with_room { c with todo := c.todo - 1 })
          (decode_at f inp c.mi) := by
  unfold parse_step
  simp only [parse_switch_eq, ParseCfg.with_room, buf_grow_tv, buf_grow, realloc]
  split_ifs <;> simp_all


/-! ## What the switch decides -/

theorem ite_intro {c : Prop} [Decidable c] {P Q : Prop} (hp : c → P) (hq : ¬ c → Q) :
    if c then P else Q := by
  split_ifs with h
  · exact hp h
  · exact hq h

theorem decode_at_good (f : Nat → Nat) (inp : List Nat) (mi : Nat) (hlt : mi < inp.length) :
    decode_good inp mi (decode_at f inp mi) := by
  unfold decode_at
  simp only [apply_ite (decode_good inp mi)]
  simp only [decode_good]
  generalize hb : byte_at inp mi = b
  repeat' (apply ite_intro <;> intro _)
  all_goals first
    | trivial
    | omega
    | (refine ⟨by omega, by omega, ?_⟩; decide)
    | (refine ⟨by omega, by decide, ?_⟩
       unfold blob_frame
       simp only [hb]
       first
         | (rename_i h; subst h; simp [short_ext]; done)
         | (have h1 : 0xa0 ≤ b := by omega
            simp [h1, short_ext, *]; done))


/-! ## List facts -/

theorem getD_set_ne {α : Type} (l : List α) (i j : Nat) (a d : α) (h : i ≠ j) :
    (l.set i a).getD j d = l.getD j d := by
  simp [List.getD_eq_getElem?_getD, List.getElem?_set_ne h]

theorem getD_set_eq {α : Type} (l : List α) (i : Nat) (a d : α) (h : i < l.length) :
    (l.set i a).getD i d = a := by
  simp [List.getD_eq_getElem?_getD, h]

theorem getD_grow {α : Type} (l : List α) (n i : Nat) (x d : α) (hn : l.length ≤ n)
    (hi : i < l.length) :
    (l.take n ++ List.replicate (n - l.length) x).getD i d = l.getD i d := by
  rw [List.take_of_length_le hn]
  simp [List.getD_eq_getElem?_getD, List.getElem?_append_left hi]

theorem length_grow {α : Type} (l : List α) (n : Nat) (x : α) (hn : l.length ≤ n) :
    (l.take n ++ List.replicate (n - l.length) x).length = n := by
  simp; omega

/-! ## The capacity check -/

theorem with_room_spec (c : ParseCfg) (ht : c.st.t.length = c.st.t_capacity)
    (hv : c.st.v.length = c.st.t_capacity) (hle : c.value ≤ c.st.t_capacity) :
    c.with_room.st.t.length = c.with_room.st.t_capacity ∧
    c.with_room.st.v.length = c.with_room.st.t_capacity ∧
    c.with_room.value < c.with_room.st.t_capacity ∧
    c.with_room.value = c.value ∧ c.with_room.mi = c.mi ∧ c.with_room.patch = c.patch ∧
    c.with_room.stack = c.stack ∧ c.with_room.todo = c.todo ∧
    c.with_room.st.ot = c.st.ot ∧ c.with_room.st.ov = c.st.ov ∧
    c.with_room.st.ot_capacity = c.st.ot_capacity ∧
    c.with_room.st.res = c.st.res ∧ c.with_room.st.res_capacity = c.st.res_capacity ∧
    c.with_room.st.res_size = c.st.res_size ∧
    (∀ i, i < c.value → c.with_room.st.t.getD i 0 = c.st.t.getD i 0 ∧
      c.with_room.st.v.getD i ⟨0, 0⟩ = c.st.v.getD i ⟨0, 0⟩) := by
  unfold ParseCfg.with_room
  have hnc := next_capacity_ge (c.st.t_capacity + 1)
  split_ifs with h
  · simp only [buf_grow_tv, buf_grow, realloc]
    and_intros
    · exact length_grow _ _ _ (by omega)
    · exact length_grow _ _ _ (by omega)
    · show c.st.t_capacity < _
      omega
    all_goals first
      | trivial
      | rfl
      | exact h.symm
      | (intro i hi
         exact ⟨getD_grow _ _ _ _ _ (by omega) (by omega),
           getD_grow _ _ _ _ _ (by omega) (by omega)⟩)
  · exact ⟨ht, hv, by omega, rfl, rfl, rfl, rfl, rfl, rfl, rfl, rfl, rfl, rfl, rfl,
      fun i _ => ⟨rfl, rfl⟩⟩

/-! ## The patch chain -/

theorem Chain.congr {t t2 : List Nat} {v v2 : List Value} : ∀ (depth bound patch : Nat),
    Chain t v bound patch depth →
    (∀ i, i < bound → t2.getD i 0 = t.getD i 0 ∧ v2.getD i ⟨0, 0⟩ = v.getD i ⟨0, 0⟩) →
    Chain t2 v2 bound patch depth := by
  intro depth
  induction depth with
  | zero => intro _ _ _ _; trivial
  | succ d ih =>
    intro bound patch h hag
    obtain ⟨h1, h2, h3⟩ := h
    refine ⟨h1, ?_, ?_⟩
    · rw [(hag patch h1).1]; exact h2
    · rw [(hag patch h1).2]
      exact ih patch _ h3 (fun i hi => hag i (by omega))

theorem Chain.mono {t : List Nat} {v : List Value} {depth bound bound2 patch : Nat}
    (h : Chain t v bound patch depth) (hle : bound ≤ bound2) :
    Chain t v bound2 patch depth := by
  cases depth with
  | zero => trivial
  | succ d => exact ⟨by have := h.1; omega, h.2.1, h.2.2⟩


theorem with_room_frame (c : ParseCfg) :
    c.with_room.mi = c.mi ∧ c.with_room.patch = c.patch ∧
    c.with_room.stack = c.stack ∧ c.with_room.todo = c.todo ∧
    c.with_room.st.ot = c.st.ot ∧ c.with_room.st.ov = c.st.ov ∧
    c.with_room.st.ot_capacity = c.st.ot_capacity ∧
    c.with_room.st.res = c.st.res ∧ c.with_room.st.res_capacity = c.st.res_capacity ∧
    c.with_room.st.res_size = c.st.res_size := by
  unfold ParseCfg.with_room
  split_ifs <;> simp

theorem parse_step_measure {f : Nat → Nat} {inp : List Nat} {c c2 : ParseCfg}
    (h : parse_step f inp c = .again c2) (hmi : c.mi ≤ inp.length) :
    c2.mi ≤ inp.length ∧ parse_measure inp c2 + 1 ≤ parse_measure inp c ∧
    c2.st.res = c.st.res ∧ c2.st.res_capacity = c.st.res_capacity ∧
    c2.st.res_size = c.st.res_size := by
  rw [parse_step_eq] at h
  unfold parse_measure
  split_ifs at h with h0 hs hm
  · simp only [ParseStep.again.injEq] at h
    subst h
    simp only
    and_intros <;> first | omega | rfl | trivial | assumption
  · have hlt : c.mi < inp.length := by omega
    have hg := decode_at_good f inp c.mi hlt
    obtain ⟨w1, w2, w3, w4, w5, w6, w7, w8, w9, w10⟩ :=
      with_room_frame { c with todo := c.todo - 1 }
    generalize ParseCfg.with_room { c with todo := c.todo - 1 } = c1 at h w1 w2 w3 w4 w5 w6 w7 w8 w9 w10
    simp only at w1 w2 w3 w4 w5 w6 w7 w8 w9 w10
    generalize decode_at f inp c.mi = d at h hg
    cases d with
    | scalar tag w adv =>
      obtain ⟨g1, g2, -⟩ := hg
      cases w <;>
      · simp only [apply_decoded, ParseCfg.next_slot, ParseCfg.set_typeid, ParseCfg.set_value,
          ParseStep.again.injEq] at h
        subst h
        simp only [w1, w3, w8, w9, w10]
        and_intros <;> first | omega | rfl | trivial | assumption
    | xdata tag pre len =>
      obtain ⟨g1, -⟩ := hg
      simp only [apply_decoded, do_xdata, ParseCfg.next_slot, ParseCfg.set_typeid,
        ParseCfg.set_xlen, ParseCfg.set_xoff] at h
      split_ifs at h with hu
      simp only [ParseStep.again.injEq] at h
      subst h
      simp only [w1, w3, w8, w9, w10] at hu ⊢
      and_intros <;> first | omega | rfl | trivial | assumption
    | nested tag adv xlen len =>
      obtain ⟨g1, g2, -⟩ := hg
      simp only [apply_decoded, setup_nested, ParseCfg.next_slot, ParseCfg.set_typeid,
        ParseCfg.set_xlen, ParseCfg.set_xoff, buf_grow_tv, buf_grow, realloc] at h
      split_ifs at h with hu
      all_goals
        simp only [ParseStep.again.injEq] at h
        subst h
        simp only [w1, w3, w7, w8, w9, w10] at hu ⊢
        and_intros <;> first | omega | rfl | trivial | assumption
    | underflow => simp [apply_decoded] at h
    | c1 => simp [apply_decoded] at h

theorem Chain.push {t t2 : List Nat} {v v2 : List Value} {value patch depth : Nat}
    (hch : Chain t v value patch depth)
    (hag : ∀ i, i < value → t2.getD i 0 = t.getD i 0 ∧ v2.getD i ⟨0, 0⟩ = v.getD i ⟨0, 0⟩)
    (htag : t2.getD value 0 = ArrayValue ∨ t2.getD value 0 = MapValue)
    (hx : (v2.getD value ⟨0, 0⟩).xoff = patch) :
    Chain t2 v2 (value + 1) value (depth + 1) :=
  ⟨Nat.lt_succ_self _, htag, hx ▸ Chain.congr _ _ _ hch hag⟩

theorem parse_step_inv {f : Nat → Nat} {inp : List Nat} {c c2 : ParseCfg}
    (hL : inp.length < 4294967296) (hinv : ParseInv inp c)
    (h : parse_step f inp c = .again c2) : ParseInv inp c2 := by
  rw [parse_step_eq] at h
  obtain ⟨ht, hv, hle, hmi, hvm, hch, hbl⟩ := hinv
  split_ifs at h with h0 hs hm
  · -- one turn of the pop loop
    simp only [ParseStep.again.injEq] at h
    subst h
    obtain ⟨d, hd⟩ : ∃ d, c.stack = d + 1 := ⟨c.stack - 1, by omega⟩
    rw [hd] at hch
    obtain ⟨hp, htag, hrest⟩ := hch
    have hag : ∀ i, i < c.patch →
        c.st.t.getD i 0 = c.st.t.getD i 0 ∧
        (c.st.v.set c.patch (Value.mk (c.st.v.getD c.patch ⟨0, 0⟩).xlen
          (((c.value : Int) - (c.patch : Int)) % 4294967296).toNat)).getD i ⟨0, 0⟩ =
          c.st.v.getD i ⟨0, 0⟩ :=
      fun i hi => ⟨rfl, getD_set_ne _ _ _ _ _ (by omega)⟩
    refine ⟨ht, by simpa using hv, hle, hmi, hvm, ?_, ?_⟩
    · simp only [hd, Nat.add_sub_cancel]
      exact (Chain.congr _ _ _ hrest hag).mono (by omega)
    · intro i hi hb
      simp only at hb ⊢
      by_cases hip : c.patch = i
      · subst hip
        exfalso; rcases htag with e | e <;> rw [e] at hb <;> simp at hb
      · rw [getD_set_ne _ _ _ _ _ hip]
        exact hbl i hi hb
  · have hlt : c.mi < inp.length := by omega
    have hg := decode_at_good f inp c.mi hlt
    obtain ⟨r1, r2, r3, r4, r5, r6, r7, r8, -, -, -, -, -, -, r9⟩ :=
      with_room_spec { c with todo := c.todo - 1 } ht hv hle
    generalize ParseCfg.with_room { c with todo := c.todo - 1 } = c1 at h r1 r2 r3 r4 r5 r6 r7 r8 r9
    simp only at r4 r5 r6 r7 r8 r9
    generalize decode_at f inp c.mi = d at h hg
    have hin : c1.value < c1.st.t.length := by omega
    rw [← r4, ← r6, ← r7] at hch
    have hbl1 : ∀ i, i < c1.value →
        (c.st.t.getD i 0 = StringValue ∨ c.st.t.getD i 0 = BinValue ∨
          c.st.t.getD i 0 = ExtValue) →
        blob_ok inp (c.st.t.getD i 0) (c.st.v.getD i ⟨0, 0⟩) := fun i hi => hbl i (by omega)
    have r9a : ∀ i, i < c1.value → c1.st.t.getD i 0 = c.st.t.getD i 0 ∧
        c1.st.v.getD i ⟨0, 0⟩ = c.st.v.getD i ⟨0, 0⟩ := fun i hi => r9 i (by omega)
    have hin2 : c1.value < c1.st.v.length := by omega
    cases d with
    | scalar tag w adv =>
      obtain ⟨g1, g2, g3, g4, g5, g6, g7⟩ := hg
      cases w with
      | none =>
        simp only [apply_decoded, ParseCfg.next_slot, ParseCfg.set_typeid,
          ParseStep.again.injEq] at h
        subst h
        have hag : ∀ i, i < c1.value →
            (c1.st.t.set c1.value tag).getD i 0 = c.st.t.getD i 0 ∧
            c1.st.v.getD i ⟨0, 0⟩ = c.st.v.getD i ⟨0, 0⟩ := fun i hi =>
          ⟨by rw [getD_set_ne _ c1.value i _ _ (by omega)]; exact (r9a i hi).1, (r9a i hi).2⟩
        refine ⟨?_, ?_, ?_, ?_, ?_, ?_, ?_⟩
        · simpa using r1
        · exact r2
        · show c1.value + 1 ≤ c1.st.t_capacity
          omega
        · show c1.mi + adv ≤ inp.length
          omega
        · show c1.value + 1 ≤ c1.mi + adv
          omega
        · exact Chain.mono (Chain.congr _ _ _ hch hag) (Nat.le_succ _)
        · intro i hi hb
          simp only at hi hb ⊢
          by_cases hiv : i = c1.value
          · subst hiv
            rw [getD_set_eq _ _ _ _ hin] at hb
            omega
          · rw [(hag i (by omega)).1] at hb ⊢
            rw [(hag i (by omega)).2]
            exact hbl1 i (by omega) hb
      | some w =>
        simp only [apply_decoded, ParseCfg.next_slot, ParseCfg.set_typeid, ParseCfg.set_value,
          ParseStep.again.injEq] at h
        subst h
        have hag : ∀ i, i < c1.value →
            (c1.st.t.set c1.value tag).getD i 0 = c.st.t.getD i 0 ∧
            (c1.st.v.set c1.value w).getD i ⟨0, 0⟩ = c.st.v.getD i ⟨0, 0⟩ := fun i hi =>
          ⟨by rw [getD_set_ne _ c1.value i _ _ (by omega)]; exact (r9a i hi).1,
           by rw [getD_set_ne _ c1.value i _ _ (by omega)]; exact (r9a i hi).2⟩
        refine ⟨?_, ?_, ?_, ?_, ?_, ?_, ?_⟩
        · simpa using r1
        · simpa using r2
        · show c1.value + 1 ≤ c1.st.t_capacity
          omega
        · show c1.mi + adv ≤ inp.length
          omega
        · show c1.value + 1 ≤ c1.mi + adv
          omega
        · exact Chain.mono (Chain.congr _ _ _ hch hag) (Nat.le_succ _)
        · intro i hi hb
          simp only at hi hb ⊢
          by_cases hiv : i = c1.value
          · subst hiv
            rw [getD_set_eq _ _ _ _ hin] at hb
            omega
          · rw [(hag i (by omega)).1] at hb ⊢
            rw [(hag i (by omega)).2]
            exact hbl1 i (by omega) hb
    | xdata tag pre len =>
      obtain ⟨g1, g2, n, g3, g4⟩ := hg
      simp only [apply_decoded, do_xdata, ParseCfg.next_slot, ParseCfg.set_typeid,
        ParseCfg.set_xlen, ParseCfg.set_xoff] at h
      split_ifs at h with hu
      simp only [ParseStep.again.injEq] at h
      subst h
      simp only [r5] at hu
      have hag : ∀ i, i < c1.value →
          (c1.st.t.set c1.value tag).getD i 0 = c.st.t.getD i 0 ∧
          ((c1.st.v.set c1.value ⟨len, (c1.st.v.getD c1.value ⟨0, 0⟩).xoff⟩).set c1.value
            ⟨((c1.st.v.set c1.value ⟨len, (c1.st.v.getD c1.value ⟨0, 0⟩).xoff⟩).getD
                c1.value ⟨0, 0⟩).xlen,
              (inp.length - (c1.mi + pre) - 1) % 4294967296⟩).getD i ⟨0, 0⟩ =
            c.st.v.getD i ⟨0, 0⟩ := fun i hi =>
        ⟨by rw [getD_set_ne _ c1.value i _ _ (by omega)]; exact (r9a i hi).1,
         by rw [getD_set_ne _ c1.value i _ _ (by omega), getD_set_ne _ c1.value i _ _ (by omega)]
            exact (r9a i hi).2⟩
      refine ⟨?_, ?_, ?_, ?_, ?_, ?_, ?_⟩
      · simpa using r1
      · simpa using r2
      · show c1.value + 1 ≤ c1.st.t_capacity
        omega
      · show c1.mi + pre + len + 1 ≤ inp.length
        omega
      · show c1.value + 1 ≤ c1.mi + pre + len + 1
        omega
      · exact Chain.mono (Chain.congr _ _ _ hch hag) (Nat.le_succ _)
      · intro i hi hb
        simp only at hi hb ⊢
        by_cases hiv : i = c1.value
        · subst hiv
          rw [getD_set_eq _ _ _ _ hin]
          rw [getD_set_eq _ _ _ _ (by simpa using hin2)]
          rw [getD_set_eq _ _ _ _ hin2]
          refine ⟨c.mi, pre + 1, n, g3, ?_, ?_⟩
          · show c.mi + (pre + 1) + (inp.length - (c1.mi + pre) - 1) % 4294967296 = inp.length
            rw [Nat.mod_eq_of_lt (by omega)]
            omega
          · intro hs
            have := g4 hs
            simp only
            omega
        · rw [(hag i (by omega)).1] at hb ⊢
          rw [(hag i (by omega)).2]
          exact hbl1 i (by omega) hb
    | nested tag adv xlen len =>
      obtain ⟨g1, g2, g3⟩ := hg
      simp only [apply_decoded, setup_nested, ParseCfg.next_slot, ParseCfg.set_typeid,
        ParseCfg.set_xlen, ParseCfg.set_xoff, buf_grow_tv, buf_grow, realloc] at h
      have hag : ∀ i, i < c1.value →
          (c1.st.t.set c1.value tag).getD i 0 = c.st.t.getD i 0 ∧
          ((c1.st.v.set c1.value ⟨xlen, (c1.st.v.getD c1.value ⟨0, 0⟩).xoff⟩).set c1.value
            ⟨((c1.st.v.set c1.value ⟨xlen, (c1.st.v.getD c1.value ⟨0, 0⟩).xoff⟩).getD
                c1.value ⟨0, 0⟩).xlen, c1.patch⟩).getD i ⟨0, 0⟩ =
            c.st.v.getD i ⟨0, 0⟩ := fun i hi =>
        ⟨by rw [getD_set_ne _ c1.value i _ _ (by omega)]; exact (r9a i hi).1,
         by rw [getD_set_ne _ c1.value i _ _ (by omega), getD_set_ne _ c1.value i _ _ (by omega)]
            exact (r9a i hi).2⟩
      have hval : c1.value % 4294967296 = c1.value := Nat.mod_eq_of_lt (by omega)
      split_ifs at h with hu
      all_goals
        simp only [ParseStep.again.injEq] at h
        subst h
        refine ⟨?_, ?_, ?_, ?_, ?_, ?_, ?_⟩
        · simpa using r1
        · simpa using r2
        · show c1.value + 1 ≤ c1.st.t_capacity
          omega
        · show c1.mi + adv ≤ inp.length
          omega
        · show c1.value + 1 ≤ c1.mi + adv
          omega
        · simp only [hval]
          first
            | refine Chain.push hch (fun i hi => ⟨?_, ?_⟩) ?_ ?_
            | (rw [hu] at hch; refine Chain.push hch (fun i hi => ⟨?_, ?_⟩) ?_ ?_)
          · rw [getD_set_ne _ c1.value i _ _ (by omega)]; exact (r9a i hi).1
          · rw [getD_set_ne _ c1.value i _ _ (by omega),
              getD_set_ne _ c1.value i _ _ (by omega)]
            exact (r9a i hi).2
          · rw [getD_set_eq _ _ _ _ hin]; exact g3
          · rw [getD_set_eq _ _ _ _ (by simpa using hin2)]
        · intro i hi hb
          simp only at hi hb ⊢
          by_cases hiv : i = c1.value
          · subst hiv
            rw [getD_set_eq _ _ _ _ hin] at hb
            exfalso; rcases g3 with e | e <;> rw [e] at hb <;> simp at hb
          · rw [(hag i (by omega)).1] at hb ⊢
            rw [(hag i (by omega)).2]
            exact hbl1 i (by omega) hb
    | underflow => simp [apply_decoded] at h
    | c1 => simp [apply_decoded] at h


/-! ## Runs of the parser -/

theorem parse_run_again {f : Nat → Nat} {inp : List Nat} {c c2 : ParseCfg} (fuel : Nat)
    (h : parse_step f inp c = .again c2) :
    parse_run f inp (fuel + 1) c = parse_run f inp fuel c2 := by
  simp only [parse_run, h]

theorem parse_run_exit {f : Nat → Nat} {inp : List Nat} {c : ParseCfg} (fuel : Nat)
    (h : ∀ c2, parse_step f inp c ≠ .again c2) :
    parse_run f inp (fuel + 1) c = some (parse_step f inp c) := by
  unfold parse_run
  split
  · next c2 h2 => exact absurd h2 (h c2)
  · rfl

theorem parse_run_total {f : Nat → Nat} {inp : List Nat} : ∀ (fuel : Nat) (c : ParseCfg),
    c.mi ≤ inp.length → parse_measure inp c < fuel →
    ∃ e, parse_run f inp fuel c = some e ∧ ∀ c2, e ≠ .again c2 := by
  intro fuel
  induction fuel with
  | zero => intro c _ h; omega
  | succ k ih =>
    intro c hmi hm
    by_cases h : ∃ c2, parse_step f inp c = .again c2
    · obtain ⟨c2, h2⟩ := h
      rw [parse_run_again k h2]
      obtain ⟨m1, m2, -⟩ := parse_step_measure h2 hmi
      exact ih c2 m1 (by omega)
    · rw [parse_run_exit k (fun c2 h2 => h ⟨c2, h2⟩)]
      exact ⟨_, rfl, fun c2 h2 => h ⟨c2, h2⟩⟩

theorem parse_step_done_inv {f : Nat → Nat} {inp : List Nat} {c c2 : ParseCfg}
    (hinv : ParseInv inp c) (h : parse_step f inp c = .done c2) : ParseInv inp c2 := by
  rw [parse_step_eq] at h
  split_ifs at h with h0 hs hm
  · simp only [ParseStep.done.injEq] at h
    subst h
    exact ⟨hinv.len_t, hinv.len_v, hinv.value_le, hinv.mi_le, hinv.value_mi,
      by rw [hs]; trivial, hinv.blobs⟩
  · exfalso
    generalize decode_at f inp c.mi = d at h
    generalize ParseCfg.with_room { c with todo := c.todo - 1 } = c1 at h
    cases d with
    | scalar tag w adv => cases w <;> simp [apply_decoded, ParseCfg.next_slot] at h
    | xdata tag pre len =>
      simp only [apply_decoded, do_xdata, ParseCfg.next_slot] at h
      split_ifs at h
    | nested tag adv xlen len =>
      simp only [apply_decoded, setup_nested, ParseCfg.next_slot] at h
      split_ifs at h
    | underflow => simp [apply_decoded] at h
    | c1 => simp [apply_decoded] at h

theorem parse_run_inv {f : Nat → Nat} {inp : List Nat} (hL : inp.length < 4294967296) :
    ∀ (fuel : Nat) (c c2 : ParseCfg), ParseInv inp c →
    parse_run f inp fuel c = some (.done c2) → ParseInv inp c2 := by
  intro fuel
  induction fuel with
  | zero => intro c c2 _ h; simp [parse_run] at h
  | succ k ih =>
    intro c c2 hinv h
    by_cases hs : ∃ c3, parse_step f inp c = .again c3
    · obtain ⟨c3, h3⟩ := hs
      rw [parse_run_again k h3] at h
      exact ih c3 c2 (parse_step_inv hL hinv h3) h
    · rw [parse_run_exit k (fun c3 h3 => hs ⟨c3, h3⟩)] at h
      exact parse_step_done_inv hinv (Option.some.inj h)

theorem parse_steps_run {f : Nat → Nat} {inp : List Nat} : ∀ (k : Nat) (c c2 : ParseCfg) (m : Nat),
    parse_steps f inp k c = some c2 →
    parse_run f inp (k + m) c = parse_run f inp m c2 := by
  intro k
  induction k with
  | zero =>
    intro c c2 m h
    simp only [parse_steps, Option.some.injEq] at h
    subst h
    simp
  | succ k ih =>
    intro c c2 m h
    unfold parse_steps at h
    split at h
    · next c3 h3 =>
      rw [show k + 1 + m = (k + m) + 1 by omega, parse_run_again _ h3]
      exact ih c3 c2 m h
    · simp at h

theorem parse_steps_measure {f : Nat → Nat} {inp : List Nat} : ∀ (k : Nat) (c c2 : ParseCfg),
    parse_steps f inp k c = some c2 → c.mi ≤ inp.length →
    c2.mi ≤ inp.length ∧ parse_measure inp c2 + k ≤ parse_measure inp c ∧
    c2.st.res = c.st.res ∧ c2.st.res_capacity = c.st.res_capacity := by
  intro k
  induction k with
  | zero =>
    intro c c2 h hmi
    simp only [parse_steps, Option.some.injEq] at h
    subst h
    exact ⟨hmi, by omega, rfl, rfl⟩
  | succ k ih =>
    intro c c2 h hmi
    unfold parse_steps at h
    split at h
    · next c3 h3 =>
      obtain ⟨m1, m2, m3, m4, -⟩ := parse_step_measure h3 hmi
      obtain ⟨n1, n2, n3, n4⟩ := ih c3 c2 h m1
      exact ⟨n1, by omega, by rw [n3, m3], by rw [n4, m4]⟩
    · simp at h

theorem set_error_spec (state : State) (msg : List Nat)
    (h : state.res.length = state.res_capacity) :
    (set_error state msg).1 = -1 ∧ (set_error state msg).2.res_size = msg.length ∧
    (set_error state msg).2.res.take msg.length = msg := by
  unfold set_error
  have hnc := next_capacity_ge msg.length
  simp only [buf_grow, realloc]
  split_ifs with h1 h2
  · simp at h2
  · refine ⟨rfl, rfl, ?_⟩
    apply take_store_zero
    simp
    omega
  · refine ⟨rfl, rfl, ?_⟩
    apply take_store_zero
    omega


theorem decode_at_c1 (f : Nat → Nat) (inp : List Nat) (mi : Nat) (hb : byte_at inp mi = 0xc1) :
    decode_at f inp mi = .c1 := by
  unfold decode_at
  simp [hb]

theorem set_error_fst (state : State) (msg : List Nat) : (set_error state msg).1 = -1 := by
  unfold set_error
  simp only [buf_grow, realloc]
  split_ifs <;> rfl

theorem parse_exit_total (f : Nat → Nat) (state : State) (inp : List Nat) :
    ∃ e, parse_exit f state inp = some e ∧ ∀ c2, e ≠ .again c2 := by
  unfold parse_exit
  apply parse_run_total
  · exact Nat.zero_le _
  · simp [parse_measure, parse_init]

theorem parse_msgpack_done {f : Nat → Nat} {state st2 : State} {inp : List Nat} {mi : Nat}
    (h : parse_msgpack f state inp mi = some (0, st2)) :
    ∃ c, parse_exit f state inp = some (.done c) ∧ st2 = { c.st with b1 := mi + inp.length } := by
  unfold parse_msgpack at h
  split at h
  · simp at h
  · simp at h
  · next c hc =>
    simp only [Option.some.injEq, Prod.mk.injEq, true_and] at h
    exact ⟨c, hc, h.symm⟩
  all_goals
    simp only [Option.some.injEq] at h
    have := congrArg Prod.fst h
    rw [set_error_fst] at this
    simp at this

/-- C9. If after any number of passes the decoder stands at the start of a value
(nothing to pop: `todo ≠ 0`, input left) and the byte there is `0xc1`, then
`parse_msgpack` returns -1 and leaves the 12 bytes `Invalid data` in `res`. -/
theorem C9_reserved_opcode (f : Nat → Nat) (st : State) (inp : List Nat) (mi k : Nat)
    (c : ParseCfg) (hres : st.res.length = st.res_capacity)
    (hreach : parse_steps f inp k (parse_init st) = some c)
    (htodo : c.todo ≠ 0) (hin : c.mi < inp.length) (hb : byte_at inp c.mi = 0xc1) :
    ∃ st2, parse_msgpack f st inp mi = some (-1, st2) ∧ st2.res_size = 12 ∧
      st2.res.take st2.res_size = cstr "Invalid data" := by
  obtain ⟨m1, m2, m3, m4⟩ := parse_steps_measure k _ _ hreach (Nat.zero_le _)
  have hm0 : parse_measure inp (parse_init st) = 2 * inp.length := by
    simp [parse_measure, parse_init]
  have hstep : parse_step f inp c =
      .error_c1 (ParseCfg.with_room { c with todo := c.todo - 1 }) := by
    rw [parse_step_eq, if_neg htodo, if_neg (by omega), decode_at_c1 f inp c.mi hb]
    rfl
  have hexit : parse_exit f st inp =
      some (.error_c1 (ParseCfg.with_room { c with todo := c.todo - 1 })) := by
    unfold parse_exit
    obtain ⟨m, hm⟩ : ∃ m, 2 * inp.length + 2 = k + (m + 1) :=
      ⟨2 * inp.length + 2 - k - 1, by omega⟩
    rw [hm, parse_steps_run k _ _ _ hreach, parse_run_exit m (by rw [hstep]; simp), hstep]
  obtain ⟨-, -, -, -, -, -, -, w8, w9, -⟩ := with_room_frame { c with todo := c.todo - 1 }
  simp only at w8 w9
  have hlen : (ParseCfg.with_room { c with todo := c.todo - 1 }).st.res.length =
      (ParseCfg.with_room { c with todo := c.todo - 1 }).st.res_capacity := by
    rw [w8, w9, m3, m4]; exact hres
  obtain ⟨s1, s2, s3⟩ := set_error_spec _ (cstr "Invalid data") hlen
  refine ⟨(set_error (ParseCfg.with_room { c with todo := c.todo - 1 }).st
    (cstr "Invalid data")).2, ?_, ?_, ?_⟩
  · unfold parse_msgpack
    rw [hexit]
    simp only
    rw [← s1]
  · rw [s2]; rfl
  · rw [s2]; exact s3

theorem parse_single_scalar (f : Nat → Nat) (st : State) (inp : List Nat) (mi tag : Nat)
    (w : Value) (ht : st.t.length = st.t_capacity) (hv : st.v.length = st.t_capacity)
    (hd : decode_at f inp 0 = .scalar tag (some w) inp.length) (hpos : 0 < inp.length) :
    ∃ st2, parse_msgpack f st inp mi = some (0, st2) ∧ parse_nslots f st inp = 1 ∧
      st2.t.getD 0 0 = tag ∧ st2.v.getD 0 ⟨0, 0⟩ = w := by
  obtain ⟨r1, r2, r3, r4, r5, r6, r7, r8, -, -, -, -, -, -, -⟩ :=
    with_room_spec { parse_init st with todo := 0 } ht hv (Nat.zero_le _)
  generalize hc1 : ParseCfg.with_room { parse_init st with todo := 0 } = c1 at r1 r2 r3 r4 r5 r6 r7 r8
  simp only [parse_init] at r4 r5 r6 r7 r8
  have s1 : parse_step f inp (parse_init st) =
      .again { (c1.set_typeid tag).set_value w with
        mi := c1.mi + inp.length, value := c1.value + 1 } := by
    rw [parse_step_eq]
    simp only [parse_init, Nat.one_ne_zero, ↓reduceIte, Nat.sub_self]
    rw [if_neg (by omega)]
    have hd0 : decode_at f inp 0 = .scalar tag (some w) inp.length := hd
    rw [hd0]
    simp only [parse_init] at hc1
    rw [hc1]
    rfl
  have s2 : parse_step f inp { (c1.set_typeid tag).set_value w with
        mi := c1.mi + inp.length, value := c1.value + 1 } =
      .done { (c1.set_typeid tag).set_value w with
        mi := c1.mi + inp.length, value := c1.value + 1, todo := 4294967295 } := by
    rw [parse_step_eq]
    simp only [ParseCfg.set_typeid, ParseCfg.set_value, r8, r7, ↓reduceIte]
  have hexit : parse_exit f st inp =
      some (.done { (c1.set_typeid tag).set_value w with
        mi := c1.mi + inp.length, value := c1.value + 1, todo := 4294967295 }) := by
    unfold parse_exit
    rw [show 2 * inp.length + 2 = (2 * inp.length) + 1 + 1 by omega,
      parse_run_again _ s1, parse_run_exit _ (by rw [s2]; simp), s2]
  refine ⟨{ ((c1.set_typeid tag).set_value w).st with b1 := mi + inp.length }, ?_, ?_, ?_, ?_⟩
  · unfold parse_msgpack
    rw [hexit]
  · unfold parse_nslots
    rw [hexit]
    simp only [r4]
  · simp only [ParseCfg.set_typeid, ParseCfg.set_value, r4]
    exact getD_set_eq _ _ _ _ (by omega)
  · simp only [ParseCfg.set_typeid, ParseCfg.set_value, r4]
    exact getD_set_eq _ _ _ _ (by omega)

theorem ival_of_ival (i : Int) (h1 : -9223372036854775808 ≤ i)
    (h2 : i < 9223372036854775808) : (Value.of_ival i).ival = i := by
  unfold Value.of_ival Value.of_uval Value.ival Value.uval
  simp only
  split_ifs <;> omega

theorem uval_of_uval (u : Nat) (h : u < 18446744073709551616) :
    (Value.of_uval u).uval = u := by
  unfold Value.of_uval Value.uval
  simp only
  omega


theorem decode_at_negfix (f : Nat → Nat) (inp : List Nat) (mi : Nat)
    (h : 0xe0 ≤ byte_at inp mi) :
    decode_at f inp mi =
      .scalar LongValue (some (Value.of_ival (sign_extend 8 (byte_at inp mi)))) 1 := by
  unfold decode_at
  generalize byte_at inp mi = b at h
  simp only [(show ¬ b ≤ 127 by omega), (show ¬ b ≤ 143 by omega), (show ¬ b ≤ 159 by omega), (show ¬ b ≤ 191 by omega), (show ¬ b = 192 by omega), (show ¬ b = 193 by omega), (show ¬ b = 194 by omega), (show ¬ b = 195 by omega), (show ¬ b = 196 by omega), (show ¬ b = 197 by omega), (show ¬ b = 198 by omega), (show ¬ b = 199 by omega), (show ¬ b = 200 by omega), (show ¬ b = 201 by omega), (show ¬ b = 202 by omega), (show ¬ b = 203 by omega), (show ¬ b = 204 by omega), (show ¬ b = 205 by omega), (show ¬ b = 206 by omega), (show ¬ b = 207 by omega), (show ¬ b = 208 by omega), (show ¬ b = 209 by omega), (show ¬ b = 210 by omega), (show ¬ b = 211 by omega), (show ¬ b = 212 by omega), (show ¬ b = 213 by omega), (show ¬ b = 214 by omega), (show ¬ b = 215 by omega), (show ¬ b = 216 by omega), (show ¬ b = 217 by omega), (show ¬ b = 218 by omega), (show ¬ b = 219 by omega), (show ¬ b = 220 by omega), (show ¬ b = 221 by omega), (show ¬ b = 222 by omega), (show ¬ b = 223 by omega), ↓reduceIte]

theorem list_len4 (p : List Nat) (h : p.length = 4) : ∃ a b c d, p = [a, b, c, d] := by
  rcases p with _ | ⟨a, _ | ⟨b, _ | ⟨c, _ | ⟨d, _ | ⟨e, t⟩⟩⟩⟩⟩ <;> simp at h
  exact ⟨a, b, c, d, rfl⟩

theorem list_len8 (p : List Nat) (h : p.length = 8) :
    ∃ a b c d a2 b2 c2 d2, p = [a, b, c, d, a2, b2, c2, d2] := by
  rcases p with _ | ⟨a, _ | ⟨b, _ | ⟨c, _ | ⟨d, _ | ⟨a2, _ | ⟨b2, _ | ⟨c2, _ | ⟨d2, _ | ⟨e, t⟩⟩⟩⟩⟩⟩⟩⟩⟩ <;>
    simp at h
  exact ⟨a, b, c, d, a2, b2, c2, d2, rfl⟩

theorem load_be1 (op : Nat) (p : List Nat) (h : p.length = 1) (hb : ∀ b ∈ p, b < 256) :
    byte_at (op :: p) (0 + 1) = be_value p ∧ be_value p < 2 ^ 8 := by
  obtain ⟨a, rfl⟩ := List.length_eq_one.mp h
  have ha : a < 256 := hb a (by simp)
  simp only [byte_at, be_value, List.foldl_cons, List.foldl_nil]
  constructor
  · simp
  · omega

theorem load_be2 (op : Nat) (p : List Nat) (h : p.length = 2) (hb : ∀ b ∈ p, b < 256) :
    load16 (op :: p) (0 + 1) = be_value p ∧ be_value p < 2 ^ 16 := by
  obtain ⟨a, b, rfl⟩ := List.length_eq_two.mp h
  have ha : a < 256 := hb a (by simp)
  have hb : b < 256 := hb b (by simp)
  simp only [load16, byte_at, be_value, List.foldl_cons, List.foldl_nil]
  constructor
  · simp
  · omega

theorem load_be4 (op : Nat) (p : List Nat) (h : p.length = 4) (hb : ∀ b ∈ p, b < 256) :
    load32 (op :: p) (0 + 1) = be_value p ∧ be_value p < 2 ^ 32 := by
  obtain ⟨a, b, c, d, rfl⟩ := list_len4 p h
  have ha : a < 256 := hb a (by simp)
  have hb1 : b < 256 := hb b (by simp)
  have hc : c < 256 := hb c (by simp)
  have hd : d < 256 := hb d (by simp)
  simp only [load32, load16, byte_at, be_value, List.foldl_cons, List.foldl_nil]
  constructor
  · simp
    ring
  · omega

theorem load_be8 (op : Nat) (p : List Nat) (h : p.length = 8) (hb : ∀ b ∈ p, b < 256) :
    load64 (op :: p) (0 + 1) = be_value p ∧ be_value p < 2 ^ 64 := by
  obtain ⟨a, b, c, d, a2, b2, c2, d2, rfl⟩ := list_len8 p h
  have ha : a < 256 := hb a (by simp)
  have hb1 : b < 256 := hb b (by simp)
  have hc : c < 256 := hb c (by simp)
  have hd : d < 256 := hb d (by simp)
  have ha2 : a2 < 256 := hb a2 (by simp)
  have hb2 : b2 < 256 := hb b2 (by simp)
  have hc2 : c2 < 256 := hb c2 (by simp)
  have hd2 : d2 < 256 := hb d2 (by simp)
  simp only [load64, load32, load16, byte_at, be_value, List.foldl_cons, List.foldl_nil]
  constructor
  · simp
    ring
  · omega

theorem sign_extend_eq (w n : Nat) (h : n < 2 ^ w) :
    sign_extend w n =
      if n < 2 ^ (w - 1) then (n : Int) else (n : Int) - ((2 ^ w : Nat) : Int) := by
  unfold sign_extend
  rw [Nat.mod_eq_of_lt h]

theorem sign_extend_bounds (w n : Nat) (hw : w = 8 ∨ w = 16 ∨ w = 32 ∨ w = 64)
    (h : n < 2 ^ w) :
    -9223372036854775808 ≤ sign_extend w n ∧ sign_extend w n < 9223372036854775808 := by
  rw [sign_extend_eq w n h]
  rcases hw with rfl | rfl | rfl | rfl <;> norm_num at h ⊢ <;> split_ifs <;> omega

theorem decode_uint (f : Nat → Nat) (p : List Nat)
    (hlen : p.length = 1 ∨ p.length = 2 ∨ p.length = 4 ∨ p.length = 8)
    (hbytes : ∀ b ∈ p, b < 256) :
    be_value p < 2 ^ 64 ∧
    decode_at f (IntEnc.uint p).bytes 0 =
      if be_value p > 9223372036854775807 then
        .scalar UlongValue (some (Value.of_uval (be_value p))) (IntEnc.uint p).bytes.length
      else .scalar LongValue (some (Value.of_ival (be_value p))) (IntEnc.uint p).bytes.length := by
  have hop : byte_at (IntEnc.uint p).bytes 0 = 0xcc + width_code p.length := by
    simp [byte_at, IntEnc.bytes]
  have hl : (IntEnc.uint p).bytes.length = p.length + 1 := by simp [IntEnc.bytes]
  unfold decode_at
  rw [hop, hl]
  simp only [IntEnc.bytes]
  rcases hlen with h | h | h | h
  · obtain ⟨h1, h2⟩ := load_be1 (0xcc + width_code p.length) p h hbytes
    rw [h1, h]
    refine ⟨by omega, ?_⟩
    have hsmall : ¬ 9223372036854775807 < be_value p := by omega
    simp [width_code, hsmall]
  · obtain ⟨h1, h2⟩ := load_be2 (0xcc + width_code p.length) p h hbytes
    rw [h1, h]
    refine ⟨by omega, ?_⟩
    have hsmall : ¬ 9223372036854775807 < be_value p := by omega
    simp [width_code, hsmall]
  · obtain ⟨h1, h2⟩ := load_be4 (0xcc + width_code p.length) p h hbytes
    rw [h1, h]
    refine ⟨by omega, ?_⟩
    have hsmall : ¬ 9223372036854775807 < be_value p := by omega
    simp [width_code, hsmall]
  · obtain ⟨h1, h2⟩ := load_be8 (0xcc + width_code p.length) p h hbytes
    rw [h1, h]
    refine ⟨h2, ?_⟩
    simp [width_code]

theorem decode_int (f : Nat → Nat) (p : List Nat)
    (hlen : p.length = 1 ∨ p.length = 2 ∨ p.length = 4 ∨ p.length = 8)
    (hbytes : ∀ b ∈ p, b < 256) :
    be_value p < 2 ^ (8 * p.length) ∧
    decode_at f (IntEnc.int p).bytes 0 =
      .scalar LongValue (some (Value.of_ival (sign_extend (8 * p.length) (be_value p))))
        (IntEnc.int p).bytes.length := by
  have hop : byte_at (IntEnc.int p).bytes 0 = 0xd0 + width_code p.length := by
    simp [byte_at, IntEnc.bytes]
  have hl : (IntEnc.int p).bytes.length = p.length + 1 := by simp [IntEnc.bytes]
  unfold decode_at
  rw [hop, hl]
  simp only [IntEnc.bytes]
  rcases hlen with h | h | h | h
  · obtain ⟨h1, h2⟩ := load_be1 (0xd0 + width_code p.length) p h hbytes
    rw [h1, h]
    exact ⟨h2, by simp [width_code]⟩
  · obtain ⟨h1, h2⟩ := load_be2 (0xd0 + width_code p.length) p h hbytes
    rw [h1, h]
    exact ⟨h2, by simp [width_code]⟩
  · obtain ⟨h1, h2⟩ := load_be4 (0xd0 + width_code p.length) p h hbytes
    rw [h1, h]
    exact ⟨h2, by simp [width_code]⟩
  · obtain ⟨h1, h2⟩ := load_be8 (0xd0 + width_code p.length) p h hbytes
    rw [h1, h]
    exact ⟨h2, by simp [width_code]⟩

theorem decode_int_enc (f : Nat → Nat) (e : IntEnc) (he : e.wf) :
    ∃ tag w, decode_at f e.bytes 0 = .scalar tag (some w) e.bytes.length ∧
      0 < e.bytes.length ∧
      (e.value ≤ 9223372036854775807 → tag = LongValue ∧ w.ival = e.value) ∧
      (9223372036854775807 < e.value → tag = UlongValue ∧ (w.uval : Int) = e.value ∧
        ∃ p, e = .uint p ∧ p.length = 8) := by
  cases e with
  | pos_fixint b =>
    have hb : b ≤ 127 := he
    refine ⟨LongValue, Value.of_ival b, ?_, by simp [IntEnc.bytes], ?_, ?_⟩
    · simp [decode_at, byte_at, IntEnc.bytes, hb]
    · intro _
      exact ⟨rfl, ival_of_ival _ (by omega) (by omega)⟩
    · intro h
      simp only [IntEnc.value] at h
      omega
  | neg_fixint b =>
    have hb : 0xe0 ≤ b ∧ b ≤ 0xff := he
    refine ⟨LongValue, Value.of_ival (sign_extend 8 b), ?_, by simp [IntEnc.bytes], ?_, ?_⟩
    · exact decode_at_negfix f [b] 0 (by simp [byte_at]; omega)
    · intro _
      refine ⟨rfl, ?_⟩
      have hs : sign_extend 8 b = (b : Int) - 256 := by
        rw [sign_extend_eq 8 b (by norm_num; omega), if_neg (by norm_num; omega)]
        norm_num
      rw [hs, ival_of_ival _ (by omega) (by omega)]
      rfl
    · intro h
      simp only [IntEnc.value] at h
      omega
  | uint p =>
    obtain ⟨hlen, hbytes⟩ : (p.length = 1 ∨ p.length = 2 ∨ p.length = 4 ∨ p.length = 8) ∧
      ∀ b ∈ p, b < 256 := he
    obtain ⟨hlt, hd⟩ := decode_uint f p hlen hbytes
    have hpos : 0 < (IntEnc.uint p).bytes.length := by simp [IntEnc.bytes]
    by_cases hbig : be_value p > 9223372036854775807
    · rw [if_pos hbig] at hd
      refine ⟨_, _, hd, hpos, ?_, ?_⟩
      · intro h
        simp only [IntEnc.value] at h
        omega
      · intro _
        have h8 : p.length = 8 := by
          rcases hlen with h | h | h | h
          · have := (load_be1 0 p h hbytes).2
            omega
          · have := (load_be2 0 p h hbytes).2
            omega
          · have := (load_be4 0 p h hbytes).2
            omega
          · exact h
        refine ⟨rfl, ?_, p, rfl, h8⟩
        rw [uval_of_uval _ (by omega)]
        rfl
    · rw [if_neg hbig] at hd
      refine ⟨_, _, hd, hpos, ?_, ?_⟩
      · intro _
        refine ⟨rfl, ?_⟩
        rw [ival_of_ival _ (by omega) (by omega)]
        rfl
      · intro h
        simp only [IntEnc.value] at h
        omega
  | int p =>
    obtain ⟨hlen, hbytes⟩ : (p.length = 1 ∨ p.length = 2 ∨ p.length = 4 ∨ p.length = 8) ∧
      ∀ b ∈ p, b < 256 := he
    obtain ⟨hlt, hd⟩ := decode_int f p hlen hbytes
    have hpos : 0 < (IntEnc.int p).bytes.length := by simp [IntEnc.bytes]
    have hw : 8 * p.length = 8 ∨ 8 * p.length = 16 ∨ 8 * p.length = 32 ∨ 8 * p.length = 64 := by
      omega
    obtain ⟨hb1, hb2⟩ := sign_extend_bounds (8 * p.length) (be_value p) hw hlt
    have hv : IntEnc.value (.int p) = sign_extend (8 * p.length) (be_value p) := by
      rw [sign_extend_eq _ _ hlt]
      rfl
    refine ⟨_, _, hd, hpos, ?_, ?_⟩
    · intro _
      refine ⟨rfl, ?_⟩
      rw [ival_of_ival _ hb1 hb2, hv]
    · intro h
      rw [hv] at h
      omega

/-- C6 (integer canonicalisation on parse). For every integer encoding of the
format (positive or negative fixint, uint 8/16/32/64, int 8/16/32/64) with
mathematical value `n`, parsing the encoding yields exactly one slot: a `Long`
with `ival = n` when `n ≤ INT64_MAX`, and an `Ulong` with `uval = n` when
`n > INT64_MAX`, which happens only for uint 64. -/
theorem C6_integer_canonical (f : Nat → Nat) (st : State) (e : IntEnc) (mi : Nat)
    (ht : st.t.length = st.t_capacity) (hv : st.v.length = st.t_capacity)
    (he : e.wf) :
    ∃ st2, parse_msgpack f st e.bytes mi = some (0, st2) ∧
      parse_nslots f st e.bytes = 1 ∧
      (e.value ≤ 9223372036854775807 →
        st2.t.getD 0 0 = LongValue ∧ (st2.v.getD 0 ⟨0, 0⟩).ival = e.value) ∧
      (9223372036854775807 < e.value →
        st2.t.getD 0 0 = UlongValue ∧ ((st2.v.getD 0 ⟨0, 0⟩).uval : Int) = e.value ∧
        ∃ p, e = .uint p ∧ p.length = 8) := by
  obtain ⟨tag, w, hd, hpos, h1, h2⟩ := decode_int_enc f e he
  obtain ⟨st2, hp, hn, htag, hw⟩ := parse_single_scalar f st e.bytes mi tag w ht hv hd hpos
  refine ⟨st2, hp, hn, ?_, ?_⟩
  · intro h
    rw [htag, hw]
    exact h1 h
  · intro h
    rw [htag, hw]
    exact h2 h

theorem ensure_res_spec (state : State) (out need : Nat)
    (hwf : state.res.length = state.res_capacity) :
    (ensure_res state out need).1 = 0 ∧
    (ensure_res state out need).2.res.length = (ensure_res state out need).2.res_capacity ∧
    (ensure_res state out need).2.ot = state.ot ∧ (ensure_res state out need).2.ov = state.ov ∧
    (ensure_res state out need).2.b1 = state.b1 ∧ (ensure_res state out need).2.b2 = state.b2 ∧
    (out ≤ state.res_capacity → out + need ≤ (ensure_res state out need).2.res_capacity) ∧
    (∀ k, k ≤ state.res.length →
      (ensure_res state out need).2.res.take k = state.res.take k) := by
  unfold ensure_res
  have hnc := next_capacity_ge (state.res_capacity + need)
  simp only [buf_grow, realloc]
  split_ifs with h1 h2
  · simp at h2
  · refine ⟨rfl, ?_, rfl, rfl, rfl, rfl, ?_, ?_⟩
    · exact length_grow _ _ _ (by omega)
    · intro _; show out + need ≤ next_capacity _; omega
    · intro k hk
      show List.take k (List.take _ state.res ++ _) = _
      rw [List.take_of_length_le (by omega : state.res.length ≤ next_capacity _)]
      rw [List.take_append_of_le_length hk]
  · refine ⟨rfl, hwf, rfl, rfl, rfl, rfl, ?_, fun _ _ => rfl⟩
    intro _
    show out + need ≤ state.res_capacity
    omega

theorem emit_frame (c : UnparseCfg) (a : Nat) (bs : List Nat) (n : Nat) :
    (c.emit a bs n).typeid = c.typeid ∧ (c.emit a bs n).st.ot = c.st.ot ∧
    (c.emit a bs n).st.ov = c.st.ov ∧
    (c.emit a bs n).st.res.length = c.st.res.length ∧
    (c.emit a bs n).st.res_capacity = c.st.res_capacity := by
  simp [UnparseCfg.emit, store_length]

theorem check_buf_advances (c : UnparseCfg) (hwf : c.st.res.length = c.st.res_capacity) :
    Advances c 1 (some (check_buf c)) := by
  obtain ⟨e1, e2, e3, e4, -⟩ := ensure_res_spec c.st c.out 10 hwf
  unfold check_buf
  simp only [e1]
  exact ⟨_, rfl, rfl, e3, e4, e2⟩

theorem check_buf_emit_advances (c : UnparseCfg) (a : Nat) (bs : List Nat) (n : Nat)
    (hwf : c.st.res.length = c.st.res_capacity) :
    Advances c 1 (some (check_buf (c.emit a bs n))) := by
  obtain ⟨f1, f2, f3, f4, f5⟩ := emit_frame c a bs n
  obtain ⟨c2, g1, g2, g3, g4, g5⟩ := check_buf_advances (c.emit a bs n) (by rw [f4, f5]; exact hwf)
  exact ⟨c2, g1, by rw [g2, f1], by rw [g3, f2], by rw [g4, f3], g5⟩

theorem copy_data_advances (mem : Nat → Nat) (c : UnparseCfg) (value : Value)
    (hwf : c.st.res.length = c.st.res_capacity) :
    (value.xoff ≠ 4294967295 → Advances c 1 (copy_data mem c value)) ∧
    (value.xoff = 4294967295 → c.typeid + 1 < c.st.ov.length →
      Advances c 2 (copy_data mem c value)) := by
  obtain ⟨e1, e2, e3, e4, -⟩ := ensure_res_spec c.st c.out (value.xlen + 10) hwf
  unfold copy_data
  simp only [e1]
  constructor
  · intro hx
    simp only [ne_eq, not_true_eq_false, ↓reduceIte, hx]
    refine ⟨_, rfl, rfl, ?_, ?_, ?_⟩
    · simpa [UnparseCfg.emit] using e3
    · simpa [UnparseCfg.emit] using e4
    · simpa [UnparseCfg.emit, store_length] using e2
  · intro hx hlt
    simp only [ne_eq, not_true_eq_false, ↓reduceIte, hx]
    rw [e4]
    have : c.st.ov.get? (c.typeid + 1) = some (c.st.ov.get ⟨c.typeid + 1, hlt⟩) :=
      List.get?_eq_get hlt
    rw [this]
    refine ⟨_, rfl, rfl, ?_, ?_, ?_⟩
    · simpa [UnparseCfg.emit] using e3
    · simpa [UnparseCfg.emit] using e4
    · simpa [UnparseCfg.emit, store_length] using e2


theorem unparse_switch_unknown (f : Nat → Nat) (mem : Nat → Nat) (c : UnparseCfg)
    (tag : Nat) (value : Value) (h : ¬ known_tag tag) :
    unparse_switch f mem c tag value = some (.error_badcode c) := by
  unfold unparse_switch
  split <;> first
    | rfl
    | (exfalso; apply h; unfold known_tag; omega)

theorem string_advances (mem : Nat → Nat) (c : UnparseCfg) (value : Value)
    (hwf : c.st.res.length = c.st.res_capacity) :
    (value.xoff ≠ 4294967295 → Advances c 1 (unparse_string mem c value)) ∧
    (value.xoff = 4294967295 → c.typeid + 1 < c.st.ov.length →
      Advances c 2 (unparse_string mem c value)) := by
  unfold unparse_string
  split_ifs <;>
  · simp only [UnparseCfg.emit]
    exact copy_data_advances mem _ value (by simpa [store_length] using hwf)

theorem bin_advances (mem : Nat → Nat) (c : UnparseCfg) (value : Value)
    (hwf : c.st.res.length = c.st.res_capacity) :
    (value.xoff ≠ 4294967295 → Advances c 1 (unparse_bin mem c value)) ∧
    (value.xoff = 4294967295 → c.typeid + 1 < c.st.ov.length →
      Advances c 2 (unparse_bin mem c value)) := by
  unfold unparse_bin
  split_ifs <;>
  · simp only [UnparseCfg.emit]
    exact copy_data_advances mem _ value (by simpa [store_length] using hwf)

theorem copy_data_emit_advances (mem : Nat → Nat) (c : UnparseCfg) (a : Nat) (bs : List Nat)
    (n : Nat) (value : Value) (hwf : c.st.res.length = c.st.res_capacity) :
    (value.xoff ≠ 4294967295 → Advances c 1 (copy_data mem (c.emit a bs n) value)) ∧
    (value.xoff = 4294967295 → c.typeid + 1 < c.st.ov.length →
      Advances c 2 (copy_data mem (c.emit a bs n) value)) :=
  copy_data_advances mem (c.emit a bs n) value
    (by simpa [UnparseCfg.emit, store_length] using hwf)

theorem takes_next_ext (value : Value) :
    takes_next ExtValue value ↔
      value.xoff = 4294967295 ∧ value.xlen ≠ 2 ∧ value.xlen ≠ 3 ∧ value.xlen ≠ 5 ∧
        value.xlen ≠ 9 := by
  unfold takes_next
  constructor
  · rintro ⟨h1, h | h | h | h | h | h⟩
    · exact absurd h (by decide)
    · exact absurd h (by decide)
    · exact absurd h (by decide)
    · exact absurd h (by decide)
    · exact absurd h (by decide)
    · exact ⟨h1, h.2⟩
  · rintro ⟨h1, h2⟩
    exact ⟨h1, Or.inr (Or.inr (Or.inr (Or.inr (Or.inr ⟨rfl, h2⟩))))⟩

theorem ext_advances (mem : Nat → Nat) (c : UnparseCfg) (value : Value)
    (hwf : c.st.res.length = c.st.res_capacity) :
    (¬ takes_next ExtValue value → Advances c 1 (unparse_ext mem c value)) ∧
    (takes_next ExtValue value → c.typeid + 1 < c.st.ov.length →
      Advances c 2 (unparse_ext mem c value)) := by
  rw [takes_next_ext]
  unfold unparse_ext
  simp only []
  split
  · next h2 =>
    exact ⟨fun _ => check_buf_emit_advances c _ _ _ hwf, fun h => absurd h2 h.2.1⟩
  · next h2 =>
    exact ⟨fun _ => check_buf_emit_advances c _ _ _ hwf, fun h => absurd h2 h.2.2.1⟩
  · next h2 =>
    exact ⟨fun _ => check_buf_emit_advances c _ _ _ hwf, fun h => absurd h2 h.2.2.2.1⟩
  · next h2 =>
    exact ⟨fun _ => check_buf_emit_advances c _ _ _ hwf, fun h => absurd h2 h.2.2.2.2⟩
  · next h2 =>
    have key := copy_data_advances mem (c.emit 0 [0xd8] 1) value
      (by simpa [UnparseCfg.emit, store_length] using hwf)
    exact ⟨fun h => key.1 (fun hx => h ⟨hx, by omega⟩), fun h => key.2 h.1⟩
  · next n2 n3 n5 n9 n17 =>
    have hp : value.xlen ≠ 2 ∧ value.xlen ≠ 3 ∧ value.xlen ≠ 5 ∧ value.xlen ≠ 9 :=
      ⟨n2, n3, n5, n9⟩
    split_ifs
    all_goals
      exact ⟨fun h => (copy_data_emit_advances mem c _ _ _ value hwf).1 (fun hx => h ⟨hx, hp⟩),
        fun h => (copy_data_emit_advances mem c _ _ _ value hwf).2 h.1⟩

theorem nested_advances (c : UnparseCfg) (value : Value) (fix op16 : Nat)
    (hwf : c.st.res.length = c.st.res_capacity) :
    Advances c 1 (some (unparse_nested c value fix op16)) := by
  unfold unparse_nested
  split_ifs <;> exact check_buf_emit_advances c _ _ _ hwf

theorem negative_advances (c : UnparseCfg) (uval : Nat)
    (hwf : c.st.res.length = c.st.res_capacity) :
    Advances c 1 (some (unparse_negative c uval)) := by
  unfold unparse_negative
  split_ifs <;> exact check_buf_emit_advances c _ _ _ hwf

theorem unsigned_advances (c : UnparseCfg) (uval : Nat)
    (hwf : c.st.res.length = c.st.res_capacity) :
    Advances c 1 (some (unparse_unsigned c uval)) := by
  unfold unparse_unsigned
  split_ifs <;> exact check_buf_emit_advances c _ _ _ hwf

theorem unparse_switch_known (f : Nat → Nat) (mem : Nat → Nat) (c : UnparseCfg)
    (tag : Nat) (value : Value) (hwf : c.st.res.length = c.st.res_capacity)
    (hk : known_tag tag) :
    (¬ takes_next tag value → Advances c 1 (unparse_switch f mem c tag value)) ∧
    (takes_next tag value → c.typeid + 1 < c.st.ov.length →
      Advances c 2 (unparse_switch f mem c tag value)) := by
  have hcases : tag = 1 ∨ tag = 2 ∨ tag = 3 ∨ tag = 4 ∨ tag = 5 ∨ tag = 6 ∨ tag = 7 ∨
      tag = 8 ∨ tag = 9 ∨ tag = 10 ∨ tag = 11 ∨ tag = 12 ∨ tag = 18 ∨ tag = 19 ∨ tag = 20 := by
    unfold known_tag at hk; omega
  have hno : ∀ t : Nat, t ≠ 8 → t ≠ 9 → t ≠ 10 → t ≠ 18 → t ≠ 19 → t ≠ 20 →
      ¬ takes_next t value := by
    intro t h8 h9 h10 h18 h19 h20 h
    obtain ⟨-, h | h | h | h | h | h⟩ := h
    · exact h8 h
    · exact h18 h
    · exact h9 h
    · exact h19 h
    · exact h20 h
    · exact h10 h.1
  have hyes : ∀ t : Nat, (t = 8 ∨ t = 9 ∨ t = 18 ∨ t = 19 ∨ t = 20) →
      (takes_next t value ↔ value.xoff = 4294967295) := by
    intro t ht
    unfold takes_next
    constructor
    · exact fun h => h.1
    · intro h
      refine ⟨h, ?_⟩
      rcases ht with e | e | e | e | e <;> subst e <;> simp
  rcases hcases with e | e | e | e | e | e | e | e | e | e | e | e | e | e | e <;> subst e
  · exact ⟨fun _ => check_buf_emit_advances c _ _ _ hwf,
      fun h => absurd h (hno _ (by decide) (by decide) (by decide) (by decide) (by decide) (by decide))⟩
  · exact ⟨fun _ => check_buf_emit_advances c _ _ _ hwf,
      fun h => absurd h (hno _ (by decide) (by decide) (by decide) (by decide) (by decide) (by decide))⟩
  · exact ⟨fun _ => check_buf_emit_advances c _ _ _ hwf,
      fun h => absurd h (hno _ (by decide) (by decide) (by decide) (by decide) (by decide) (by decide))⟩
  · refine ⟨fun _ => ?_,
      fun h => absurd h (hno _ (by decide) (by decide) (by decide) (by decide) (by decide) (by decide))⟩
    show Advances c 1 (if value.uval > 9223372036854775807 then _ else _)
    split_ifs
    · exact negative_advances c _ hwf
    · exact unsigned_advances c _ hwf
  · exact ⟨fun _ => unsigned_advances c _ hwf,
      fun h => absurd h (hno _ (by decide) (by decide) (by decide) (by decide) (by decide) (by decide))⟩
  · exact ⟨fun _ => check_buf_emit_advances c _ _ _ hwf,
      fun h => absurd h (hno _ (by decide) (by decide) (by decide) (by decide) (by decide) (by decide))⟩
  · exact ⟨fun _ => check_buf_emit_advances c _ _ _ hwf,
      fun h => absurd h (hno _ (by decide) (by decide) (by decide) (by decide) (by decide) (by decide))⟩
  · rw [hyes 8 (by decide)]
    exact string_advances mem c value hwf
  · rw [hyes 9 (by decide)]
    exact bin_advances mem c value hwf
  · exact ext_advances mem c value hwf
  · exact ⟨fun _ => nested_advances c value _ _ hwf,
      fun h => absurd h (hno _ (by decide) (by decide) (by decide) (by decide) (by decide) (by decide))⟩
  · exact ⟨fun _ => nested_advances c value _ _ hwf,
      fun h => absurd h (hno _ (by decide) (by decide) (by decide) (by decide) (by decide) (by decide))⟩
  · rw [hyes 18 (by decide)]
    exact string_advances mem { c with copy_from := c.st.b2 } value hwf
  · rw [hyes 19 (by decide)]
    exact bin_advances mem { c with copy_from := c.st.b2 } value hwf
  · rw [hyes 20 (by decide)]
    exact copy_data_advances mem { c with copy_from := c.st.b2 } value hwf


theorem unparse_run_walk (f : Nat → Nat) (mem : Nat → Nat) (nitems : Nat) (b : Bool) :
    ∀ (fuel : Nat) (c : UnparseCfg), c.st.res.length = c.st.res_capacity →
    tags_walk c.st.ot c.st.ov nitems fuel c.typeid = some b →
    ∃ c2, c2.st.res.length = c2.st.res_capacity ∧
      unparse_run f mem nitems fuel c =
        some (if b then .error_badcode c2 else .done c2) := by
  intro fuel
  induction fuel with
  | zero => intro c _ h; simp [tags_walk] at h
  | succ k ih =>
    intro c hwf h
    unfold tags_walk at h
    unfold unparse_run unparse_step
    by_cases h1 : c.typeid = nitems
    · rw [if_pos h1] at h
      simp only [Option.some.injEq] at h
      subst h
      simp only [h1, ↓reduceIte]
      exact ⟨c, hwf, by simp⟩
    · rw [if_neg h1] at h
      simp only [h1, ↓reduceIte]
      by_cases h2 : c.typeid > nitems
      · rw [if_pos h2] at h; simp at h
      · rw [if_neg h2] at h
        cases e1 : c.st.ot.get? c.typeid with
        | none => rw [e1] at h; exact absurd h (by simp)
        | some tag =>
          cases e2 : c.st.ov.get? c.typeid with
          | none => rw [e1, e2] at h; exact absurd h (by simp)
          | some value =>
            simp only [e1, e2] at h ⊢
            by_cases h3 : known_tag tag
            · rw [if_neg (not_not.mpr h3)] at h
              by_cases h4 : takes_next tag value
              · rw [if_pos h4] at h
                by_cases h5 : c.typeid + 1 < nitems ∧ c.typeid + 1 < c.st.ov.length
                · rw [if_pos h5] at h
                  obtain ⟨c3, g1, g2, g3, g4, g5⟩ :=
                    (unparse_switch_known f mem c tag value hwf h3).2 h4 h5.2
                  rw [g1]
                  simp only
                  exact ih c3 g5 (by rw [g3, g4, g2]; exact h)
                · rw [if_neg h5] at h; simp at h
              · rw [if_neg h4] at h
                obtain ⟨c3, g1, g2, g3, g4, g5⟩ :=
                  (unparse_switch_known f mem c tag value hwf h3).1 h4
                rw [g1]
                simp only
                exact ih c3 g5 (by rw [g3, g4, g2]; exact h)
            · rw [if_pos h3] at h
              simp only [Option.some.injEq] at h
              subst h
              rw [unparse_switch_unknown f mem c tag value h3]
              exact ⟨c, hwf, by simp⟩

/-- C10 (amended). Let the walk of the read cursor over the first `nitems`
slots be defined (`tags_walk` is not `none`: the slots lie inside the arrays
and every slot with `xoff = 0xFFFFFFFF` on the copy path has its pointer slot
among the first `nitems`).  Then `unparse_msgpack` returns -1 with the 28 bytes
`Internal error: unknown code` in `res` if the walk meets a slot with an unknown
type id, and returns 0 otherwise. -/
theorem C10_unknown_tag (f : Nat → Nat) (mem : Nat → Nat) (st : State) (nitems : Nat)
    (b : Bool) (hres : st.res.length = st.res_capacity)
    (hw : tags_walk st.ot st.ov nitems (st.ot.length + 1) 0 = some b) :
    ∃ st2, unparse_msgpack f mem st nitems = some (if b then -1 else 0, st2) ∧
      (b = true → st2.res_size = 28 ∧
        st2.res.take st2.res_size = cstr "Internal error: unknown code") := by
  obtain ⟨e1, e2, e3, e4, -⟩ := ensure_res_spec st 0 10 hres
  obtain ⟨c2, hc2, hrun⟩ := unparse_run_walk f mem nitems b (st.ot.length + 1)
    { st := (ensure_res st 0 10).2, typeid := 0, out := 0, copy_from := st.b1 } e2
    (by simp only [e3, e4]; exact hw)
  unfold unparse_msgpack unparse_exit
  simp only [e1, ne_eq, not_true_eq_false, ↓reduceIte, hrun]
  cases b with
  | false =>
    exact ⟨_, rfl, fun h => by simp at h⟩
  | true =>
    obtain ⟨s1, s2, s3⟩ := set_error_spec c2.st (cstr "Internal error: unknown code") hc2
    refine ⟨(set_error c2.st (cstr "Internal error: unknown code")).2, ?_, fun _ => ⟨?_, ?_⟩⟩
    · simp only [↓reduceIte]
      rw [← s1]
    · rw [s2]; rfl
    · rw [s2]; exact s3

theorem check_buf_emit_take (c : UnparseCfg) (bs : List Nat) (n : Nat)
    (hwf : c.st.res.length = c.st.res_capacity) (hroom : c.out + 10 ≤ c.st.res_capacity)
    (hn : bs.length = n) (h10 : n ≤ 10) :
    ∃ c2, check_buf (c.emit 0 bs n) = .again c2 ∧ c2.typeid = c.typeid + 1 ∧
      c2.out = c.out + n ∧ c2.st.res.take (c.out + n) = c.st.res.take c.out ++ bs := by
  have hl : (c.emit 0 bs n).st.res.length = (c.emit 0 bs n).st.res_capacity := by
    simpa [UnparseCfg.emit, store_length] using hwf
  obtain ⟨e1, e2, e3, e4, e5, e6, e7, e8⟩ :=
    ensure_res_spec (c.emit 0 bs n).st (c.emit 0 bs n).out 10 hl
  unfold check_buf
  simp only [e1]
  refine ⟨_, rfl, rfl, rfl, ?_⟩
  show (ensure_res (c.emit 0 bs n).st (c.emit 0 bs n).out 10).2.res.take (c.out + n) = _
  rw [e8 (c.out + n) (by simp [UnparseCfg.emit, store_length]; omega)]
  simp only [UnparseCfg.emit, Nat.add_zero]
  rw [← hn]
  exact take_store bs c.st.res c.out (by omega)

theorem unparse_single (f : Nat → Nat) (mem : Nat → Nat) (st : State) (tag : Nat) (w : Value)
    (bs : List Nat) (n : Nat) (hres : st.res.length = st.res_capacity)
    (h0 : st.ot.get? 0 = some tag) (h1 : st.ov.get? 0 = some w)
    (hsw : ∀ c : UnparseCfg, unparse_switch f mem c tag w = some (check_buf (c.emit 0 bs n)))
    (hn : bs.length = n) (h10 : n ≤ 10) :
    ∃ st2, unparse_msgpack f mem st 1 = some (0, st2) ∧ st2.res.take st2.res_size = bs := by
  obtain ⟨e1, e2, e3, e4, -, -, e7, -⟩ := ensure_res_spec st 0 10 hres
  obtain ⟨c2, g1, g2, g3, g4⟩ := check_buf_emit_take
    { st := (ensure_res st 0 10).2, typeid := 0, out := 0, copy_from := st.b1 } bs n e2
    (by simpa using e7 (Nat.zero_le _)) hn h10
  have hlen : st.ot.length + 1 = (st.ot.length - 1) + 1 + 1 := by
    have : 0 < st.ot.length := by
      rcases Nat.eq_zero_or_pos st.ot.length with h | h
      · rw [List.length_eq_zero.mp h] at h0; simp at h0
      · exact h
    omega
  refine ⟨{ c2.st with res_size := c2.out }, ?_, ?_⟩
  · unfold unparse_msgpack unparse_exit
    simp only [e1, ne_eq, not_true_eq_false, ↓reduceIte]
    rw [hlen]
    unfold unparse_run unparse_step
    simp only [e3, e4, h0, h1, hsw, g1, Nat.zero_ne_one, ↓reduceIte]
    unfold unparse_run unparse_step
    simp only [g2, ↓reduceIte]
  · simp only [g3, Nat.zero_add] at g4 ⊢
    simpa using g4


theorem be16_eq (x : Nat) : be16 x = big_endian 2 x := by
  simp [be16, big_endian]

theorem be32_eq (x : Nat) : be32 x = big_endian 4 x := by
  simp only [be32, be16, big_endian, List.nil_append, List.cons_append, List.cons.injEq, and_true]
  and_intros <;> omega

theorem be64_eq (x : Nat) : be64 x = big_endian 8 x := by
  simp only [be64, be32, be16, big_endian, List.nil_append, List.cons_append, List.cons.injEq,
    and_true]
  and_intros <;> omega

theorem big_endian_congr (k : Nat) : ∀ (x y : Nat), x % 256 ^ k = y % 256 ^ k →
    big_endian k x = big_endian k y := by
  induction k with
  | zero => intro x y _; rfl
  | succ k ih =>
    intro x y h
    have h1 : x % 256 = y % 256 := by
      have := congrArg (· % 256) h
      simp only [Nat.pow_succ] at this
      rwa [Nat.mod_mul_left_mod, Nat.mod_mul_left_mod] at this
    have h2 : x / 256 % 256 ^ k = y / 256 % 256 ^ k := by
      have := congrArg (· / 256) h
      simp only [Nat.pow_succ] at this
      rw [Nat.mul_comm, Nat.mod_mul_right_div_self, Nat.mod_mul_right_div_self] at this
      exact this
    simp only [big_endian]
    rw [ih _ _ h2, h1]

theorem shortest_int_nonneg (u : Nat) :
    shortest_int u =
      if u ≤ 127 then [u]
      else if u ≤ 255 then 0xcc :: big_endian 1 u
      else if u ≤ 65535 then 0xcd :: big_endian 2 u
      else if u ≤ 4294967295 then 0xce :: big_endian 4 u
      else 0xcf :: big_endian 8 u := by
  unfold shortest_int
  simp only [Int.toNat_ofNat, Int.ofNat_zero_le, ↓reduceIte]
  have e1 : ((u : Int) ≤ 127) = (u ≤ 127) := by simp
  have e2 : ((u : Int) ≤ 255) = (u ≤ 255) := by simp
  have e3 : ((u : Int) ≤ 65535) = (u ≤ 65535) := by simp
  have e4 : ((u : Int) ≤ 4294967295) = (u ≤ 4294967295) := by simp
  simp only [e1, e2, e3, e4]

theorem unsigned_bytes (c : UnparseCfg) (u : Nat) :
    ∃ n, unparse_unsigned c u = check_buf (c.emit 0 (shortest_int u) n) ∧
      (shortest_int u).length = n ∧ n ≤ 10 := by
  rw [shortest_int_nonneg]
  unfold unparse_unsigned
  by_cases h1 : u ≤ 127
  · have : u % 256 = u := by omega
    simp only [h1, ↓reduceIte, this, show u ≤ 0x7f from h1]
    exact ⟨1, rfl, rfl, by omega⟩
  by_cases h2 : u ≤ 255
  · have : u % 256 = u := by omega
    simp only [h1, h2, ↓reduceIte, this, show ¬ u ≤ 0x7f from h1]
    exact ⟨2, by simp [big_endian, this], by simp [big_endian], by omega⟩
  by_cases h3 : u ≤ 65535
  · simp only [h1, h2, h3, ↓reduceIte, show ¬ u ≤ 0x7f from h1, be16_eq]
    exact ⟨3, rfl, by simp [big_endian], by omega⟩
  by_cases h4 : u ≤ 4294967295
  · simp only [h1, h2, h3, h4, ↓reduceIte, show ¬ u ≤ 0x7f from h1, be32_eq]
    exact ⟨5, rfl, by simp [big_endian], by omega⟩
  simp only [h1, h2, h3, h4, ↓reduceIte, show ¬ u ≤ 0x7f from h1, be64_eq]
  exact ⟨9, rfl, by simp [big_endian], by omega⟩

theorem shortest_int_neg (u : Nat) (h1 : 9223372036854775807 < u)
    (h2 : u < 18446744073709551616) :
    shortest_int ((u : Int) - 18446744073709551616) =
      if u ≥ 18446744073709551616 - 0x20 then [u - 18446744073709551360]
      else if u ≥ 18446744073709551616 - 128 then
        0xd0 :: big_endian 1 (u - 18446744073709551360)
      else if u ≥ 18446744073709551616 - 32768 then
        0xd1 :: big_endian 2 (u - 18446744073709486080)
      else if u ≥ 18446744073709551616 - 2147483648 then
        0xd2 :: big_endian 4 (u - 18446744069414584320)
      else 0xd3 :: big_endian 8 u := by
  unfold shortest_int
  have e0 : ¬ (0 ≤ (u : Int) - 18446744073709551616) := by omega
  have e1 : (-32 ≤ (u : Int) - 18446744073709551616) = (u ≥ 18446744073709551616 - 0x20) := by
    apply propext; constructor <;> intro h <;> omega
  have e2 : (-128 ≤ (u : Int) - 18446744073709551616) = (u ≥ 18446744073709551616 - 128) := by
    apply propext; constructor <;> intro h <;> omega
  have e3 : (-32768 ≤ (u : Int) - 18446744073709551616) =
      (u ≥ 18446744073709551616 - 32768) := by
    apply propext; constructor <;> intro h <;> omega
  have e4 : (-2147483648 ≤ (u : Int) - 18446744073709551616) =
      (u ≥ 18446744073709551616 - 2147483648) := by
    apply propext; constructor <;> intro h <;> omega
  have t1 : ((u : Int) - 18446744073709551616 + 256).toNat = u - 18446744073709551360 := by
    omega
  have t2 : ((u : Int) - 18446744073709551616 + 65536).toNat = u - 18446744073709486080 := by
    omega
  have t3 : ((u : Int) - 18446744073709551616 + 4294967296).toNat =
      u - 18446744069414584320 := by omega
  have t4 : ((u : Int) - 18446744073709551616 + 18446744073709551616).toNat = u := by omega
  simp only [e0, ↓reduceIte, e1, e2, e3, e4, t1, t2, t3, t4]

theorem negative_bytes (c : UnparseCfg) (u : Nat) (h1 : 9223372036854775807 < u)
    (h2 : u < 18446744073709551616) :
    ∃ n, unparse_negative c u =
        check_buf (c.emit 0 (shortest_int ((u : Int) - 18446744073709551616)) n) ∧
      (shortest_int ((u : Int) - 18446744073709551616)).length = n ∧ n ≤ 10 := by
  rw [shortest_int_neg u h1 h2]
  unfold unparse_negative
  by_cases c1 : u ≥ 18446744073709551616 - 0x20
  · have : u % 256 = u - 18446744073709551360 := by omega
    simp only [c1, ↓reduceIte, this]
    exact ⟨1, rfl, rfl, by omega⟩
  by_cases c2 : u ≥ 18446744073709551616 - 128
  · have : u % 256 = u - 18446744073709551360 := by omega
    have e : (u - 18446744073709551360) % 256 = u - 18446744073709551360 := by omega
    simp only [c1, c2, ↓reduceIte, this]
    exact ⟨2, by simp [big_endian, e], by simp [big_endian], by omega⟩
  by_cases c3 : u ≥ 18446744073709551616 - 32768
  · simp only [c1, c2, c3, ↓reduceIte, be16_eq]
    refine ⟨3, ?_, by simp [big_endian], by omega⟩
    rw [big_endian_congr 2 u (u - 18446744073709486080) (by norm_num; omega)]
  by_cases c4 : u ≥ 18446744073709551616 - 2147483648
  · simp only [c1, c2, c3, c4, ↓reduceIte, be32_eq]
    refine ⟨5, ?_, by simp [big_endian], by omega⟩
    rw [big_endian_congr 4 u (u - 18446744069414584320) (by norm_num; omega)]
  simp only [c1, c2, c3, c4, ↓reduceIte, be64_eq]
  exact ⟨9, rfl, by simp [big_endian], by omega⟩

theorem uval_lt (w : Value) (h : w.xlen < 4294967296 ∧ w.xoff < 4294967296) :
    w.uval < 18446744073709551616 := by
  unfold Value.uval; omega

theorem shortest_int_head (n : Int) (h1 : -9223372036854775808 ≤ n) :
    signed_opcode ((shortest_int n).headD 0) ↔ n < 0 := by
  unfold shortest_int signed_opcode
  split_ifs <;> simp only [List.headD_cons] <;> constructor <;> intro h <;> omega

theorem ival_eq (w : Value) :
    w.ival = if w.uval > 9223372036854775807 then (w.uval : Int) - 18446744073709551616
      else (w.uval : Int) := by
  unfold Value.ival
  split_ifs <;> first | rfl | omega

/-- C7 (shortest integer encoding). For a Long slot (value `ival`) and a Ulong
slot (value `uval`), the pass of `unparse_msgpack` over the slot, wherever the
cursors stand, writes at `out` the shortest MsgPack integer encoding of the
value and moves `out` by its length.  With such a slot alone in the array,
`unparse_msgpack` returns 0 and the first `res_size` bytes of `res` are that
encoding; its first byte is of the signed family (negative fixint,
`0xd0..0xd3`) exactly when the value is negative. -/
theorem C7_shortest_integer (f : Nat → Nat) (mem : Nat → Nat) (st : State) (tag : Nat)
    (w : Value) (hres : st.res.length = st.res_capacity)
    (h0 : st.ot.get? 0 = some tag) (h1 : st.ov.get? 0 = some w)
    (hw : w.xlen < 4294967296 ∧ w.xoff < 4294967296)
    (htag : tag = LongValue ∨ tag = UlongValue) :
    (∀ c : UnparseCfg, unparse_switch f mem c tag w =
      some (check_buf (c.emit 0
        (shortest_int (if tag = LongValue then w.ival else (w.uval : Int)))
        (shortest_int (if tag = LongValue then w.ival else (w.uval : Int))).length))) ∧
    ∃ st2, unparse_msgpack f mem st 1 = some (0, st2) ∧
      st2.res.take st2.res_size =
        shortest_int (if tag = LongValue then w.ival else (w.uval : Int)) ∧
      (signed_opcode ((st2.res.take st2.res_size).headD 0) ↔
        (if tag = LongValue then w.ival else (w.uval : Int)) < 0) := by
  have hu := uval_lt w hw
  have key : ∃ n, (∀ c : UnparseCfg, unparse_switch f mem c tag w =
        some (check_buf (c.emit 0
          (shortest_int (if tag = LongValue then w.ival else (w.uval : Int))) n))) ∧
      (shortest_int (if tag = LongValue then w.ival else (w.uval : Int))).length = n ∧
      n ≤ 10 := by
    rcases htag with e | e <;> subst e
    · rw [if_pos rfl, ival_eq w]
      by_cases hneg : w.uval > 9223372036854775807
      · rw [if_pos hneg]
        obtain ⟨n, -, a2, a3⟩ := negative_bytes ⟨st, 0, 0, 0⟩ w.uval hneg hu
        refine ⟨n, fun c => ?_, a2, a3⟩
        obtain ⟨n2, b1, b2, -⟩ := negative_bytes c w.uval hneg hu
        have : n2 = n := by rw [← b2, a2]
        subst this
        show (if w.uval > 9223372036854775807 then some (unparse_negative c w.uval)
          else some (unparse_unsigned c w.uval)) = _
        rw [if_pos hneg, b1]
      · rw [if_neg hneg]
        obtain ⟨n, -, a2, a3⟩ := unsigned_bytes ⟨st, 0, 0, 0⟩ w.uval
        refine ⟨n, fun c => ?_, a2, a3⟩
        obtain ⟨n2, b1, b2, -⟩ := unsigned_bytes c w.uval
        have : n2 = n := by rw [← b2, a2]
        subst this
        show (if w.uval > 9223372036854775807 then some (unparse_negative c w.uval)
          else some (unparse_unsigned c w.uval)) = _
        rw [if_neg hneg, b1]
    · rw [if_neg (by decide)]
      obtain ⟨n, -, a2, a3⟩ := unsigned_bytes ⟨st, 0, 0, 0⟩ w.uval
      refine ⟨n, fun c => ?_, a2, a3⟩
      obtain ⟨n2, b1, b2, -⟩ := unsigned_bytes c w.uval
      have : n2 = n := by rw [← b2, a2]
      subst this
      show some (unparse_unsigned c w.uval) = _
      rw [b1]
  obtain ⟨n, k1, k2, k3⟩ := key
  obtain ⟨st2, r1, r2⟩ := unparse_single f mem st tag w _ n hres h0 h1 k1 k2 k3
  refine ⟨fun c => by rw [k1 c, k2], st2, r1, r2, ?_⟩
  rw [r2]
  apply shortest_int_head
  split_ifs
  · rw [ival_eq w]; split_ifs <;> omega
  · omega

set_option maxRecDepth 100000 in
/-- C1 (round trip), evaluated on a fixext 8 message: type byte 1 and the
eight data bytes 10..17.  The parse succeeds, the unparse over the copied slots
returns 0, and the bytes it leaves carry the opcode `0xd5` of fixext 2 in
place of `0xd7`: they are not the message, and the difference is neither
signedness nor length class of an integer. -/
theorem C1_roundtrip_fixext8 (f g : Nat → Nat) :
    roundtrip f g [0xd7, 1, 10, 11, 12, 13, 14, 15, 16, 17] 1000 =
      some (0, [0xd5, 1, 10, 11, 12, 13, 14, 15, 16, 17]) := by
  rfl

set_option maxRecDepth 100000 in
/-- C2 (hash injectivity), evaluated on the five distinct strings `aaaa`,
`baaa`, `abaa`, `aaba`, `aaab`, for every random pool: `create_hash_func`
returns the non-zero function `0x0c000102`, of the family that hashes a string
to its length, and `eval_hash_func` sends all five strings to 4. -/
theorem C2_hash_collides (random : List Nat) :
    create_hash_func 5 (["aaaa", "baaa", "abaa", "aaba", "aaab"].map cstr) random =
      some 0x0c000102 ∧
    (["aaaa", "baaa", "abaa", "aaba", "aaab"].map cstr).map
      (fun s => eval_hash_func 0x0c000102 s s.length) = [4, 4, 4, 4, 4] := by
  exact ⟨rfl, by decide⟩

set_option maxRecDepth 100000 in
/-- C3 (container offsets), evaluated on the map 32 message `df 00 00 00 01 01
02`, one pair of key 1 and value 2: the parse returns 0 with two slots, a Map
slot of count 1 with `xoff = 2` and the slot of the key.  The Map owns one child
slot, not two, and the value of the pair is never read. -/
theorem C3_map32_children (f : Nat → Nat) :
    parse_view f [0xdf, 0, 0, 0, 1, 1, 2] =
      some (0, 2, [(MapValue, 1, 2), (LongValue, 1, 0)], []) := by
  rfl

set_option maxRecDepth 100000 in
/-- C5 (ext length), evaluated on a fixext 1 (`d4 05 2a`) and on an ext 16 with
one data byte (`c8 00 01 05 2a`): the Ext slot has `xlen = 1`, the type byte
alone, not 2.  Inside a two-element array the data byte `2a` of the fixext 1 is
decoded as the next value, the Long 42: the parser has not advanced past it. -/
theorem C5_fixext1_length (f : Nat → Nat) :
    parse_view f [0xd4, 5, 0x2a] = some (0, 1, [(ExtValue, 1, 2)], []) ∧
    parse_view f [0xc8, 0, 1, 5, 0x2a] = some (0, 1, [(ExtValue, 1, 2)], []) ∧
    parse_view f [0x92, 0xd4, 5, 0x2a, 7] =
      some (0, 3, [(ArrayValue, 2, 3), (ExtValue, 1, 3), (LongValue, 0x2a, 0)], []) := by
  exact ⟨rfl, rfl, rfl⟩

set_option maxRecDepth 100000 in
/-- C8 (truncation), evaluated on `d4 05`, the fixext 1 message `d4 05 2a`
without its last byte: the parse returns 0 with one Ext slot and no diagnostic.
The truncated string `a3 61 62` is rejected with `Truncated data`. -/
theorem C8_truncated_fixext_accepted (f : Nat → Nat) :
    parse_view f [0xd4, 5] = some (0, 1, [(ExtValue, 1, 1)], []) ∧
    parse_view f [0xa3, 0x61, 0x62] = some (-1, 0, [], cstr "Truncated data") := by
  exact ⟨rfl, rfl⟩

set_option maxRecDepth 100000 in
/-- C4 as stated fails on the fixstr message `a1 61`: the String slot has
`xlen = 1` and `xoff = 1`, the payload is the byte at offset 1, and the byte at
offset `L - xoff - 1 = 0` is the opcode `a1`. -/
theorem C4_offset_counterexample :
    parse_view id [0xa1, 0x61] = some (0, 1, [(StringValue, 1, 1)], []) ∧
    blob_frame [0xa1, 0x61] 0 = some (StringValue, 1, 1) ∧
    ([0xa1, 0x61].drop (2 - 1 - 1)).take 1 ≠ ([0xa1, 0x61].drop (0 + 1)).take 1 := by
  exact ⟨rfl, rfl, by decide⟩

set_option maxRecDepth 100000 in
/-- C10 as stated fails on a single String slot with `xoff = 0xFFFFFFFF`
(`nitems = 1`, two more slots allocated behind it): the only slot among the
first `nitems` has a known type id, yet the cursor steps over `nitems`, reads
the type id 0 of the slot at index 2 and the call returns -1 with
`Internal error: unknown code`. -/
theorem C10_escape_counterexample :
    (unparse_msgpack id (fun _ => 0)
        (slot_state [StringValue, 0, 0] [⟨0, 4294967295⟩, ⟨0, 0⟩, ⟨0, 0⟩]) 1).map
      (fun r => (r.1, r.2.res.take r.2.res_size)) =
      some (-1, cstr "Internal error: unknown code") ∧
    ∀ i, i < 1 → known_tag ([StringValue, 0, 0].getD i 0) := by
  exact ⟨rfl, by decide⟩

set_option maxRecDepth 100000 in
/-- C10 (amended) at a Long slot followed by a slot of type id 0. -/
theorem C10_unknown_tag_witness :
    tags_walk [LongValue, 0] [⟨1, 0⟩, ⟨0, 0⟩] 2 3 0 = some true ∧
    ∃ st2, unparse_msgpack id (fun _ => 0) (slot_state [LongValue, 0] [⟨1, 0⟩, ⟨0, 0⟩]) 2 =
        some (-1, st2) ∧
      st2.res_size = 28 ∧ st2.res.take st2.res_size = cstr "Internal error: unknown code" := by
  have h := C10_unknown_tag id (fun _ => 0) (slot_state [LongValue, 0] [⟨1, 0⟩, ⟨0, 0⟩]) 2 true
    rfl (by decide)
  obtain ⟨st2, h1, h2⟩ := h
  exact ⟨by decide, st2, h1, h2 rfl⟩

set_option maxRecDepth 100000 in
/-- C7 at the slot Long(-100): the bytes are `d0 9c`. -/
theorem C7_shortest_integer_witness :
    ∃ st2, unparse_msgpack id (fun _ => 0) (slot_state [LongValue] [Value.of_ival (-100)]) 1 =
        some (0, st2) ∧
      st2.res.take st2.res_size = [0xd0, 0x9c] := by
  obtain ⟨_, st2, h1, h2, _⟩ := C7_shortest_integer id (fun _ => 0)
    (slot_state [LongValue] [Value.of_ival (-100)]) LongValue (Value.of_ival (-100))
    rfl rfl rfl (by decide) (Or.inl rfl)
  exact ⟨st2, h1, by rw [h2]; decide⟩

set_option maxRecDepth 100000 in
/-- C6 at the uint 64 encoding of `2^63`: one Ulong slot with that value. -/
theorem C6_integer_canonical_witness :
    (IntEnc.uint [0x80, 0, 0, 0, 0, 0, 0, 0]).wf ∧
    ∃ st2, parse_msgpack id State.zero [0xcf, 0x80, 0, 0, 0, 0, 0, 0, 0] 0 = some (0, st2) ∧
      st2.t.getD 0 0 = UlongValue ∧ (st2.v.getD 0 ⟨0, 0⟩).uval = 9223372036854775808 := by
  have hwf : (IntEnc.uint [0x80, 0, 0, 0, 0, 0, 0, 0]).wf :=
    ⟨Or.inr (Or.inr (Or.inr rfl)), by decide⟩
  obtain ⟨st2, h1, _, _, h4⟩ :=
    C6_integer_canonical id State.zero (IntEnc.uint [0x80, 0, 0, 0, 0, 0, 0, 0]) 0 rfl rfl hwf
  obtain ⟨h5, h6, _⟩ := h4 (by decide)
  refine ⟨hwf, st2, h1, h5, ?_⟩
  have h7 : IntEnc.value (.uint [0x80, 0, 0, 0, 0, 0, 0, 0]) = 9223372036854775808 := by decide
  rw [h7] at h6
  exact_mod_cast h6

set_option maxRecDepth 100000 in
/-- C9 at the input `92 01 c1`: after two passes the decoder stands at `c1`. -/
theorem C9_reserved_opcode_witness :
    parse_steps id [0x92, 1, 0xc1] 2 (parse_init State.zero) =
      some ((parse_steps id [0x92, 1, 0xc1] 2 (parse_init State.zero)).getD
        (parse_init State.zero)) ∧
    ∃ st2, parse_msgpack id State.zero [0x92, 1, 0xc1] 0 = some (-1, st2) ∧ st2.res_size = 12 ∧
      st2.res.take st2.res_size = cstr "Invalid data" :=
  ⟨rfl, C9_reserved_opcode id State.zero [0x92, 1, 0xc1] 0 2
    ((parse_steps id [0x92, 1, 0xc1] 2 (parse_init State.zero)).getD (parse_init State.zero))
    rfl rfl (by decide) (by decide) (by decide)⟩

/-! ## The hash evaluator and `schema_rt_key_eq` -/

theorem range_map_char_at (str : List Nat) : ∀ len : Nat, len ≤ str.length →
    (List.range len).map (char_at str) = str.take len := by
  intro len h
  apply List.ext_getElem
  · simp [h]
  · intro i h1 h2
    simp only [List.length_map, List.length_range] at h1
    simp [char_at, List.getD_eq_getElem?_getD, List.getElem?_eq_getElem (show i < str.length by omega)]

theorem eval_fnv1a_fold (seed : Nat) (str : List Nat) (len : Nat) :
    eval_fnv1a_func seed str len = fnv1a_fold seed ((List.range len).map (char_at str)) := by
  unfold eval_fnv1a_func fnv1a_fold
  rw [List.foldl_map]

theorem fnv1a_fold_append (seed : Nat) (xs ys : List Nat) :
    fnv1a_fold seed (xs ++ ys) = fnv1a_fold (fnv1a_fold seed xs) ys := by
  unfold fnv1a_fold
  rw [List.foldl_append]

/-- C15. `schema_rt_key_eq(key, str, klen, len)` is 0 exactly when `klen = len`,
`klen ≠ 0` and the first `klen` bytes of `key` and `str` are equal; it is
nonzero whenever `klen` is zero or `klen ≠ len`. -/
theorem C15_key_eq (key str : List Nat) (klen len : Nat) :
    (schema_rt_key_eq key str klen len = 0 ↔
      klen = len ∧ klen ≠ 0 ∧ key.take klen = str.take klen) ∧
    (klen = 0 ∨ klen ≠ len → schema_rt_key_eq key str klen len ≠ 0) := by
  unfold schema_rt_key_eq
  constructor
  · by_cases h : klen = 0 ∨ klen ≠ len
    · rw [if_pos h]
      constructor
      · intro h2; exact absurd h2 (by decide)
      · rintro ⟨h1, h2, -⟩
        rcases h with h | h
        · exact absurd h h2
        · exact absurd h1 h
    · rw [if_neg h]
      have h1 : klen ≠ 0 := fun e => h (Or.inl e)
      have h2 : klen = len := by
        by_contra e
        exact h (Or.inr e)
      cases hc : compare (key.take klen) (str.take klen) with
      | lt =>
        have hne : key.take klen ≠ str.take klen := by
          intro e
          rw [compare_eq_iff_eq.mpr e] at hc
          exact absurd hc (by decide)
        simp [hne]
      | eq =>
        have := compare_eq_iff_eq.mp hc
        exact ⟨fun _ => ⟨h2, h1, this⟩, fun _ => rfl⟩
      | gt =>
        have hne : key.take klen ≠ str.take klen := by
          intro e
          rw [compare_eq_iff_eq.mpr e] at hc
          exact absurd hc (by decide)
        simp [hne]
  · intro h
    rw [if_pos h]
    decide

/-- C16. `eval_fnv1a_func(seed, str, len)` is the left fold of the FNV-1a update
`res := ((res XOR byte) * 0x01000193) mod 2^32` over the first `len` bytes of
`str`, starting from `seed`; for `len = 0` it is `seed`. -/
theorem C16_fnv1a_fold (seed : Nat) (str : List Nat) (len : Nat) (h : len ≤ str.length) :
    eval_fnv1a_func seed str len = fnv1a_fold seed (str.take len) ∧
    eval_fnv1a_func seed str 0 = seed ∧
    eval_fnv1a_func 0x811c9dc5 str len =
      (str.take len).foldl (fun res b => (res ^^^ b) * 0x01000193 % 4294967296) 0x811c9dc5 := by
  refine ⟨?_, rfl, ?_⟩
  · rw [eval_fnv1a_fold, range_map_char_at str len h]
  · rw [eval_fnv1a_fold, range_map_char_at str len h]
    rfl

/-- C16 on the three bytes of `abc`: the FNV-1a-32 test vector `0x1a47e90b`. -/
theorem C16_fnv1a_fold_witness :
    eval_fnv1a_func 0x811c9dc5 [0x61, 0x62, 0x63] 3 = 0x1a47e90b ∧
    fnv1a_fold 0x811c9dc5 ([0x61, 0x62, 0x63].take 3) = 0x1a47e90b :=
  ⟨by rw [(C16_fnv1a_fold 0x811c9dc5 [0x61, 0x62, 0x63] 3 (by decide)).1]; decide, by decide⟩


theorem char_at_lt (str : List Nat) (h : ∀ b ∈ str, b < 256) (i : Nat) : char_at str i < 256 := by
  unfold char_at
  rw [List.getD_eq_getElem?_getD]
  cases e : str[i]? with
  | none => simp
  | some x =>
    simp only [Option.getD_some]
    exact h x (List.getElem?_mem e)

theorem pack2_lt (x y : Nat) (hx : x < 256) (hy : y < 256) :
    (x <<< 8) ||| y < 4294967296 := by
  have h1 : x <<< 8 < 2 ^ 32 := by rw [Nat.shiftLeft_eq]; omega
  have h2 : y < 2 ^ 32 := by omega
  exact Nat.or_lt_two_pow h1 h2

theorem pack3_lt (x y z : Nat) (hx : x < 256) (hy : y < 256) (hz : z < 256) :
    (x <<< 16) ||| (y <<< 8) ||| z < 4294967296 := by
  have h1 : x <<< 16 < 2 ^ 32 := by rw [Nat.shiftLeft_eq]; omega
  have h2 : y <<< 8 < 2 ^ 32 := by rw [Nat.shiftLeft_eq]; omega
  have h3 : z < 2 ^ 32 := by omega
  exact Nat.or_lt_two_pow (Nat.or_lt_two_pow h1 h2) h3

theorem eval_hash_sampling (func : Nat) (str : List Nat) (len : Nat)
    (hfam : func / 16777216 ≤ 0xf) (hbytes : ∀ b ∈ str, b < 256) :
    eval_hash_func func str len =
      sampling_value (func / 16777216) (func / 65536 % 256) (func / 256 % 256) (func % 256)
        str len % 4294967296 := by
  have ha := char_at_lt str hbytes (func / 65536 % 256)
  have hb := char_at_lt str hbytes (func / 256 % 256)
  have hc := char_at_lt str hbytes (func % 256)
  have p2 := pack2_lt _ _ ha hb
  have p3 := pack3_lt _ _ _ ha hb hc
  unfold eval_hash_func sampling_value
  simp only
  rw [if_neg (by omega)]
  generalize hF : func / 16777216 = F at hfam
  generalize char_at str (func / 65536 % 256) = x at *
  generalize char_at str (func / 256 % 256) = y at *
  generalize char_at str (func % 256) = z at *
  interval_cases F <;> simp +decide <;> omega

/-- C17. For a descriptor whose family byte `F = func >> 24` is at most `0x0f`,
with position bytes `a`, `b`, `c`, `eval_hash_func` returns, as a 32-bit value,
the plain sum of the selected terms for `F` in 1..7 (the length added when
bit 2 of `F` is set), the packed value numbered by `F & 7` for `F` in 9..15,
and 0 for `F = 0` and `F = 8`. -/
theorem C17_sampling_families (func : Nat) (str : List Nat) (len : Nat)
    (hfam : func / 16777216 ≤ 0xf) (hbytes : ∀ b ∈ str, b < 256) :
    eval_hash_func func str len =
      sampling_value (func / 16777216) (func / 65536 % 256) (func / 256 % 256) (func % 256)
        str len % 4294967296 :=
  eval_hash_sampling func str len hfam hbytes

/-- C17 on `March` with the descriptor `0x05020000`: the length plus `str[2]`. -/
theorem C17_sampling_families_witness :
    eval_hash_func 0x05020000 (cstr "March") 5 = 5 + 0x72 := by
  rw [C17_sampling_families 0x05020000 (cstr "March") 5 (by decide) (by decide)]
  decide

/-- C18. For a descriptor whose family byte `func >> 24` is greater than `0x0f`,
`eval_hash_func(func, str, len)` is `eval_fnv1a_func` of the string seeded with
`eval_fnv1a_func(0x811c9dc5, P, 4)`, `P` the four bytes of `func` in big-endian
order; equivalently it is FNV-1a-32 of `P` followed by the first `len` bytes
of `str`. -/
theorem C18_fnv_family (func : Nat) (str : List Nat) (len : Nat)
    (hfam : func / 16777216 > 0xf) (hlen : len ≤ str.length) :
    eval_hash_func func str len =
      eval_fnv1a_func (eval_fnv1a_func 0x811c9dc5 (big_endian 4 func) 4) str len ∧
    eval_hash_func func str len =
      fnv1a_fold 0x811c9dc5 (big_endian 4 func ++ str.take len) := by
  have hP : (big_endian 4 func).length = 4 := by rw [← be32_eq]; rfl
  have h1 : eval_hash_func func str len =
      eval_fnv1a_func (eval_fnv1a_func 0x811c9dc5 (big_endian 4 func) 4) str len := by
    unfold eval_hash_func
    simp only
    rw [if_pos hfam, be32_eq]
  refine ⟨h1, ?_⟩
  rw [h1, fnv1a_fold_append, eval_fnv1a_fold, range_map_char_at str len hlen, eval_fnv1a_fold,
    range_map_char_at (big_endian 4 func) 4 (by omega)]
  rw [List.take_of_length_le (by omega)]

/-- C18 on the descriptor `0x10000001` and the string `ab`. -/
theorem C18_fnv_family_witness :
    eval_hash_func 0x10000001 [0x61, 0x62] 2 =
      fnv1a_fold 0x811c9dc5 ([0x10, 0, 0, 1] ++ [0x61, 0x62]) :=
  (C18_fnv_family 0x10000001 [0x61, 0x62] 2 (by decide) (by decide)).2


set_option maxRecDepth 1000000 in
/-- C20 (fallback descriptors), evaluated on the two strings `a` and `a` repeated
129 times with the random pool `0f 00 00 01`.  The greedy search cannot
separate them (the lengths agree in their low 7 bits, and only position 0 lies
inside the shorter string) and falls back after four positions; the fallback
returns the window `0x0f000001`, whose most significant byte is `0x0f`, not
greater: `eval_hash_func` evaluates it in the sampling family `0xf`, here
to `(len << 24) | (str[0] << 16) | (str[0] << 8) | str[1]`. -/
theorem C20_fallback_family_0f :
    create_hash_func 2 [[0x61], List.replicate 129 0x61] [0x0f, 0, 0, 1] = some 0x0f000001 ∧
    0x0f000001 / 16777216 = 0x0f ∧
    eval_hash_func 0x0f000001 [0x61] 1 = 0x01616100 ∧
    eval_hash_func 0x0f000001 (List.replicate 129 0x61) 129 = 0x81616161 := by
  refine ⟨by rfl, by decide, by decide, by decide⟩

/-! ## The output of `unparse_msgpack` -/

set_option maxRecDepth 1000000 in
/-- C11 (narrowest length class), evaluated on one String slot of 256 bytes
(all `a`), with `res` holding 300 bytes `ee` from before: the call returns 0
with 259 bytes that begin `ee 01 00 61`.  The length is there, big-endian, but
the str 16 opcode `da` is not: the first byte of the slot is never written.
A Bin slot of the same size begins `c5 01 00 61`. -/
theorem C11_str16_opcode_missing (f : Nat → Nat) :
    unparse_view f (fun _ => 0x61)
        { slot_state [StringValue] [⟨256, 0⟩] with
          res := List.replicate 300 0xee, res_capacity := 300 } 1 4 =
      some (0, 259, [0xee, 0x01, 0x00, 0x61]) ∧
    unparse_view f (fun _ => 0x61)
        { slot_state [BinValue] [⟨256, 0⟩] with
          res := List.replicate 300 0xee, res_capacity := 300 } 1 4 =
      some (0, 259, [0xc5, 0x01, 0x00, 0x61]) := by
  exact ⟨rfl, rfl⟩

set_option maxRecDepth 1000000 in
/-- C12 (ext framing), evaluated on one Ext slot with `xlen = 9` whose bytes
are `01 0a 0b 0c 0d 0e 0f 10 11`: the call returns 0 with the 10 bytes
`d5 01 0a .. 11`, the opcode of fixext 2 in place of `d7`. -/
theorem C12_fixext8_opcode (f : Nat → Nat) :
    unparse_view f (fun a => [1, 10, 11, 12, 13, 14, 15, 16, 17].getD (a - 1000) 0)
        { slot_state [ExtValue] [⟨9, 9⟩] with b1 := 1009 } 1 10 =
      some (0, 10, [0xd5, 1, 10, 11, 12, 13, 14, 15, 16, 17]) := by
  rfl


theorem take_store_before (bs : List Nat) : ∀ (buf : List Nat) (k j : Nat), j ≤ k →
    (store buf k bs).take j = buf.take j := by
  induction bs with
  | nil => intro buf k j _; rfl
  | cons b bs ih =>
    intro buf k j h
    simp only [store]
    rw [ih (buf.set k b) (k + 1) j (by omega), List.set_take]
    apply List.set_eq_of_length_le
    simp
    omega

theorem load_bytes_length (mem : Nat → Nat) (a n : Nat) : (load_bytes mem a n).length = n := by
  simp [load_bytes]

theorem load_bytes_succ (mem : Nat → Nat) (a n : Nat) :
    load_bytes mem a (n + 1) = mem a :: load_bytes mem (a + 1) n := by
  unfold load_bytes
  rw [List.range_succ_eq_map]
  simp only [List.map_cons, Nat.add_zero, List.map_map, List.cons.injEq, true_and]
  apply List.map_congr_left
  intro k _
  simp only [Function.comp]
  congr 1
  omega

theorem header_refl (c : UnparseCfg) : Header c c 0 :=
  ⟨rfl, rfl, rfl, rfl, rfl, rfl, rfl, rfl, rfl⟩

theorem header_emit (c c1 : UnparseCfg) (h a : Nat) (bs : List Nat) (n : Nat)
    (hh : Header c c1 h) : Header c (c1.emit a bs n) (h + n) := by
  obtain ⟨h1, h2, h3, h4, h5, h6, h7, h8, h9⟩ := hh
  refine ⟨h1, h2, h3, h4, h5, ?_, h7, ?_, ?_⟩
  · simpa [UnparseCfg.emit, store_length] using h6
  · simp only [UnparseCfg.emit]
    rw [take_store_before bs _ _ _ (by omega), h8]
  · simp only [UnparseCfg.emit]
    omega

theorem header_bank (c c1 : UnparseCfg) (h x : Nat) (hh : Header c c1 h) :
    Header c { c1 with copy_from := x } h := by
  obtain ⟨h1, h2, h3, h4, h5, h6, h7, h8, h9⟩ := hh
  exact ⟨h1, h2, h3, h4, h5, h6, h7, h8, h9⟩

theorem take_split (l : List Nat) (a h : Nat) (hl : a + h ≤ l.length) :
    ∃ hdr, l.take (a + h) = l.take a ++ hdr ∧ hdr.length = h := by
  refine ⟨(l.take (a + h)).drop a, ?_, ?_⟩
  · conv_lhs => rw [← List.take_append_drop a (l.take (a + h))]
    rw [List.take_take, Nat.min_eq_left (by omega)]
  · simp
    omega

theorem copy_data_writes (mem : Nat → Nat) (c c1 : UnparseCfg) (value : Value) (h : Nat)
    (hr : Ready c) (hh : Header c c1 h) (h10 : h ≤ 10) :
    (value.xoff ≠ 4294967295 →
      Writes c 1 h (load_bytes mem (c1.copy_from - value.xoff) value.xlen)
        (copy_data mem c1 value)) ∧
    (value.xoff = 4294967295 → ∀ next, c.st.ov.get? (c.typeid + 1) = some next →
      Writes c 2 h (load_bytes mem next.uval value.xlen) (copy_data mem c1 value)) := by
  obtain ⟨r1, r2, r3⟩ := hr
  obtain ⟨h1, h2, h3, h4, h5, h6, h7, h8, h9⟩ := hh
  have hwf1 : c1.st.res.length = c1.st.res_capacity := by rw [h6, h7]; exact r1
  obtain ⟨e1, e2, e3, e4, e5, e6, e7, e8⟩ := ensure_res_spec c1.st c1.out (value.xlen + 10) hwf1
  have e7 := e7 (by omega)
  have e8 := e8 c1.out (by omega)
  obtain ⟨hdr, s1, s2⟩ := take_split c1.st.res c.out h (by omega)
  unfold copy_data
  simp only [e1]
  constructor
  · intro hx
    simp only [ne_eq, not_true_eq_false, ↓reduceIte, hx]
    refine ⟨_, hdr, rfl, ?_, ?_, ?_, ?_, ?_, ?_, s2, ?_, ?_⟩
    · simp only [UnparseCfg.emit]; rw [h1]
    · simp only [UnparseCfg.emit]; rw [e3, h2]
    · simp only [UnparseCfg.emit]; rw [e4, h3]
    · simp only [UnparseCfg.emit]; rw [e5, h4]
    · simp only [UnparseCfg.emit]; rw [e6, h5]
    · refine ⟨?_, ?_, ?_⟩
      · simp only [UnparseCfg.emit, store_length]; exact e2
      · simp only [UnparseCfg.emit]; omega
      · rfl
    · simp only [UnparseCfg.emit, load_bytes_length]; omega
    · simp only [UnparseCfg.emit, Nat.add_zero]
      have := take_store (load_bytes mem (c1.copy_from - value.xoff) value.xlen)
        (ensure_res c1.st c1.out (value.xlen + 10)).2.res c1.out
        (by rw [load_bytes_length]; omega)
      rw [load_bytes_length] at this
      rw [this, e8, h9, s1, h8]
  · intro hx next hnext
    simp only [ne_eq, not_true_eq_false, ↓reduceIte, hx]
    rw [e4, h3, h1, hnext]
    refine ⟨_, hdr, rfl, ?_, ?_, ?_, ?_, ?_, ?_, s2, ?_, ?_⟩
    · simp only [UnparseCfg.emit]
    · simp only [UnparseCfg.emit]; rw [e3, h2]
    · simp only [UnparseCfg.emit]; rw [e4, h3]
    · simp only [UnparseCfg.emit]; rw [e5, h4]
    · simp only [UnparseCfg.emit]; rw [e6, h5]
    · refine ⟨?_, ?_, ?_⟩
      · simp only [UnparseCfg.emit, store_length]; exact e2
      · simp only [UnparseCfg.emit]; omega
      · rfl
    · simp only [UnparseCfg.emit, load_bytes_length]; omega
    · simp only [UnparseCfg.emit, Nat.add_zero]
      have := take_store (load_bytes mem next.uval value.xlen)
        (ensure_res c1.st c1.out (value.xlen + 10)).2.res c1.out
        (by rw [load_bytes_length]; omega)
      rw [load_bytes_length] at this
      rw [this, e8, h9, s1, h8]

theorem check_buf_writes (c : UnparseCfg) (bs hdr payload : List Nat) (n : Nat)
    (hr : Ready c) (hbs : bs = hdr ++ payload) (hn : bs.length = n) (h10 : n ≤ 10) :
    Writes c 1 hdr.length payload (some (check_buf (c.emit 0 bs n))) := by
  obtain ⟨r1, r2, r3⟩ := hr
  have hl : (c.emit 0 bs n).st.res.length = (c.emit 0 bs n).st.res_capacity := by
    simpa [UnparseCfg.emit, store_length] using r1
  obtain ⟨e1, e2, e3, e4, e5, e6, e7, e8⟩ :=
    ensure_res_spec (c.emit 0 bs n).st (c.emit 0 bs n).out 10 hl
  have hcap : (c.emit 0 bs n).st.res_capacity = c.st.res_capacity := rfl
  have hout : (c.emit 0 bs n).out = c.out + n := rfl
  have hlen : hdr.length + payload.length = n := by rw [← hn, hbs]; simp
  unfold check_buf
  simp only [e1]
  refine ⟨_, hdr, rfl, rfl, ?_, ?_, ?_, ?_, ?_, rfl, ?_, ?_⟩
  · rw [e3]; rfl
  · rw [e4]; rfl
  · rw [e5]; rfl
  · rw [e6]; rfl
  · refine ⟨e2, ?_, ?_⟩
    · exact e7 (by rw [hout, hcap]; omega)
    · show c.copy_from = _
      rw [e5, r3]; rfl
  · show c.out + n = _
    omega
  · show (ensure_res (c.emit 0 bs n).st (c.emit 0 bs n).out 10).2.res.take (c.out + n) = _
    rw [e8 (c.out + n) (by simp [UnparseCfg.emit, store_length]; omega)]
    simp only [UnparseCfg.emit, Nat.add_zero]
    rw [← hn, take_store bs c.st.res c.out (by omega), hbs, List.append_assoc]


theorem check_buf_writes_hdr (c : UnparseCfg) (bs : List Nat) (n k : Nat)
    (hr : Ready c) (hn : bs.length = n) (h10 : n ≤ 10) (hk : n = k) :
    Writes c 1 k [] (some (check_buf (c.emit 0 bs n))) := by
  subst hk
  have := check_buf_writes c bs bs [] n hr (by simp) hn h10
  rw [hn] at this
  exact this

theorem be16_length (x : Nat) : (be16 x).length = 2 := rfl

theorem be32_length (x : Nat) : (be32 x).length = 4 := rfl

theorem be64_length (x : Nat) : (be64 x).length = 8 := rfl

theorem negative_writes (c : UnparseCfg) (value : Value) (hr : Ready c)
    (hneg : value.uval > 9223372036854775807) :
    Writes c 1 (header_len LongValue value) [] (some (unparse_negative c value.uval)) := by
  unfold unparse_negative
  have hl : header_len LongValue value =
      if value.uval ≥ 18446744073709551616 - 0x20 then 1
      else if value.uval ≥ 18446744073709551616 - 128 then 2
      else if value.uval ≥ 18446744073709551616 - 32768 then 3
      else if value.uval ≥ 18446744073709551616 - 2147483648 then 5
      else 9 := by
    simp [header_len, hneg]
  rw [hl]
  split_ifs
  · exact check_buf_writes_hdr c _ _ _ hr rfl (by omega) rfl
  · exact check_buf_writes_hdr c _ _ _ hr rfl (by omega) rfl
  · exact check_buf_writes_hdr c _ _ _ hr rfl (by omega) rfl
  · exact check_buf_writes_hdr c _ _ _ hr rfl (by omega) rfl
  · exact check_buf_writes_hdr c _ _ _ hr rfl (by omega) rfl

theorem unsigned_writes (c : UnparseCfg) (tag : Nat) (value : Value) (hr : Ready c)
    (htag : tag = LongValue ∨ tag = UlongValue)
    (hpos : tag = LongValue → ¬ value.uval > 9223372036854775807) :
    Writes c 1 (header_len tag value) [] (some (unparse_unsigned c value.uval)) := by
  unfold unparse_unsigned
  have hl : header_len tag value =
      if value.uval ≤ 0x7f then 1
      else if value.uval ≤ 255 then 2
      else if value.uval ≤ 65535 then 3
      else if value.uval ≤ 4294967295 then 5
      else 9 := by
    rcases htag with e | e
    · have := hpos e
      subst e
      simp [header_len, this]
    · subst e
      simp [header_len]
  rw [hl]
  split_ifs
  · exact check_buf_writes_hdr c _ _ _ hr rfl (by omega) rfl
  · exact check_buf_writes_hdr c _ _ _ hr rfl (by omega) rfl
  · exact check_buf_writes_hdr c _ _ _ hr rfl (by omega) rfl
  · exact check_buf_writes_hdr c _ _ _ hr rfl (by omega) rfl
  · exact check_buf_writes_hdr c _ _ _ hr rfl (by omega) rfl

theorem nested_writes (c : UnparseCfg) (tag : Nat) (value : Value) (fix op16 : Nat)
    (hr : Ready c) (htag : tag = ArrayValue ∨ tag = MapValue) :
    Writes c 1 (header_len tag value) [] (some (unparse_nested c value fix op16)) := by
  unfold unparse_nested
  have hl : header_len tag value =
      if value.xlen ≤ 15 then 1 else if value.xlen ≤ 65535 then 3 else 5 := by
    rcases htag with e | e <;> subst e <;> simp [header_len]
  rw [hl]
  split_ifs
  · exact check_buf_writes_hdr c _ _ _ hr rfl (by omega) rfl
  · exact check_buf_writes_hdr c _ _ _ hr rfl (by omega) rfl
  · exact check_buf_writes_hdr c _ _ _ hr rfl (by omega) rfl

theorem string_writes (mem : Nat → Nat) (c c0 : UnparseCfg) (tag : Nat) (value : Value)
    (hr : Ready c) (hh : Header c c0 0) (htag : tag = StringValue ∨ tag = CStringValue) :
    (value.xoff ≠ 4294967295 →
      Writes c 1 (header_len tag value) (load_bytes mem (c0.copy_from - value.xoff) value.xlen)
        (unparse_string mem c0 value)) ∧
    (value.xoff = 4294967295 → ∀ next, c.st.ov.get? (c.typeid + 1) = some next →
      Writes c 2 (header_len tag value) (load_bytes mem next.uval value.xlen)
        (unparse_string mem c0 value)) := by
  unfold unparse_string
  have hl : header_len tag value =
      if value.xlen ≤ 31 then 1 else if value.xlen ≤ 255 then 2
      else if value.xlen ≤ 65535 then 3 else 5 := by
    rcases htag with e | e <;> subst e <;> simp [header_len]
  rw [hl]
  split_ifs
  · exact copy_data_writes mem c _ value _ hr (header_emit c c0 0 _ _ _ hh) (by omega)
  · exact copy_data_writes mem c _ value _ hr (header_emit c c0 0 _ _ _ hh) (by omega)
  · exact copy_data_writes mem c _ value _ hr
      (header_emit c _ _ _ _ _ (header_emit c c0 0 1 [0xda] 0 hh)) (by omega)
  · exact copy_data_writes mem c _ value _ hr
      (header_emit c _ _ _ _ _ (header_emit c c0 0 1 [0xdb] 0 hh)) (by omega)

theorem bin_writes (mem : Nat → Nat) (c c0 : UnparseCfg) (tag : Nat) (value : Value)
    (hr : Ready c) (hh : Header c c0 0) (htag : tag = BinValue ∨ tag = CBinValue) :
    (value.xoff ≠ 4294967295 →
      Writes c 1 (header_len tag value) (load_bytes mem (c0.copy_from - value.xoff) value.xlen)
        (unparse_bin mem c0 value)) ∧
    (value.xoff = 4294967295 → ∀ next, c.st.ov.get? (c.typeid + 1) = some next →
      Writes c 2 (header_len tag value) (load_bytes mem next.uval value.xlen)
        (unparse_bin mem c0 value)) := by
  unfold unparse_bin
  have hl : header_len tag value =
      if value.xlen ≤ 255 then 2 else if value.xlen ≤ 65535 then 3 else 5 := by
    rcases htag with e | e <;> subst e <;> simp [header_len]
  rw [hl]
  split_ifs
  · exact copy_data_writes mem c _ value _ hr (header_emit c c0 0 _ _ _ hh) (by omega)
  · exact copy_data_writes mem c _ value _ hr (header_emit c c0 0 _ _ _ hh) (by omega)
  · exact copy_data_writes mem c _ value _ hr (header_emit c c0 0 _ _ _ hh) (by omega)


theorem ext_writes (mem : Nat → Nat) (c : UnparseCfg) (value : Value) (hr : Ready c) :
    (¬ takes_next ExtValue value →
      Writes c 1 (header_len ExtValue value)
        (load_bytes mem (c.copy_from - value.xoff) value.xlen) (unparse_ext mem c value)) ∧
    (takes_next ExtValue value → ∀ next, c.st.ov.get? (c.typeid + 1) = some next →
      Writes c 2 (header_len ExtValue value) (load_bytes mem next.uval value.xlen)
        (unparse_ext mem c value)) := by
  rw [takes_next_ext]
  unfold unparse_ext
  simp only []
  split
  · next h2 =>
    refine ⟨fun _ => ?_, fun h => absurd h2 h.2.1⟩
    have hl : header_len ExtValue value = [0xd4].length := by simp [header_len, h2]
    rw [hl, h2]
    exact check_buf_writes c _ [0xd4] _ 3 hr rfl (by simp [load_bytes_length]) (by omega)
  · next h2 =>
    refine ⟨fun _ => ?_, fun h => absurd h2 h.2.2.1⟩
    have hl : header_len ExtValue value = [0xd5].length := by simp [header_len, h2]
    rw [hl, h2]
    exact check_buf_writes c _ [0xd5] _ 4 hr (by rw [load_bytes_succ]; rfl)
      (by simp [load_bytes_length]) (by omega)
  · next h2 =>
    refine ⟨fun _ => ?_, fun h => absurd h2 h.2.2.2.1⟩
    have hl : header_len ExtValue value = [0xd6].length := by simp [header_len, h2]
    rw [hl, h2]
    exact check_buf_writes c _ [0xd6] _ 6 hr (by rw [load_bytes_succ]; rfl)
      (by simp [load_bytes_length]) (by omega)
  · next h2 =>
    refine ⟨fun _ => ?_, fun h => absurd h2 h.2.2.2.2⟩
    have hl : header_len ExtValue value = [0xd5].length := by simp [header_len, h2]
    rw [hl, h2]
    exact check_buf_writes c _ [0xd5] _ 10 hr (by rw [load_bytes_succ]; rfl)
      (by simp [load_bytes_length]) (by omega)
  · next h2 =>
    have hl : header_len ExtValue value = 0 + 1 := by simp [header_len, h2]
    rw [hl]
    have key := copy_data_writes mem c (c.emit 0 [0xd8] 1) value (0 + 1) hr
      (header_emit c c 0 _ _ _ (header_refl c)) (by omega)
    exact ⟨fun h => key.1 (fun hx => h ⟨hx, by omega⟩), fun h => key.2 h.1⟩
  · next n2 n3 n5 n9 n17 =>
    have hp : value.xlen ≠ 2 ∧ value.xlen ≠ 3 ∧ value.xlen ≠ 5 ∧ value.xlen ≠ 9 :=
      ⟨n2, n3, n5, n9⟩
    have hl : header_len ExtValue value =
        if (value.xlen + 4294967295) % 4294967296 ≤ 255 then 2
        else if (value.xlen + 4294967295) % 4294967296 ≤ 65535 then 3 else 5 := by
      have hnot : ¬ (value.xlen = 2 ∨ value.xlen = 3 ∨ value.xlen = 5 ∨ value.xlen = 9 ∨
          value.xlen = 17) := by
        rintro (h | h | h | h | h)
        · exact n2 h
        · exact n3 h
        · exact n5 h
        · exact n9 h
        · exact n17 h
      simp [header_len, hnot]
    rw [hl]
    split_ifs
    · have key := copy_data_writes mem c _ value _ hr
        (header_emit c c 0 0 [0xc7, (value.xlen + 4294967295) % 4294967296 % 256] 2
          (header_refl c)) (by omega)
      exact ⟨fun h => key.1 (fun hx => h ⟨hx, hp⟩), fun h => key.2 h.1⟩
    · have key := copy_data_writes mem c _ value _ hr
        (header_emit c c 0 0 (0xc8 :: be16 ((value.xlen + 4294967295) % 4294967296)) 3
          (header_refl c)) (by omega)
      exact ⟨fun h => key.1 (fun hx => h ⟨hx, hp⟩), fun h => key.2 h.1⟩
    · have key := copy_data_writes mem c _ value _ hr
        (header_emit c c 0 0 (0xc9 :: be32 ((value.xlen + 4294967295) % 4294967296)) 5
          (header_refl c)) (by omega)
      exact ⟨fun h => key.1 (fun hx => h ⟨hx, hp⟩), fun h => key.2 h.1⟩

theorem unparse_switch_writes (f : Nat → Nat) (mem : Nat → Nat) (c : UnparseCfg)
    (tag : Nat) (value : Value) (hr : Ready c) (hk : known_tag tag) :
    (¬ takes_next tag value →
      Writes c 1 (header_len tag value) (slot_payload mem c.st.b1 c.st.b2 tag value)
        (unparse_switch f mem c tag value)) ∧
    (takes_next tag value → ∀ next, c.st.ov.get? (c.typeid + 1) = some next →
      Writes c 2 (header_len tag value) (load_bytes mem next.uval value.xlen)
        (unparse_switch f mem c tag value)) := by
  have hbank : c.copy_from = c.st.b1 := hr.2.2
  have hcases : tag = 1 ∨ tag = 2 ∨ tag = 3 ∨ tag = 4 ∨ tag = 5 ∨ tag = 6 ∨ tag = 7 ∨
      tag = 8 ∨ tag = 9 ∨ tag = 10 ∨ tag = 11 ∨ tag = 12 ∨ tag = 18 ∨ tag = 19 ∨ tag = 20 := by
    unfold known_tag at hk; omega
  have hno : ∀ t : Nat, t ≠ 8 → t ≠ 9 → t ≠ 10 → t ≠ 18 → t ≠ 19 → t ≠ 20 →
      ¬ takes_next t value := by
    intro t h8 h9 h10 h18 h19 h20 h
    obtain ⟨-, h | h | h | h | h | h⟩ := h
    · exact h8 h
    · exact h18 h
    · exact h9 h
    · exact h19 h
    · exact h20 h
    · exact h10 h.1
  have hyes : ∀ t : Nat, (t = 8 ∨ t = 9 ∨ t = 18 ∨ t = 19 ∨ t = 20) →
      (takes_next t value ↔ value.xoff = 4294967295) := by
    intro t ht
    unfold takes_next
    constructor
    · exact fun h => h.1
    · intro h
      refine ⟨h, ?_⟩
      rcases ht with e | e | e | e | e <;> subst e <;> simp
  rcases hcases with e | e | e | e | e | e | e | e | e | e | e | e | e | e | e <;> subst e
  · exact ⟨fun _ => check_buf_writes_hdr c _ _ _ hr rfl (by omega) rfl,
      fun h => absurd h (hno _ (by decide) (by decide) (by decide) (by decide) (by decide) (by decide))⟩
  · exact ⟨fun _ => check_buf_writes_hdr c _ _ _ hr rfl (by omega) rfl,
      fun h => absurd h (hno _ (by decide) (by decide) (by decide) (by decide) (by decide) (by decide))⟩
  · exact ⟨fun _ => check_buf_writes_hdr c _ _ _ hr rfl (by omega) rfl,
      fun h => absurd h (hno _ (by decide) (by decide) (by decide) (by decide) (by decide) (by decide))⟩
  · refine ⟨fun _ => ?_,
      fun h => absurd h (hno _ (by decide) (by decide) (by decide) (by decide) (by decide) (by decide))⟩
    show Writes c 1 _ [] (if value.uval > 9223372036854775807 then _ else _)
    split_ifs with hneg
    · exact negative_writes c value hr hneg
    · exact unsigned_writes c LongValue value hr (Or.inl rfl) (fun _ => hneg)
  · exact ⟨fun _ => unsigned_writes c UlongValue value hr (Or.inr rfl)
        (fun h => absurd h (by decide)),
      fun h => absurd h (hno _ (by decide) (by decide) (by decide) (by decide) (by decide) (by decide))⟩
  · exact ⟨fun _ => check_buf_writes_hdr c _ _ _ hr rfl (by omega) rfl,
      fun h => absurd h (hno _ (by decide) (by decide) (by decide) (by decide) (by decide) (by decide))⟩
  · exact ⟨fun _ => check_buf_writes_hdr c _ _ _ hr rfl (by omega) rfl,
      fun h => absurd h (hno _ (by decide) (by decide) (by decide) (by decide) (by decide) (by decide))⟩
  · rw [hyes 8 (by decide)]
    have key := string_writes mem c c StringValue value hr (header_refl c) (Or.inl rfl)
    rw [hbank] at key
    exact key
  · rw [hyes 9 (by decide)]
    have key := bin_writes mem c c BinValue value hr (header_refl c) (Or.inl rfl)
    rw [hbank] at key
    exact key
  · have key := ext_writes mem c value hr
    rw [hbank] at key
    exact key
  · exact ⟨fun _ => nested_writes c ArrayValue value _ _ hr (Or.inl rfl),
      fun h => absurd h (hno _ (by decide) (by decide) (by decide) (by decide) (by decide) (by decide))⟩
  · exact ⟨fun _ => nested_writes c MapValue value _ _ hr (Or.inr rfl),
      fun h => absurd h (hno _ (by decide) (by decide) (by decide) (by decide) (by decide) (by decide))⟩
  · rw [hyes 18 (by decide)]
    exact string_writes mem c { c with copy_from := c.st.b2 } CStringValue value hr
      (header_bank c c 0 _ (header_refl c)) (Or.inr rfl)
  · rw [hyes 19 (by decide)]
    exact bin_writes mem c { c with copy_from := c.st.b2 } CBinValue value hr
      (header_bank c c 0 _ (header_refl c)) (Or.inr rfl)
  · rw [hyes 20 (by decide)]
    have hl : header_len 20 value = 0 := by simp [header_len]
    rw [hl]
    exact copy_data_writes mem c { c with copy_from := c.st.b2 } value 0 hr
      (header_bank c c 0 _ (header_refl c)) (by omega)


theorem walk_bytes_congr (hdr hdr2 : Nat → List Nat) (mem : Nat → Nat) (b1 b2 : Nat)
    (ot : List Nat) (ov : List Value) (nitems : Nat) :
    ∀ (fuel i : Nat), (∀ j, i ≤ j → hdr j = hdr2 j) →
    walk_bytes hdr mem b1 b2 ot ov nitems fuel i =
      walk_bytes hdr2 mem b1 b2 ot ov nitems fuel i := by
  intro fuel
  induction fuel with
  | zero => intro i _; rfl
  | succ k ih =>
    intro i h
    unfold walk_bytes
    rw [ih (i + 1) (fun j hj => h j (by omega)), ih (i + 2) (fun j hj => h j (by omega)),
      h i (Nat.le_refl i)]

theorem get?_getD {α : Type} (l : List α) (i : Nat) (x d : α) (h : l.get? i = some x) :
    l.getD i d = x := by
  rw [List.getD_eq_getElem?_getD, ← List.get?_eq_getElem?, h]
  rfl

theorem walk_bytes_end (hdr : Nat → List Nat) (mem : Nat → Nat) (b1 b2 : Nat)
    (ot : List Nat) (ov : List Value) (nitems k : Nat) :
    walk_bytes hdr mem b1 b2 ot ov nitems (k + 1) nitems = some [] := by
  unfold walk_bytes
  simp

theorem walk_bytes_step (hdr : Nat → List Nat) (mem : Nat → Nat) (b1 b2 : Nat)
    (ot : List Nat) (ov : List Value) (nitems k i tag : Nat) (value : Value)
    (hi : i < nitems) (e1 : ot.get? i = some tag) (e2 : ov.get? i = some value)
    (hk : known_tag tag) (hn : ¬ takes_next tag value) :
    walk_bytes hdr mem b1 b2 ot ov nitems (k + 1) i =
      (walk_bytes hdr mem b1 b2 ot ov nitems k (i + 1)).map
        (fun rest => hdr i ++ slot_payload mem b1 b2 tag value ++ rest) := by
  rw [walk_bytes]
  rw [if_neg (by omega), if_neg (by omega)]
  simp only [e1, e2]
  rw [if_neg (not_not.mpr hk), if_neg hn]

theorem walk_bytes_escape (hdr : Nat → List Nat) (mem : Nat → Nat) (b1 b2 : Nat)
    (ot : List Nat) (ov : List Value) (nitems k i tag : Nat) (value next : Value)
    (hi : i + 1 < nitems) (e1 : ot.get? i = some tag) (e2 : ov.get? i = some value)
    (e3 : ov.get? (i + 1) = some next)
    (hk : known_tag tag) (hn : takes_next tag value) :
    walk_bytes hdr mem b1 b2 ot ov nitems (k + 1) i =
      (walk_bytes hdr mem b1 b2 ot ov nitems k (i + 2)).map
        (fun rest => hdr i ++ load_bytes mem next.uval value.xlen ++ rest) := by
  rw [walk_bytes]
  rw [if_neg (by omega), if_neg (by omega)]
  simp only [e1, e2, e3]
  rw [if_neg (not_not.mpr hk), if_pos hn, if_pos hi]

theorem unparse_run_bytes (f : Nat → Nat) (mem : Nat → Nat) (nitems : Nat) :
    ∀ (fuel : Nat) (c : UnparseCfg), Ready c →
    tags_walk c.st.ot c.st.ov nitems fuel c.typeid = some false →
    ∃ c2 hdr bytes, unparse_run f mem nitems fuel c = some (.done c2) ∧
      (∀ i, (hdr i).length = header_len (c.st.ot.getD i 0) (c.st.ov.getD i ⟨0, 0⟩)) ∧
      walk_bytes hdr mem c.st.b1 c.st.b2 c.st.ot c.st.ov nitems fuel c.typeid = some bytes ∧
      c2.st.res.take c2.out = c.st.res.take c.out ++ bytes := by
  intro fuel
  induction fuel with
  | zero => intro c _ h; simp [tags_walk] at h
  | succ k ih =>
    intro c hr h
    unfold tags_walk at h
    unfold unparse_run unparse_step
    by_cases h1 : c.typeid = nitems
    · simp only [h1, ↓reduceIte]
      refine ⟨c, fun i => List.replicate
        (header_len (c.st.ot.getD i 0) (c.st.ov.getD i ⟨0, 0⟩)) 0, [], rfl, ?_,
        walk_bytes_end _ _ _ _ _ _ _ _, by simp⟩
      intro i
      simp
    · rw [if_neg h1] at h
      simp only [h1, ↓reduceIte]
      by_cases h2 : c.typeid > nitems
      · rw [if_pos h2] at h; simp at h
      · rw [if_neg h2] at h
        cases e1 : c.st.ot.get? c.typeid with
        | none => rw [e1] at h; exact absurd h (by simp)
        | some tag =>
          cases e2 : c.st.ov.get? c.typeid with
          | none => rw [e1, e2] at h; exact absurd h (by simp)
          | some value =>
            simp only [e1, e2] at h ⊢
            by_cases h3 : known_tag tag
            · rw [if_neg (not_not.mpr h3)] at h
              by_cases h4 : takes_next tag value
              · rw [if_pos h4] at h
                by_cases h5 : c.typeid + 1 < nitems ∧ c.typeid + 1 < c.st.ov.length
                · rw [if_pos h5] at h
                  have hnext : c.st.ov.get? (c.typeid + 1) =
                      some (c.st.ov.get ⟨c.typeid + 1, h5.2⟩) := List.get?_eq_get h5.2
                  obtain ⟨c3, hd, g1, g2, g3, g4, g5, g6, g7, g8, g9, g10⟩ :=
                    (unparse_switch_writes f mem c tag value hr h3).2 h4 _ hnext
                  obtain ⟨c2, hdr, bytes, i1, i2, i3, i4⟩ :=
                    ih c3 g7 (by rw [g3, g4, g2]; exact h)
                  rw [g3, g4, g5, g6, g2] at i3
                  rw [g3, g4] at i2
                  rw [g1]
                  simp only
                  refine ⟨c2, fun i => if i = c.typeid then hd else hdr i,
                    hd ++ load_bytes mem (c.st.ov.get ⟨c.typeid + 1, h5.2⟩).uval value.xlen
                      ++ bytes, i1, ?_, ?_, ?_⟩
                  · intro i
                    by_cases hi : i = c.typeid
                    · simp only [hi, ↓reduceIte]
                      rw [get?_getD _ _ _ _ e1, get?_getD _ _ _ _ e2]
                      exact g8
                    · simp only [hi, ↓reduceIte]
                      exact i2 i
                  · rw [walk_bytes_escape _ mem _ _ _ _ _ k _ tag value _ h5.1 e1 e2 hnext h3 h4,
                      walk_bytes_congr _ hdr mem _ _ _ _ _ k (c.typeid + 2)
                      (fun j hj => by
                        have : j ≠ c.typeid := by omega
                        simp [this]), i3]
                    simp only [↓reduceIte, Option.map_some']
                  · rw [i4, g10]
                    simp only [List.append_assoc]
                · rw [if_neg h5] at h; simp at h
              · rw [if_neg h4] at h
                obtain ⟨c3, hd, g1, g2, g3, g4, g5, g6, g7, g8, g9, g10⟩ :=
                  (unparse_switch_writes f mem c tag value hr h3).1 h4
                obtain ⟨c2, hdr, bytes, i1, i2, i3, i4⟩ :=
                  ih c3 g7 (by rw [g3, g4, g2]; exact h)
                rw [g3, g4, g5, g6, g2] at i3
                rw [g3, g4] at i2
                rw [g1]
                simp only
                refine ⟨c2, fun i => if i = c.typeid then hd else hdr i,
                  hd ++ slot_payload mem c.st.b1 c.st.b2 tag value ++ bytes, i1, ?_, ?_, ?_⟩
                · intro i
                  by_cases hi : i = c.typeid
                  · simp only [hi, ↓reduceIte]
                    rw [get?_getD _ _ _ _ e1, get?_getD _ _ _ _ e2]
                    exact g8
                  · simp only [hi, ↓reduceIte]
                    exact i2 i
                · rw [walk_bytes_step _ mem _ _ _ _ _ k _ tag value (by omega) e1 e2 h3 h4,
                    walk_bytes_congr _ hdr mem _ _ _ _ _ k (c.typeid + 1)
                    (fun j hj => by
                      have : j ≠ c.typeid := by omega
                      simp [this]), i3]
                  simp only [↓reduceIte, Option.map_some']
                · rw [i4, g10]
                  simp only [List.append_assoc]
            · rw [if_pos h3] at h
              simp at h


theorem unparse_msgpack_bytes (f : Nat → Nat) (mem : Nat → Nat) (st : State) (nitems : Nat)
    (hres : st.res.length = st.res_capacity)
    (hw : tags_walk st.ot st.ov nitems (st.ot.length + 1) 0 = some false) :
    ∃ (st2 : State) (hdr : Nat → List Nat), unparse_msgpack f mem st nitems = some (0, st2) ∧
      (∀ i, (hdr i).length = header_len (st.ot.getD i 0) (st.ov.getD i ⟨0, 0⟩)) ∧
      walk_bytes hdr mem st.b1 st.b2 st.ot st.ov nitems (st.ot.length + 1) 0 =
        some (st2.res.take st2.res_size) := by
  obtain ⟨e1, e2, e3, e4, e5, e6, e7, -⟩ := ensure_res_spec st 0 10 hres
  obtain ⟨c2, hdr, bytes, i1, i2, i3, i4⟩ := unparse_run_bytes f mem nitems (st.ot.length + 1)
    { st := (ensure_res st 0 10).2, typeid := 0, out := 0, copy_from := st.b1 }
    ⟨e2, by simpa using e7 (Nat.zero_le _), e5.symm⟩
    (by simp only [e3, e4]; exact hw)
  simp only [e3, e4, e5, e6] at i2 i3
  simp only [List.take_zero, List.nil_append] at i4
  refine ⟨{ c2.st with res_size := c2.out }, hdr, ?_, i2, ?_⟩
  · unfold unparse_msgpack unparse_exit
    simp only [e1, ne_eq, not_true_eq_false, ↓reduceIte, i1]
  · rw [i3]
    simp only [i4]

theorem tags_walk_clean (ot : List Nat) (ov : List Value) (nitems : Nat)
    (hn1 : nitems ≤ ot.length) (hn2 : nitems ≤ ov.length)
    (hclean : ∀ i, i < nitems →
      known_tag (ot.getD i 0) ∧ ¬ takes_next (ot.getD i 0) (ov.getD i ⟨0, 0⟩)) :
    ∀ (fuel i : Nat), i ≤ nitems → nitems - i < fuel →
    tags_walk ot ov nitems fuel i = some false := by
  intro fuel
  induction fuel with
  | zero => intro i _ h; omega
  | succ k ih =>
    intro i hi hf
    unfold tags_walk
    by_cases h1 : i = nitems
    · rw [if_pos h1]
    · rw [if_neg h1, if_neg (by omega)]
      have h1 : i < ot.length := by omega
      have h2 : i < ov.length := by omega
      have e1 : ot.get? i = some (ot.getD i 0) := by
        rw [List.get?_eq_getElem?, List.getD_eq_getElem?_getD, List.getElem?_eq_getElem h1]
        rfl
      have e2 : ov.get? i = some (ov.getD i ⟨0, 0⟩) := by
        rw [List.get?_eq_getElem?, List.getD_eq_getElem?_getD, List.getElem?_eq_getElem h2]
        rfl
      obtain ⟨c1, c2⟩ := hclean i (by omega)
      simp only [e1, e2]
      rw [if_neg (not_not.mpr c1), if_neg c2]
      exact ih (i + 1) (by omega) (by omega)

theorem walk_bytes_clean (hdr : Nat → List Nat) (mem : Nat → Nat) (b1 b2 : Nat)
    (ot : List Nat) (ov : List Value) (nitems : Nat)
    (hn1 : nitems ≤ ot.length) (hn2 : nitems ≤ ov.length)
    (hclean : ∀ i, i < nitems →
      known_tag (ot.getD i 0) ∧ ¬ takes_next (ot.getD i 0) (ov.getD i ⟨0, 0⟩)) :
    ∀ (fuel i : Nat), i ≤ nitems → nitems - i < fuel →
    walk_bytes hdr mem b1 b2 ot ov nitems fuel i =
      some ((List.range' i (nitems - i)).map (fun j =>
        hdr j ++ slot_payload mem b1 b2 (ot.getD j 0) (ov.getD j ⟨0, 0⟩))).flatten := by
  intro fuel
  induction fuel with
  | zero => intro i _ h; omega
  | succ k ih =>
    intro i hi hf
    by_cases h1 : i = nitems
    · subst h1
      rw [walk_bytes_end]
      simp
    · have h1 : i < ot.length := by omega
      have h2 : i < ov.length := by omega
      have e1 : ot.get? i = some (ot.getD i 0) := by
        rw [List.get?_eq_getElem?, List.getD_eq_getElem?_getD, List.getElem?_eq_getElem h1]
        rfl
      have e2 : ov.get? i = some (ov.getD i ⟨0, 0⟩) := by
        rw [List.get?_eq_getElem?, List.getD_eq_getElem?_getD, List.getElem?_eq_getElem h2]
        rfl
      obtain ⟨c1, c2⟩ := hclean i (by omega)
      rw [walk_bytes_step hdr mem b1 b2 ot ov nitems k i _ _ (by omega) e1 e2 c1 c2,
        ih (i + 1) (by omega) (by omega)]
      have hr : nitems - i = (nitems - (i + 1)) + 1 := by omega
      rw [hr, List.range'_succ]
      simp only [Option.map_some', List.map_cons, List.flatten_cons, List.append_assoc]

/-- C13 (bank selection is per slot). Let the first `nitems` slots have known
type ids and let none of them take its bytes through the `xoff = 0xFFFFFFFF`
escape.  Then `unparse_msgpack` returns 0 and its output is the concatenation,
slot by slot, of a header of `header_len` bytes followed by the payload of
the slot: the `xlen` bytes at `b1 - xoff` for String, Bin and Ext, the `xlen`
bytes at `b2 - xoff` for CString, CBin and CopyCommand, whatever slots
precede; the header of a CopyCommand slot is empty. -/
theorem C13_bank_per_slot (f : Nat → Nat) (mem : Nat → Nat) (st : State) (nitems : Nat)
    (hres : st.res.length = st.res_capacity)
    (hn1 : nitems ≤ st.ot.length) (hn2 : nitems ≤ st.ov.length)
    (hclean : ∀ i, i < nitems →
      known_tag (st.ot.getD i 0) ∧ ¬ takes_next (st.ot.getD i 0) (st.ov.getD i ⟨0, 0⟩)) :
    ∃ (st2 : State) (hdr : Nat → List Nat), unparse_msgpack f mem st nitems = some (0, st2) ∧
      (∀ i, (hdr i).length = header_len (st.ot.getD i 0) (st.ov.getD i ⟨0, 0⟩)) ∧
      (∀ value, header_len CopyCommand value = 0) ∧
      st2.res.take st2.res_size =
        ((List.range nitems).map (fun i =>
          hdr i ++ slot_payload mem st.b1 st.b2 (st.ot.getD i 0) (st.ov.getD i ⟨0, 0⟩))).flatten := by
  have hw := tags_walk_clean st.ot st.ov nitems hn1 hn2 hclean (st.ot.length + 1) 0
    (Nat.zero_le _) (by omega)
  obtain ⟨st2, hdr, h1, h2, h3⟩ := unparse_msgpack_bytes f mem st nitems hres hw
  rw [walk_bytes_clean hdr mem st.b1 st.b2 st.ot st.ov nitems hn1 hn2 hclean
    (st.ot.length + 1) 0 (Nat.zero_le _) (by omega)] at h3
  simp only [Option.some.injEq, Nat.sub_zero] at h3
  refine ⟨st2, hdr, h1, h2, fun value => by simp [header_len], ?_⟩
  rw [← h3, List.range_eq_range']

/-- C14 (large-offset escape). Let the walk over the first `nitems` slots be
defined and meet known type ids only (every slot on the copy path with
`xoff = 0xFFFFFFFF` is followed by another slot among the first `nitems`).
Then `unparse_msgpack` returns 0 and its output is the one `walk_bytes`
describes: such a slot contributes, after its header, the `xlen` bytes at the
pointer `p` of the next slot, the type id of that next slot is not looked at,
and the walk goes on with the slot two positions later. -/
theorem C14_large_offset_escape (f : Nat → Nat) (mem : Nat → Nat) (st : State)
    (nitems : Nat) (hres : st.res.length = st.res_capacity)
    (hw : tags_walk st.ot st.ov nitems (st.ot.length + 1) 0 = some false) :
    ∃ (st2 : State) (hdr : Nat → List Nat), unparse_msgpack f mem st nitems = some (0, st2) ∧
      (∀ i, (hdr i).length = header_len (st.ot.getD i 0) (st.ov.getD i ⟨0, 0⟩)) ∧
      walk_bytes hdr mem st.b1 st.b2 st.ot st.ov nitems (st.ot.length + 1) 0 =
        some (st2.res.take st2.res_size) :=
  unparse_msgpack_bytes f mem st nitems hres hw

set_option maxRecDepth 100000 in
/-- C13 on the slots CString, String, CopyCommand, Long with bank 1 ending at
1002 and bank 2 at 2002: the output is `a2 78 79`, `a2 61 62`, `79`, `05`. -/
theorem C13_bank_per_slot_witness :
    unparse_view id two_banks
        { slot_state [CStringValue, StringValue, CopyCommand, LongValue]
            [⟨2, 2⟩, ⟨2, 2⟩, ⟨1, 1⟩, ⟨5, 0⟩] with b1 := 1002, b2 := 2002 } 4 8 =
      some (0, 8, [0xa2, 0x78, 0x79, 0xa2, 0x61, 0x62, 0x79, 0x05]) ∧
    ∃ (st2 : State) (hdr : Nat → List Nat),
      unparse_msgpack id two_banks
        { slot_state [CStringValue, StringValue, CopyCommand, LongValue]
            [⟨2, 2⟩, ⟨2, 2⟩, ⟨1, 1⟩, ⟨5, 0⟩] with b1 := 1002, b2 := 2002 } 4 = some (0, st2) ∧
      st2.res.take st2.res_size =
        ((List.range 4).map (fun i =>
          hdr i ++ slot_payload two_banks 1002 2002
            ([CStringValue, StringValue, CopyCommand, LongValue].getD i 0)
            ([(⟨2, 2⟩ : Value), ⟨2, 2⟩, ⟨1, 1⟩, ⟨5, 0⟩].getD i ⟨0, 0⟩))).flatten := by
  refine ⟨rfl, ?_⟩
  obtain ⟨st2, hdr, h1, _, _, h4⟩ := C13_bank_per_slot id two_banks
    { slot_state [CStringValue, StringValue, CopyCommand, LongValue]
        [⟨2, 2⟩, ⟨2, 2⟩, ⟨1, 1⟩, ⟨5, 0⟩] with b1 := 1002, b2 := 2002 } 4
    rfl (by decide) (by decide) (by decide)
  exact ⟨st2, hdr, h1, h4⟩

set_option maxRecDepth 100000 in
/-- C14 on a String slot of two bytes with `xoff = 0xFFFFFFFF`, a slot of
unknown type id 0 that holds the pointer 2000, and a Long: the output is
`a2 78 79`, `05`. -/
theorem C14_large_offset_escape_witness :
    tags_walk [StringValue, 0, LongValue] [⟨2, 4294967295⟩, ⟨2000, 0⟩, ⟨5, 0⟩] 3 4 0 =
      some false ∧
    unparse_view id two_banks
        (slot_state [StringValue, 0, LongValue] [⟨2, 4294967295⟩, ⟨2000, 0⟩, ⟨5, 0⟩]) 3 4 =
      some (0, 4, [0xa2, 0x78, 0x79, 0x05]) ∧
    ∃ (st2 : State) (hdr : Nat → List Nat),
      unparse_msgpack id two_banks
        (slot_state [StringValue, 0, LongValue] [⟨2, 4294967295⟩, ⟨2000, 0⟩, ⟨5, 0⟩]) 3 =
        some (0, st2) ∧
      walk_bytes hdr two_banks 0 0 [StringValue, 0, LongValue]
        [⟨2, 4294967295⟩, ⟨2000, 0⟩, ⟨5, 0⟩] 3 4 0 = some (st2.res.take st2.res_size) := by
  refine ⟨by decide, rfl, ?_⟩
  obtain ⟨st2, hdr, h1, _, h3⟩ := C14_large_offset_escape id two_banks
    (slot_state [StringValue, 0, LongValue] [⟨2, 4294967295⟩, ⟨2000, 0⟩, ⟨5, 0⟩]) 3
    rfl (by decide)
  exact ⟨st2, hdr, h1, h3⟩

/-! ## The collision check and the FNV fallback -/

theorem geo5_add (a : Nat) : ∀ b : Nat, geo5 (a + b) = 5 ^ b * geo5 a + geo5 b := by
  intro b
  induction b with
  | zero => simp [geo5]
  | succ k ih =>
    rw [← Nat.add_assoc]
    simp only [geo5]
    rw [ih]
    ring

theorem four_geo5 (m : Nat) : 4 * geo5 m + 1 = 5 ^ m := by
  induction m with
  | zero => simp [geo5]
  | succ k ih =>
    simp only [geo5]
    rw [pow_succ, ← ih]
    ring

theorem geo5_parity (m : Nat) : geo5 m % 2 = m % 2 := by
  induction m with
  | zero => rfl
  | succ k ih =>
    simp only [geo5]
    omega

theorem geo5_double (e : Nat) : geo5 (2 * e) = geo5 e * (2 * (2 * geo5 e + 1)) := by
  rw [two_mul, geo5_add, ← four_geo5 e]
  ring

theorem geo5_dvd : ∀ (K d : Nat), 2 ^ K ∣ geo5 d → 2 ^ K ∣ d := by
  intro K
  induction K with
  | zero => intro d _; simp
  | succ k ih =>
    intro d h
    have heven : geo5 d % 2 = 0 := by
      have : 2 ∣ geo5 d := Dvd.dvd.trans (dvd_pow_self 2 (Nat.succ_ne_zero k)) h
      omega
    rw [geo5_parity] at heven
    obtain ⟨e, he⟩ : ∃ e, d = 2 * e := ⟨d / 2, by omega⟩
    subst he
    rw [geo5_double] at h
    have h2 : 2 ^ k ∣ geo5 e * (2 * geo5 e + 1) := by
      have : 2 ^ (k + 1) ∣ 2 * (geo5 e * (2 * geo5 e + 1)) := by
        have e2 : geo5 e * (2 * (2 * geo5 e + 1)) = 2 * (geo5 e * (2 * geo5 e + 1)) := by ring
        rw [← e2]; exact h
      rw [pow_succ, Nat.mul_comm] at this
      exact Nat.dvd_of_mul_dvd_mul_left (by omega) this
    have hcop : Nat.Coprime (2 ^ k) (2 * geo5 e + 1) := by
      apply Nat.Coprime.pow_left
      rw [Nat.coprime_comm]
      simp
    have h3 : 2 ^ k ∣ geo5 e := Nat.Coprime.dvd_of_dvd_mul_right hcop h2
    have h4 := ih e h3
    rw [pow_succ, Nat.mul_comm]
    exact Nat.mul_dvd_mul_left 2 h4

/-- The orbit of `x` under `x ↦ (5 x + 1) mod bc`. -/
theorem orbit_closed (bc x : Nat) (m : Nat) :
    (fun y => (5 * y + 1) % bc)^[m] (x % bc) = (5 ^ m * x + geo5 m) % bc := by
  induction m with
  | zero => simp [geo5]
  | succ k ih =>
    rw [Function.iterate_succ_apply', ih]
    simp only [geo5]
    rw [pow_succ]
    have : 5 ^ k * 5 * x + (5 * geo5 k + 1) = 5 * (5 ^ k * x + geo5 k) + 1 := by ring
    rw [this]
    conv_rhs => rw [Nat.add_mod, Nat.mul_mod]
    conv_lhs => rw [Nat.add_mod, Nat.mul_mod, Nat.mod_mod]

theorem orbit_injective (K x a b : Nat) (hab : a < b) (hb : b - a < 2 ^ K) :
    (5 ^ a * x + geo5 a) % 2 ^ K ≠ (5 ^ b * x + geo5 b) % 2 ^ K := by
  intro h
  obtain ⟨d, hd⟩ : ∃ d, b = d + a := ⟨b - a, by omega⟩
  subst hd
  have hle : 5 ^ a * x + geo5 a ≤ 5 ^ (d + a) * x + geo5 (d + a) := by
    rw [geo5_add, pow_add]
    have : 5 ^ a * x ≤ 5 ^ d * 5 ^ a * x := by
      have h1 : 1 ≤ 5 ^ d := Nat.one_le_pow _ _ (by omega)
      calc 5 ^ a * x = 1 * (5 ^ a * x) := by ring
        _ ≤ 5 ^ d * (5 ^ a * x) := Nat.mul_le_mul_right _ h1
        _ = 5 ^ d * 5 ^ a * x := by ring
    omega
  have hdvd : 2 ^ K ∣ (5 ^ (d + a) * x + geo5 (d + a)) - (5 ^ a * x + geo5 a) :=
    (Nat.modEq_iff_dvd' hle).mp h
  have hdiff : (5 ^ (d + a) * x + geo5 (d + a)) - (5 ^ a * x + geo5 a) =
      5 ^ a * (geo5 d * (4 * x + 1)) := by
    rw [geo5_add, pow_add, ← four_geo5 d]
    have : (4 * geo5 d + 1) * 5 ^ a * x + (5 ^ a * geo5 d + geo5 a) =
        5 ^ a * (geo5 d * (4 * x + 1)) + (5 ^ a * x + geo5 a) := by ring
    rw [this, Nat.add_sub_cancel]
  rw [hdiff] at hdvd
  have hc1 : Nat.Coprime (2 ^ K) (5 ^ a) := by
    apply Nat.Coprime.pow
    decide
  have h1 : 2 ^ K ∣ geo5 d * (4 * x + 1) := Nat.Coprime.dvd_of_dvd_mul_left hc1 hdvd
  have hc2 : Nat.Coprime (2 ^ K) (4 * x + 1) := by
    apply Nat.Coprime.pow_left
    rw [Nat.coprime_comm]
    have : 4 * x + 1 = 2 * (2 * x) + 1 := by ring
    rw [this]
    simp
  have h2 : 2 ^ K ∣ geo5 d := Nat.Coprime.dvd_of_dvd_mul_right hc2 h1
  have h3 := geo5_dvd K d h2
  have := Nat.le_of_dvd (by omega) h3
  omega

theorem and_two_pow_ne_zero (x b : Nat) : x &&& 2 ^ b ≠ 0 ↔ x.testBit b = true := by
  constructor
  · intro h
    obtain ⟨i, hi⟩ := Nat.ne_zero_implies_bit_true h
    rw [Nat.testBit_and, Nat.testBit_two_pow] at hi
    simp only [Bool.and_eq_true, decide_eq_true_eq] at hi
    rw [hi.2]
    exact hi.1
  · intro h hz
    have : (x &&& 2 ^ b).testBit b = true := by
      rw [Nat.testBit_and, Nat.testBit_two_pow_self, h]
      rfl
    rw [hz] at this
    simp at this

theorem bucket_used_zero (k index : Nat) : ¬ bucket_used (List.replicate k 0) index := by
  unfold bucket_used
  have : (List.replicate k 0).getD (index / 64) 0 = 0 := by
    rw [List.getD_eq_getElem?_getD]
    by_cases h : index / 64 < k
    · simp [List.getElem?_replicate, h]
    · simp [List.getElem?_replicate, h]
  rw [this]
  simp

theorem bucket_used_set (bitmap : List Nat) (index k : Nat)
    (h : index / 64 < bitmap.length) :
    bucket_used (bitmap.set (index / 64)
        (bitmap.getD (index / 64) 0 ||| (1 <<< (index &&& 63)))) k ↔
      bucket_used bitmap k ∨ k = index := by
  unfold bucket_used
  have h63 : ∀ x : Nat, x &&& 63 = x % 64 := fun x => Nat.and_pow_two_sub_one_eq_mod x 6
  rw [h63, h63, Nat.one_shiftLeft, Nat.one_shiftLeft]
  by_cases hq : k / 64 = index / 64
  · rw [hq, getD_set_eq _ _ _ _ h, and_two_pow_ne_zero, and_two_pow_ne_zero, Nat.testBit_or,
      Nat.testBit_two_pow]
    simp only [Bool.or_eq_true, decide_eq_true_eq]
    constructor
    · rintro (h1 | h1)
      · exact Or.inl h1
      · right; omega
    · rintro (h1 | h1)
      · exact Or.inl h1
      · right; omega
  · rw [getD_set_ne _ _ _ _ _ (fun e => hq e.symm)]
    constructor
    · exact fun h1 => Or.inl h1
    · rintro (h1 | h1)
      · exact h1
      · exact absurd (by rw [h1]) hq

theorem probe_index_succ (bc : Nat) (s : Nat × Nat) (t : Nat) :
    probe_index bc (probe_step s) t = probe_index bc s (t + 1) := by
  unfold probe_index
  rw [Function.iterate_succ_apply]

theorem probe_loop_unfold (bc hash fuel : Nat) (s : Nat × Nat) (bitmap buckets : List Nat) :
    probe_loop bc hash (fuel + 1) s.1 s.2 bitmap buckets =
      if bucket_used bitmap (probe_index bc s 1) then
        if buckets.getD (probe_index bc s 1) 0 = hash then some (true, bitmap, buckets)
        else probe_loop bc hash fuel (probe_step s).1 (probe_step s).2 bitmap buckets
      else
        some (false,
          bitmap.set (probe_index bc s 1 / 64)
            (bitmap.getD (probe_index bc s 1 / 64) 0 ||| (1 <<< (probe_index bc s 1 &&& 63))),
          buckets.set (probe_index bc s 1) hash) := by
  rfl

theorem probe_loop_stop (bc hash : Nat) (bitmap buckets : List Nat) :
    ∀ (fuel m : Nat) (s : Nat × Nat), 1 ≤ m → m ≤ fuel →
    (∀ t, 1 ≤ t → t < m → bucket_used bitmap (probe_index bc s t) ∧
      buckets.getD (probe_index bc s t) 0 ≠ hash) →
    ¬ (bucket_used bitmap (probe_index bc s m) ∧
      buckets.getD (probe_index bc s m) 0 ≠ hash) →
    probe_loop bc hash fuel s.1 s.2 bitmap buckets =
      if bucket_used bitmap (probe_index bc s m) then some (true, bitmap, buckets)
      else
        some (false,
          bitmap.set (probe_index bc s m / 64)
            (bitmap.getD (probe_index bc s m / 64) 0 ||| (1 <<< (probe_index bc s m &&& 63))),
          buckets.set (probe_index bc s m) hash) := by
  intro fuel
  induction fuel with
  | zero => intro m s h1 h2; omega
  | succ k ih =>
    intro m s h1 h2 hbefore hstop
    rw [probe_loop_unfold]
    by_cases hm : m = 1
    · subst hm
      by_cases hu : bucket_used bitmap (probe_index bc s 1)
      · rw [if_pos hu, if_pos hu]
        have : buckets.getD (probe_index bc s 1) 0 = hash := by
          by_contra hne
          exact hstop ⟨hu, hne⟩
        rw [if_pos this]
      · rw [if_neg hu, if_neg hu]
    · obtain ⟨p1, p2⟩ := hbefore 1 (Nat.le_refl 1) (by omega)
      rw [if_pos p1, if_neg p2]
      have := ih (m - 1) (probe_step s) (by omega) (by omega)
        (fun t ht1 ht2 => by
          rw [probe_index_succ]
          exact hbefore (t + 1) (by omega) (by omega))
        (by
          rw [probe_index_succ, show m - 1 + 1 = m by omega]
          exact hstop)
      rw [this, probe_index_succ, show m - 1 + 1 = m by omega]


theorem probe_perturb (s : Nat × Nat) (t : Nat) :
    (probe_step^[t] s).2 = s.2 >>> (5 * t) := by
  induction t with
  | zero => simp
  | succ k ih =>
    rw [Function.iterate_succ_apply']
    simp only [probe_step]
    rw [ih, ← Nat.shiftRight_add]
    congr 1

theorem probe_perturb_zero (hash t : Nat) (hh : hash < 4294967296) (ht : 7 ≤ t) :
    (probe_step^[t] (0, hash)).2 = 0 := by
  rw [probe_perturb, Nat.shiftRight_eq_div_pow]
  apply Nat.div_eq_of_lt
  calc hash < 2 ^ 32 := hh
    _ ≤ 2 ^ (5 * t) := Nat.pow_le_pow_right (by omega) (by omega)

theorem probe_tail (K hash : Nat) (hK : K ≤ 32) (hh : hash < 4294967296) (m : Nat) :
    (probe_step^[7 + m] (0, hash)).1 % 2 ^ K =
      (5 ^ m * (probe_step^[7] (0, hash)).1 + geo5 m) % 2 ^ K := by
  rw [← orbit_closed]
  induction m with
  | zero => simp
  | succ k ih =>
    rw [Function.iterate_succ_apply', ← ih, ← Nat.add_assoc, Function.iterate_succ_apply']
    simp only [probe_step]
    rw [probe_perturb_zero hash (7 + k) hh (by omega)]
    have hd : 2 ^ K ∣ 4294967296 := by
      have : (4294967296 : Nat) = 2 ^ 32 := by norm_num
      rw [this]
      exact Nat.pow_dvd_pow 2 hK
    rw [Nat.mod_mod_of_dvd _ hd, Nat.add_zero]
    conv_lhs => rw [Nat.add_mod, Nat.mul_mod]
    conv_rhs => rw [Nat.add_mod, Nat.mul_mod, Nat.mod_mod]
    rw [Nat.mul_comm]

theorem probe_index_mod (K : Nat) (s : Nat × Nat) (m : Nat) :
    probe_index (2 ^ K) s m = (probe_step^[m] s).1 % 2 ^ K := by
  unfold probe_index
  exact Nat.and_pow_two_sub_one_eq_mod _ K

theorem probe_index_lt (K : Nat) (s : Nat × Nat) (m : Nat) :
    probe_index (2 ^ K) s m < 2 ^ K := by
  rw [probe_index_mod]
  exact Nat.mod_lt _ (Nat.two_pow_pos K)

theorem probe_free (K hash : Nat) (hK : K ≤ 32) (hh : hash < 4294967296) (U : Finset Nat)
    (hU : U.card < 2 ^ K) :
    ∃ m, 1 ≤ m ∧ m ≤ 2 ^ K + 7 ∧ probe_index (2 ^ K) (0, hash) m ∉ U := by
  by_contra hall
  have hall2 : ∀ m, m < 2 ^ K → probe_index (2 ^ K) (0, hash) (7 + (m + 1)) ∈ U := by
    intro m hm
    by_contra hn
    exact hall ⟨7 + (m + 1), by omega, by omega, hn⟩
  have hinj : Set.InjOn (fun m => probe_index (2 ^ K) (0, hash) (7 + (m + 1)))
      (Finset.range (2 ^ K) : Set Nat) := by
    intro a ha b hb hab
    simp only [Finset.coe_range, Set.mem_Iio] at ha hb
    simp only [probe_index_mod, probe_tail K hash hK hh] at hab
    by_contra hne
    rcases Nat.lt_or_gt_of_ne hne with h | h
    · exact orbit_injective K _ (a + 1) (b + 1) (by omega) (by omega) hab
    · exact orbit_injective K _ (b + 1) (a + 1) (by omega) (by omega) hab.symm
  have := Finset.card_le_card_of_injOn _ (fun m hm => hall2 m (Finset.mem_range.mp hm)) hinj
  rw [Finset.card_range] at this
  omega

theorem table_insert (K : Nat) (H : Nat → Nat) (i : Nat) (bitmap buckets : List Nat)
    (inv : TableInv K H i bitmap buckets) (m : Nat) (hm : 1 ≤ m)
    (hfree : ¬ bucket_used bitmap (probe_index (2 ^ K) (0, H i) m))
    (hbefore : ∀ m2, 1 ≤ m2 → m2 < m →
      bucket_used bitmap (probe_index (2 ^ K) (0, H i) m2) ∧
      buckets.getD (probe_index (2 ^ K) (0, H i) m2) 0 ≠ H i) :
    TableInv K H (i + 1)
      (bitmap.set (probe_index (2 ^ K) (0, H i) m / 64)
        (bitmap.getD (probe_index (2 ^ K) (0, H i) m / 64) 0 |||
          (1 <<< (probe_index (2 ^ K) (0, H i) m &&& 63))))
      (buckets.set (probe_index (2 ^ K) (0, H i) m) (H i)) := by
  obtain ⟨lenb, lenm, ⟨U, hU1, hU2⟩, holds, path, inj⟩ := inv
  generalize hx : probe_index (2 ^ K) (0, H i) m = x at hfree ⊢
  have hxlt : x < 2 ^ K := by rw [← hx]; exact probe_index_lt K _ _
  have hset := bucket_used_set bitmap x
  have hxm : x / 64 < bitmap.length := lenm x hxlt
  refine ⟨?_, ?_, ?_, ?_, ?_, ?_⟩
  · simpa using lenb
  · intro idx hidx
    simpa using lenm idx hidx
  · refine ⟨insert x U, ?_, ?_⟩
    · have := Finset.card_insert_le x U
      omega
    · intro idx hidx
      rcases (hset idx hxm).mp hidx with h | h
      · exact Finset.mem_insert_of_mem (hU2 idx h)
      · rw [h]; exact Finset.mem_insert_self x U
  · intro idx hidx hused
    by_cases e : idx = x
    · subst e
      exact ⟨i, by omega, getD_set_eq _ _ _ _ (by omega)⟩
    · rcases (hset idx hxm).mp hused with h | h
      · obtain ⟨t, ht1, ht2⟩ := holds idx hidx h
        exact ⟨t, by omega, by rw [getD_set_ne _ _ _ _ _ (fun e2 => e e2.symm)]; exact ht2⟩
      · exact absurd h e
  · intro t ht
    by_cases e : t = i
    · subst e
      refine ⟨m, hm, ?_, ?_, ?_⟩
      · rw [hx]; exact (hset x hxm).mpr (Or.inr rfl)
      · rw [hx]; exact getD_set_eq _ _ _ _ (by omega)
      · intro m2 h1 h2
        obtain ⟨q1, q2⟩ := hbefore m2 h1 h2
        have hne : probe_index (2 ^ K) (0, H t) m2 ≠ x := by
          intro e2
          rw [e2] at q1
          exact hfree q1
        exact ⟨(hset _ hxm).mpr (Or.inl q1),
          by rw [getD_set_ne _ _ _ _ _ (fun e2 => hne e2.symm)]; exact q2⟩
    · obtain ⟨mt, p1, p2, p3, p4⟩ := path t (by omega)
      have hne : ∀ y, bucket_used bitmap y → y ≠ x := by
        intro y hy e2
        rw [e2] at hy
        exact hfree hy
      refine ⟨mt, p1, (hset _ hxm).mpr (Or.inl p2), ?_, ?_⟩
      · rw [getD_set_ne _ _ _ _ _ (fun e2 => hne _ p2 e2.symm)]; exact p3
      · intro m2 h1 h2
        obtain ⟨q1, q2⟩ := p4 m2 h1 h2
        exact ⟨(hset _ hxm).mpr (Or.inl q1),
          by rw [getD_set_ne _ _ _ _ _ (fun e2 => hne _ q1 e2.symm)]; exact q2⟩
  · intro s t hst ht
    by_cases e : t = i
    · subst e
      intro heq
      obtain ⟨ms, p1, p2, p3, p4⟩ := path s hst
      rw [heq] at p2 p3 p4
      rcases Nat.lt_trichotomy m ms with h | h | h
      · have := (p4 m hm h).1
        rw [hx] at this
        exact hfree this
      · subst h
        rw [hx] at p2
        exact hfree p2
      · exact (hbefore ms p1 h).2 p3
    · exact inj s t hst (by omega)


theorem collisions_loop_spec (func n : Nat) (strings : List (List Nat)) (K : Nat)
    (hK : K ≤ 32) (hn : n < 2 ^ K) (hH : ∀ t, hash_of func strings t < 4294967296) :
    ∀ (k i : Nat) (bitmap buckets : List Nat), i + k = n →
    TableInv K (hash_of func strings) i bitmap buckets →
    ∃ r, collisions_loop func n strings (2 ^ K) k i bitmap buckets = some r ∧
      (r = 0 ↔ ∀ s t, s < t → t < n → hash_of func strings s ≠ hash_of func strings t) ∧
      (r = 0 ∨ r = 1) := by
  intro k
  induction k with
  | zero =>
    intro i bitmap buckets hi inv
    refine ⟨0, rfl, ?_, Or.inl rfl⟩
    simp only [true_iff]
    intro s t hst ht
    exact inv.inj s t hst (by omega)
  | succ k ih =>
    intro i bitmap buckets hi inv
    obtain ⟨U, hU1, hU2⟩ := inv.count
    obtain ⟨m0, hm1, hm2, hm3⟩ := probe_free K (hash_of func strings i) hK (hH i) U (by omega)
    have hex : ∃ m, 1 ≤ m ∧
        ¬ (bucket_used bitmap (probe_index (2 ^ K) (0, hash_of func strings i) m) ∧
          buckets.getD (probe_index (2 ^ K) (0, hash_of func strings i) m) 0 ≠
            hash_of func strings i) :=
      ⟨m0, hm1, fun h => hm3 (hU2 _ h.1)⟩
    have hspec := Nat.find_spec hex
    have hmin := fun m2 (h : m2 < Nat.find hex) => Nat.find_min hex h
    have hle : Nat.find hex ≤ m0 := Nat.find_min' hex ⟨hm1, fun h => hm3 (hU2 _ h.1)⟩
    generalize Nat.find hex = m at hspec hmin hle
    have hbefore : ∀ m2, 1 ≤ m2 → m2 < m →
        bucket_used bitmap (probe_index (2 ^ K) (0, hash_of func strings i) m2) ∧
        buckets.getD (probe_index (2 ^ K) (0, hash_of func strings i) m2) 0 ≠
          hash_of func strings i := by
      intro m2 h1 h2
      by_contra hc
      exact hmin m2 h2 ⟨h1, hc⟩
    have hstop := probe_loop_stop (2 ^ K) (hash_of func strings i) bitmap buckets
      (2 ^ K + 7) m (0, hash_of func strings i) hspec.1 (by omega) hbefore hspec.2
    have hunf : collisions_loop func n strings (2 ^ K) (k + 1) i bitmap buckets =
        match probe_loop (2 ^ K) (hash_of func strings i) (2 ^ K + 7) 0
            (hash_of func strings i) bitmap buckets with
        | none => none
        | some (true, _, _) => some 1
        | some (false, bitmap, buckets) =>
          collisions_loop func n strings (2 ^ K) k (i + 1) bitmap buckets := rfl
    rw [hunf]
    simp only at hstop
    rw [hstop]
    by_cases hu : bucket_used bitmap (probe_index (2 ^ K) (0, hash_of func strings i) m)
    · rw [if_pos hu]
      refine ⟨1, rfl, ?_, Or.inr rfl⟩
      have hval : buckets.getD (probe_index (2 ^ K) (0, hash_of func strings i) m) 0 =
          hash_of func strings i := by
        by_contra hne
        exact hspec.2 ⟨hu, hne⟩
      obtain ⟨t, ht1, ht2⟩ := inv.holds _ (probe_index_lt K _ _) hu
      constructor
      · intro h; exact absurd h (by decide)
      · intro h
        exact absurd (ht2.symm.trans hval) (h t i ht1 (by omega))
    · rw [if_neg hu]
      exact ih (i + 1) _ _ (by omega) (table_insert K _ i bitmap buckets inv m hspec.1 hu hbefore)

theorem bucket_count_spec (n : Nat) (hn : n < 2147483648) :
    ∀ (fuel a : Nat), 2 ^ a ≤ 2 * n ∨ a = 0 → n < 2 ^ (a + fuel) →
    ∃ K, bucket_count_loop fuel (2 ^ a) n = 2 ^ K ∧ n < 2 ^ K ∧ (2 ^ K ≤ 2 * n ∨ K = 0) ∧
      K ≤ 32 := by
  intro fuel
  induction fuel with
  | zero =>
    intro a ha hf
    refine ⟨a, rfl, by simpa using hf, ha, ?_⟩
    by_contra hc
    have : 2 ^ 33 ≤ 2 ^ a := Nat.pow_le_pow_right (by omega) (by omega)
    rcases ha with h | h
    · omega
    · omega
  | succ k ih =>
    intro a ha hf
    unfold bucket_count_loop
    by_cases h : 2 ^ a ≤ n
    · rw [if_pos h]
      have h2 : 2 ^ a * 2 % 4294967296 = 2 ^ (a + 1) := by
        rw [pow_succ]
        apply Nat.mod_eq_of_lt
        omega
      rw [h2]
      exact ih (a + 1) (Or.inl (by rw [pow_succ]; omega)) (by
        rw [show a + 1 + k = a + (k + 1) by omega]; exact hf)
    · rw [if_neg h]
      refine ⟨a, rfl, by omega, ha, ?_⟩
      by_contra hc
      have : 2 ^ 33 ≤ 2 ^ a := Nat.pow_le_pow_right (by omega) (by omega)
      rcases ha with h | h
      · omega
      · omega

theorem collisions_found_spec (func n : Nat) (strings : List (List Nat)) (mem : List Nat)
    (hn : n < 2147483648) (hmem : 2 * n ≤ mem.length)
    (hH : ∀ t, hash_of func strings t < 4294967296) :
    ∃ r, collisions_found func n strings mem = some r ∧
      (r = 0 ↔ ∀ s t, s < t → t < n → hash_of func strings s ≠ hash_of func strings t) ∧
      (r = 0 ∨ r = 1) := by
  unfold collisions_found
  by_cases h2 : n < 2
  · rw [if_pos h2]
    refine ⟨0, rfl, ?_, Or.inl rfl⟩
    simp only [true_iff]
    intro s t hst ht
    omega
  · rw [if_neg h2]
    obtain ⟨K, k1, k2, k3, k4⟩ := bucket_count_spec n hn (n + 1) 0 (Or.inr rfl)
      (by rw [Nat.zero_add]; exact Nat.lt_of_lt_of_le (Nat.lt_two_pow n)
            (Nat.pow_le_pow_right (by omega) (by omega)))
    simp only [pow_zero] at k1
    simp only
    rw [k1]
    have k3 : 2 ^ K ≤ 2 * n := by
      rcases k3 with h | h
      · exact h
      · subst h; simp at k2; omega
    apply collisions_loop_spec func n strings K k4 k2 hH n 0 _ _ (by omega)
    refine ⟨by omega, ?_, ⟨∅, by simp, ?_⟩, ?_, ?_, ?_⟩
    · intro idx hidx
      simp only [List.length_replicate]
      omega
    · intro idx h
      exact absurd h (bucket_used_zero _ _)
    · intro idx _ h
      exact absurd h (bucket_used_zero _ _)
    · intro t ht; omega
    · intro s t _ ht; omega

theorem fnv1a_fold_lt (bytes : List Nat) : ∀ seed : Nat, seed < 4294967296 →
    fnv1a_fold seed bytes < 4294967296 := by
  induction bytes with
  | nil => intro seed h; exact h
  | cons b bs ih =>
    intro seed _
    unfold fnv1a_fold
    rw [List.foldl_cons]
    exact ih _ (Nat.mod_lt _ (by omega))

theorem eval_hash_lt (func : Nat) (str : List Nat) (len : Nat) (hbytes : ∀ b ∈ str, b < 256) :
    eval_hash_func func str len < 4294967296 := by
  by_cases hfam : func / 16777216 ≤ 0xf
  · rw [eval_hash_sampling func str len hfam hbytes]
    exact Nat.mod_lt _ (by omega)
  · unfold eval_hash_func
    simp only
    rw [if_pos (by omega), eval_fnv1a_fold, eval_fnv1a_fold]
    exact fnv1a_fold_lt _ _ (fnv1a_fold_lt _ _ (by omega))

theorem getD_bytes (strings : List (List Nat)) (hs : ∀ s ∈ strings, ∀ b ∈ s, b < 256)
    (t : Nat) : ∀ b ∈ strings.getD t [], b < 256 := by
  rw [List.getD_eq_getElem?_getD]
  cases e : strings[t]? with
  | none => simp
  | some x =>
    simp only [Option.getD_some]
    exact hs x (List.getElem?_mem e)

theorem hash_of_lt (func : Nat) (strings : List (List Nat))
    (hs : ∀ s ∈ strings, ∀ b ∈ s, b < 256) (t : Nat) :
    hash_of func strings t < 4294967296 :=
  eval_hash_lt func _ _ (getD_bytes strings hs t)

theorem and_f4_ne_zero (v : Nat) (h1 : v > 0xf000000) (h2 : v < 4294967296) :
    0xf4000000 &&& v ≠ 0 := by
  have hbit : ∀ i, (0xf4000000 : Nat).testBit i = true → v.testBit i = true →
      0xf4000000 &&& v ≠ 0 := by
    intro i a b hz
    have : (0xf4000000 &&& v).testBit i = true := by rw [Nat.testBit_and, a, b]; rfl
    rw [hz] at this
    simp at this
  by_cases b26 : v.testBit 26 = true
  · exact hbit 26 (by decide) b26
  by_cases b28 : v.testBit 28 = true
  · exact hbit 28 (by decide) b28
  by_cases b29 : v.testBit 29 = true
  · exact hbit 29 (by decide) b29
  by_cases b30 : v.testBit 30 = true
  · exact hbit 30 (by decide) b30
  by_cases b31 : v.testBit 31 = true
  · exact hbit 31 (by decide) b31
  exfalso
  simp only [Nat.testBit_to_div_mod, decide_eq_true_eq] at b26 b28 b29 b30 b31
  omega

theorem byte_at_lt (l : List Nat) (h : ∀ b ∈ l, b < 256) (i : Nat) : byte_at l i < 256 :=
  char_at_lt l h i

theorem load32_lt (l : List Nat) (h : ∀ b ∈ l, b < 256) (i : Nat) :
    load32 l i < 4294967296 := by
  unfold load32 load16
  have a := byte_at_lt l h i
  have b := byte_at_lt l h (i + 1)
  have c := byte_at_lt l h (i + 2)
  have d := byte_at_lt l h (i + 2 + 1)
  omega

theorem window_ok_iff (n : Nat) (strings : List (List Nat)) (v : Nat) (h1 : v > 0xf000000)
    (h2 : v < 4294967296) :
    window_ok n strings v ↔
      ∀ s t, s < t → t < n → hash_of v strings s ≠ hash_of v strings t := by
  unfold window_ok hash_of
  simp only [and_f4_ne_zero v h1 h2, ne_eq, not_false_eq_true, ↓reduceIte]
  constructor
  · rintro ⟨-, h⟩ s t hst ht
    exact h t ht s hst
  · intro h
    exact ⟨h1, fun t ht s hst => h s t hst ht⟩

theorem create_fnv_loop_spec (n : Nat) (strings : List (List Nat)) (random mem : List Nat)
    (hn : n < 2147483648) (hmem : 2 * n ≤ mem.length)
    (hs : ∀ s ∈ strings, ∀ b ∈ s, b < 256) (hr : ∀ b ∈ random, b < 256) :
    ∀ (k off : Nat), create_fnv_loop n strings random mem k off =
      some (match (List.range' off k).find?
          (fun o => decide (window_ok n strings (load32 random o))) with
        | some o => load32 random o
        | none => 0) := by
  intro k
  induction k with
  | zero => intro off; rfl
  | succ k ih =>
    intro off
    unfold create_fnv_loop
    rw [List.range'_succ, List.find?_cons]
    simp only
    have hlt := load32_lt random hr off
    by_cases hv : load32 random off > 0xf000000
    · rw [if_pos hv]
      obtain ⟨r, r1, r2, r3⟩ := collisions_found_spec (load32 random off) n strings mem hn hmem
        (hash_of_lt _ strings hs)
      rw [r1]
      simp only
      rw [← window_ok_iff n strings _ hv hlt] at r2
      by_cases hr0 : r = 0
      · rw [if_pos hr0]
        have : decide (window_ok n strings (load32 random off)) = true :=
          decide_eq_true (r2.mp hr0)
        rw [this]
      · rw [if_neg hr0, ih]
        have : decide (window_ok n strings (load32 random off)) = false :=
          decide_eq_false (fun h => hr0 (r2.mpr h))
        rw [this]
    · rw [if_neg hv, ih]
      have : decide (window_ok n strings (load32 random off)) = false :=
        decide_eq_false (fun h => hv h.1)
      rw [this]

theorem create_fnv_func_spec (n : Nat) (strings : List (List Nat)) (random mem : List Nat)
    (hn : n < 2147483648) (hmem : 2 * n ≤ mem.length)
    (hs : ∀ s ∈ strings, ∀ b ∈ s, b < 256) (hr : ∀ b ∈ random, b < 256) :
    create_fnv_func n strings random mem = some (first_window n strings random) := by
  unfold create_fnv_func first_window
  by_cases h : random.length < 4
  · rw [if_pos h]
    have : random.length - 3 = 0 := by omega
    rw [this]
    rfl
  · rw [if_neg h, create_fnv_loop_spec n strings random mem hn hmem hs hr, List.range_eq_range']
    have : random.length - 4 + 1 = random.length - 3 := by omega
    rw [this]

theorem rebuild_count_length (strings : List (List Nat)) (best_pos : Int) (indices : Nat) :
    ∀ (fuel j : Nat) (slots probes : List Nat) (map : Nat) (r : List Nat × List Nat × Nat × Nat),
    rebuild_count strings best_pos indices fuel j slots probes map = some r →
    r.1.length = slots.length := by
  intro fuel
  induction fuel with
  | zero => intro j slots probes map r h; simp [rebuild_count] at h
  | succ k ih =>
    intro j slots probes map r h
    unfold rebuild_count at h
    simp only at h
    split_ifs at h
    · simp only [Option.some.injEq] at h
      subst h
      simp
    · simp only [Option.some.injEq] at h
      subst h
      simp
    · have hl := ih _ _ _ _ _ h
      simpa using hl
    · have hl := ih _ _ _ _ _ h
      simpa using hl

theorem rebuild_copy_length (strings : List (List Nat)) (best_pos : Int)
    (indices next_indices : Nat) :
    ∀ (k j : Nat) (slots probes : List Nat),
    (rebuild_copy strings best_pos indices next_indices k j slots probes).1.length =
      slots.length := by
  intro k
  induction k with
  | zero => intro j slots probes; rfl
  | succ k ih =>
    intro j slots probes
    unfold rebuild_copy
    simp only
    rw [ih]
    simp

theorem rebuild_domains_length (strings : List (List Nat)) (best_pos : Int)
    (indices next_indices n_active : Nat) :
    ∀ (fuel i : Nat) (slots probes : List Nat) (o : Nat) (r : List Nat × List Nat × Nat),
    rebuild_domains strings best_pos indices next_indices n_active fuel i slots probes o =
      some r → r.1.length = slots.length := by
  intro fuel
  induction fuel with
  | zero => intro i slots probes o r h; simp [rebuild_domains] at h
  | succ k ih =>
    intro i slots probes o r h
    unfold rebuild_domains at h
    by_cases hi : i < n_active
    · rw [if_pos hi] at h
      cases e1 : rebuild_count strings best_pos indices (n_active - i) i slots probes 0 with
      | none => rw [e1] at h; simp at h
      | some r1 =>
        obtain ⟨slots1, probes1, map1, j1⟩ := r1
        have l1 := rebuild_count_length strings best_pos indices _ _ _ _ _ _ e1
        rw [e1] at h
        simp only at h
        cases e2 : rebuild_assign n_active 65 map1 probes1 o with
        | none => rw [e2] at h; simp at h
        | some r2 =>
          obtain ⟨probes2, o2⟩ := r2
          rw [e2] at h
          simp only at h
          cases e3 : rebuild_zero 65 map1
              (rebuild_copy strings best_pos indices next_indices (j1 + 1 - i) i slots1
                probes2).2 with
          | none => rw [e3] at h; simp at h
          | some probes3 =>
            rw [e3] at h
            simp only at h
            have := ih _ _ _ _ _ h
            rw [this, rebuild_copy_length]
            exact l1
    · rw [if_neg hi] at h
      simp only [Option.some.injEq] at h
      subst h
      rfl


theorem pick_fallback (n : Nat) (strings : List (List Nat)) (random : List Nat) :
    ∀ (fuel : Nat) (c : HashCfg) (mem : List Nat),
    fallback_mem n strings fuel c = some (some mem) →
    pick_next_sample n strings random fuel c = create_fnv_func n strings random mem ∧
      c.slots.length ≤ mem.length := by
  intro fuel
  induction fuel with
  | zero => intro c mem h; simp [fallback_mem] at h
  | succ k ih =>
    intro c mem h
    unfold fallback_mem at h
    unfold pick_next_sample
    cases e : scan_positions strings c.slots c.indices c.n_active c.max_len 258
        ((c.use_len : Int) - 1) c.probes 1 (c.n_active + 1) 0 with
    | none => rw [e] at h; simp at h
    | some s =>
      rw [e] at h
      simp only at h ⊢
      have hsl : (if s.best_pos = -1 then
            ({ c with probes := s.probes, max_len := s.max_len, use_len := 1 } : HashCfg)
          else { c with probes := s.probes, max_len := s.max_len,
                        sample_pos := c.sample_pos.set c.sample_count s.best_pos.toNat,
                        sample_count := c.sample_count + 1 }).slots = c.slots := by
        split_ifs <;> rfl
      generalize (if s.best_pos = -1 then
            ({ c with probes := s.probes, max_len := s.max_len, use_len := 1 } : HashCfg)
          else { c with probes := s.probes, max_len := s.max_len,
                        sample_pos := c.sample_pos.set c.sample_count s.best_pos.toNat,
                        sample_count := c.sample_count + 1 }) = c2 at h hsl ⊢
      by_cases h0 : s.collisions_min = 0
      · rw [if_pos h0] at h
        simp at h
      · rw [if_neg h0] at h
        rw [if_neg h0]
        by_cases h4 : c2.sample_count = 4
        · rw [if_pos h4] at h
          rw [if_pos h4]
          simp only [Option.some.injEq] at h
          subst h
          refine ⟨rfl, ?_⟩
          rw [List.length_append, hsl]
          omega
        · rw [if_neg h4] at h
          rw [if_neg h4]
          cases e2 : rebuild_domains strings s.best_pos c2.indices
              (if c2.indices = 0 then c2.n_active else 0) c2.n_active (c2.n_active + 1) 0
              c2.slots (List.replicate 128 0) 0 with
          | none => rw [e2] at h; simp at h
          | some r =>
            obtain ⟨slots, probes, o⟩ := r
            rw [e2] at h
            simp only at h ⊢
            have hl := rebuild_domains_length strings s.best_pos _ _ _ _ _ _ _ _ _ e2
            obtain ⟨i1, i2⟩ := ih _ mem h
            refine ⟨i1, ?_⟩
            simp only at i2 hl
            rw [← hsl, ← hl]
            exact i2

theorem greedy_start_length (n : Nat) : (greedy_start n).slots.length = n * 2 := by
  simp [greedy_start, store_length]

theorem create_hash_func_greedy (n : Nat) (strings : List (List Nat)) (random : List Nat)
    (h0 : n ≠ 0) (h1 : n ≤ 1000) :
    create_hash_func n strings random = pick_next_sample n strings random 6 (greedy_start n) := by
  unfold create_hash_func
  rw [if_neg h0]
  simp only
  rw [if_neg (by omega)]
  rfl

/-- C19 (FNV fallback result). The fallback `create_fnv_func`, on any scratch
area with room for `2 n` buckets, returns the big-endian value of the 4-byte
window of lowest offset in the random pool that is greater than `0x0F000000`
and under which (`eval_hash_func(v, s, strlen(s))`) the strings have pairwise
distinct hashes, and 0 when no window qualifies or the pool has fewer than 4
bytes.  That is what `create_hash_func` returns when it falls back: for
`n > 1000`, and when the greedy search has selected four positions without a
solution. -/
theorem C19_fnv_fallback (n : Nat) (strings : List (List Nat)) (random : List Nat)
    (hn : n < 2147483648) (hs : ∀ s ∈ strings, ∀ b ∈ s, b < 256)
    (hr : ∀ b ∈ random, b < 256) :
    (∀ mem : List Nat, 2 * n ≤ mem.length →
      create_fnv_func n strings random mem = some (first_window n strings random)) ∧
    (1000 < n → create_hash_func n strings random = some (first_window n strings random)) ∧
    (∀ mem : List Nat, n ≠ 0 → n ≤ 1000 →
      fallback_mem n strings 6 (greedy_start n) = some (some mem) →
      create_hash_func n strings random = some (first_window n strings random)) := by
  refine ⟨fun mem hmem => create_fnv_func_spec n strings random mem hn hmem hs hr, ?_, ?_⟩
  · intro h
    unfold create_hash_func
    rw [if_neg (by omega)]
    simp only
    rw [if_pos h]
    exact create_fnv_func_spec n strings random _ hn (by simp; omega) hs hr
  · intro mem h0 h1 hf
    obtain ⟨p1, p2⟩ := pick_fallback n strings random 6 (greedy_start n) mem hf
    rw [create_hash_func_greedy n strings random h0 h1, p1]
    rw [greedy_start_length] at p2
    exact create_fnv_func_spec n strings random mem hn (by omega) hs hr

set_option maxRecDepth 1000000 in
/-- C19 on the strings `a` and `a` repeated 129 times: the greedy search gives
up, and with the pool `0f 00 00 00 10 00 00 01` the first window that
qualifies is the one at offset 4, `0x10000001`. -/
theorem C19_fnv_fallback_witness :
    (fallback_mem 2 [[0x61], List.replicate 129 0x61] 6 (greedy_start 2)).isSome = true ∧
    create_hash_func 2 [[0x61], List.replicate 129 0x61] [0x0f, 0, 0, 0, 0x10, 0, 0, 1] =
      some (first_window 2 [[0x61], List.replicate 129 0x61] [0x0f, 0, 0, 0, 0x10, 0, 0, 1]) ∧
    first_window 2 [[0x61], List.replicate 129 0x61] [0x0f, 0, 0, 0, 0x10, 0, 0, 1] =
      0x10000001 := by
  refine ⟨by rfl, ?_, by decide⟩
  exact (C19_fnv_fallback 2 [[0x61], List.replicate 129 0x61] [0x0f, 0, 0, 0, 0x10, 0, 0, 1]
    (by decide) (by decide) (by decide)).2.2
    (Option.getD (Option.getD
      (fallback_mem 2 [[0x61], List.replicate 129 0x61] 6 (greedy_start 2)) none) [])
    (by decide) (by decide) (by rfl)

/-! ## Capacities -/

theorem cap_seq_ge (k : Nat) : 128 + 64 * k ≤ cap_seq k := by
  induction k with
  | zero => simp [cap_seq]
  | succ k ih => simp only [cap_seq]; omega

theorem cap_seq_mono : ∀ {j k : Nat}, j ≤ k → cap_seq j ≤ cap_seq k := by
  intro j k h
  induction k with
  | zero =>
    have : j = 0 := by omega
    subst this
    exact Nat.le_refl _
  | succ k ih =>
    by_cases e : j = k + 1
    · subst e; exact Nat.le_refl _
    · have := ih (by omega)
      simp only [cap_seq]
      omega

theorem next_capacity_loop_seq (min_capacity : Nat) :
    ∀ (fuel k : Nat), min_capacity ≤ cap_seq k + 64 * fuel →
    (∀ j, j < k → cap_seq j < min_capacity) →
    ∃ k2, next_capacity_loop fuel (cap_seq k) min_capacity = cap_seq k2 ∧
      min_capacity ≤ cap_seq k2 ∧ ∀ j, j < k2 → cap_seq j < min_capacity := by
  intro fuel
  induction fuel with
  | zero =>
    intro k h hb
    exact ⟨k, rfl, by omega, hb⟩
  | succ f ih =>
    intro k h hb
    unfold next_capacity_loop
    by_cases hlt : cap_seq k < min_capacity
    · rw [if_pos hlt]
      have h128 := cap_seq_ge k
      have := ih (k + 1) (by simp only [cap_seq]; omega) (fun j hj => by
        by_cases e : j = k
        · subst e; exact hlt
        · exact hb j (by omega))
      simpa [cap_seq] using this
    · rw [if_neg hlt]
      exact ⟨k, rfl, by omega, hb⟩

theorem next_capacity_seq (min_capacity : Nat) :
    ∃ k, next_capacity min_capacity = cap_seq k ∧ min_capacity ≤ cap_seq k ∧
      ∀ j, j < k → cap_seq j < min_capacity := by
  unfold next_capacity
  have := next_capacity_loop_seq min_capacity min_capacity 0
    (by simp only [cap_seq]; omega) (fun j hj => by omega)
  simpa [cap_seq] using this

/-- C22. `next_capacity(min)` is the first term of the sequence `c 0 = 128`,
`c (k + 1) = c k + c k / 2` that is at least `min` (the loop ends: it takes no
more than `min` turns); the result is at least 128 and at least `min`, it is
128 for every `min ≤ 128`, and it is monotone in `min`. -/
theorem C22_next_capacity (m : Nat) :
    (∃ k, next_capacity m = cap_seq k ∧ m ≤ cap_seq k ∧ ∀ j, j < k → cap_seq j < m) ∧
    128 ≤ next_capacity m ∧ m ≤ next_capacity m ∧
    (m ≤ 128 → next_capacity m = 128) ∧
    (∀ m2, m ≤ m2 → next_capacity m ≤ next_capacity m2) := by
  obtain ⟨k, h1, h2, h3⟩ := next_capacity_seq m
  refine ⟨⟨k, h1, h2, h3⟩, ?_, ?_, ?_, ?_⟩
  · rw [h1]
    have := cap_seq_ge k
    omega
  · rw [h1]; exact h2
  · intro hm
    rw [h1]
    have : k = 0 := by
      by_contra hk
      have := h3 0 (by omega)
      simp only [cap_seq] at this
      omega
    rw [this]
    rfl
  · intro m2 hm
    obtain ⟨k2, g1, g2, g3⟩ := next_capacity_seq m2
    rw [h1, g1]
    apply cap_seq_mono
    by_contra hlt
    have := h3 k2 (by omega)
    omega

theorem next_capacity_ge_128 (m : Nat) : 128 ≤ next_capacity m := by
  obtain ⟨k, h1, -, -⟩ := next_capacity_seq m
  rw [h1]
  have := cap_seq_ge k
  omega

/-- C23 (amended). `schema_rt_buf_grow(state, min_capacity)` succeeds and leaves
`ot_capacity = next_capacity(min_capacity)`, which is at least `min_capacity`
and at least 128, with `ot` and `ov` of that many slots and the slots below
both the old and the new capacity kept; the capacity is not below its value
before the call whenever `min_capacity` is not. -/
theorem C23_buf_grow (st : State) (m : Nat) :
    (schema_rt_buf_grow st m).1 = 0 ∧
    (schema_rt_buf_grow st m).2.ot_capacity = next_capacity m ∧
    m ≤ (schema_rt_buf_grow st m).2.ot_capacity ∧
    128 ≤ (schema_rt_buf_grow st m).2.ot_capacity ∧
    (st.ot_capacity ≤ m → st.ot_capacity ≤ (schema_rt_buf_grow st m).2.ot_capacity) ∧
    (st.ot.length = st.ot_capacity → st.ov.length = st.ot_capacity →
      (schema_rt_buf_grow st m).2.ot.length = next_capacity m ∧
      (schema_rt_buf_grow st m).2.ov.length = next_capacity m ∧
      ∀ i, i < st.ot_capacity → i < next_capacity m →
        (schema_rt_buf_grow st m).2.ot.getD i 0 = st.ot.getD i 0 ∧
        (schema_rt_buf_grow st m).2.ov.getD i ⟨0, 0⟩ = st.ov.getD i ⟨0, 0⟩) := by
  have hge := next_capacity_ge m
  have h128 := next_capacity_ge_128 m
  refine ⟨rfl, rfl, hge, h128, fun h => Nat.le_trans h hge, ?_⟩
  intro h1 h2
  simp only [schema_rt_buf_grow, buf_grow_tv, buf_grow, realloc]
  refine ⟨?_, ?_, ?_⟩
  · simp only [List.length_append, List.length_take, List.length_replicate]
    omega
  · simp only [List.length_append, List.length_take, List.length_replicate]
    omega
  · intro i hi1 hi2
    constructor
    · rw [List.getD_eq_getElem?_getD, List.getD_eq_getElem?_getD,
        List.getElem?_append_left (by simp; omega), List.getElem?_take_of_lt hi2]
    · rw [List.getD_eq_getElem?_getD, List.getD_eq_getElem?_getD,
        List.getElem?_append_left (by simp; omega), List.getElem?_take_of_lt hi2]

set_option maxRecDepth 100000 in
/-- C23 as stated fails on a state whose output arrays hold 192 slots when 100
are asked for: the call succeeds and leaves `ot_capacity = 128`. -/
theorem C23_shrink_counterexample :
    (schema_rt_buf_grow (out_state 192) 100).1 = 0 ∧
    (out_state 192).ot_capacity = 192 ∧
    (schema_rt_buf_grow (out_state 192) 100).2.ot_capacity = 128 ∧
    (schema_rt_buf_grow (out_state 192) 100).2.ot.length = 128 := by
  decide

/-! ## The result buffer, the collision check and the bucket count -/

theorem parse_step_done {f : Nat → Nat} {inp : List Nat} {c c2 : ParseCfg}
    (h : parse_step f inp c = .done c2) :
    c2 = { c with todo := 4294967295 } ∧ c.todo = 0 ∧ c.stack = 0 := by
  rw [parse_step_eq] at h
  split_ifs at h with h0 hs hm
  · simp only [ParseStep.done.injEq] at h
    exact ⟨h.symm, h0, hs⟩
  · exfalso
    generalize decode_at f inp c.mi = d at h
    generalize ParseCfg.with_room { c with todo := c.todo - 1 } = c1 at h
    cases d with
    | scalar tag w adv => cases w <;> simp [apply_decoded, ParseCfg.next_slot] at h
    | xdata tag pre len =>
      simp only [apply_decoded, do_xdata, ParseCfg.next_slot] at h
      split_ifs at h
    | nested tag adv xlen len =>
      simp only [apply_decoded, setup_nested, ParseCfg.next_slot] at h
      split_ifs at h
    | underflow => simp [apply_decoded] at h
    | c1 => simp [apply_decoded] at h

theorem parse_run_frame {f : Nat → Nat} {inp : List Nat} :
    ∀ (fuel : Nat) (c c2 : ParseCfg), c.mi ≤ inp.length →
    parse_run f inp fuel c = some (.done c2) →
    c2.mi ≤ inp.length ∧ c2.st.res = c.st.res ∧ c2.st.res_capacity = c.st.res_capacity ∧
      c2.st.res_size = c.st.res_size := by
  intro fuel
  induction fuel with
  | zero => intro c c2 _ h; simp [parse_run] at h
  | succ k ih =>
    intro c c2 hmi h
    by_cases hs : ∃ c3, parse_step f inp c = .again c3
    · obtain ⟨c3, h3⟩ := hs
      rw [parse_run_again k h3] at h
      obtain ⟨m1, -, m3, m4, m5⟩ := parse_step_measure h3 hmi
      obtain ⟨n1, n2, n3, n4⟩ := ih c3 c2 m1 h
      exact ⟨n1, by rw [n2, m3], by rw [n3, m4], by rw [n4, m5]⟩
    · rw [parse_run_exit k (fun c3 h3 => hs ⟨c3, h3⟩)] at h
      obtain ⟨e, -, -⟩ := parse_step_done (Option.some.inj h)
      subst e
      exact ⟨hmi, rfl, rfl, rfl⟩

/-- C26 (amended). A `parse_msgpack` that returns 0 leaves the result buffer as
it found it: `res_size`, `res` and `res_capacity` after the call are what they
were before it (so `res_size` is 0 after the call only if it was 0 before). -/
theorem C26_res_untouched (f : Nat → Nat) (st st2 : State) (inp : List Nat) (mi : Nat)
    (h : parse_msgpack f st inp mi = some (0, st2)) :
    st2.res_size = st.res_size ∧ st2.res = st.res ∧ st2.res_capacity = st.res_capacity := by
  obtain ⟨c, hc, e⟩ := parse_msgpack_done h
  obtain ⟨-, n2, n3, n4⟩ := parse_run_frame _ _ c (Nat.zero_le _) hc
  subst e
  exact ⟨n4, n2, n3⟩

set_option maxRecDepth 100000 in
/-- C26 (amended) applies to the one-byte message `01` on a state that holds a
five-byte result. -/
theorem C26_res_untouched_witness :
    (parse_msgpack (fun x => x) used_state [1] 0).map (fun r => r.1) = some 0 ∧
    used_state.res_size = 5 ∧
    ((parse_msgpack (fun x => x) used_state [1] 0).getD (0, State.zero)).2.res_size =
      used_state.res_size :=
  ⟨by rfl, rfl, (C26_res_untouched (fun x => x) used_state
    ((parse_msgpack (fun x => x) used_state [1] 0).getD (0, State.zero)).2 [1] 0 (by rfl)).1⟩

set_option maxRecDepth 100000 in
/-- C26 as stated fails on the one-byte message `01` parsed on a state that
holds a five-byte result: the call returns 0 and `res_size` is still 5. -/
theorem C26_res_size_counterexample :
    (parse_msgpack (fun x => x) used_state [1] 0).map (fun r => (r.1, r.2.res_size)) =
      some (0, 5) := by
  rfl

/-- C27. For every descriptor and every `n` strings of bytes (with `n` in the
range of `int` and a scratch area of at least `2 n` words, as
`create_hash_func` passes it), `collisions_found` returns; the value is
nonzero exactly when two of the strings, at indices `i < j < n`, have the same
`eval_hash_func` value, computed with the length of the string when
`func & 0xf4000000` is nonzero and with length 0 otherwise; for `n < 2` the
value is 0. -/
theorem C27_collisions_exact (func n : Nat) (strings : List (List Nat)) (mem : List Nat)
    (hn : n < 2147483648) (hmem : 2 * n ≤ mem.length)
    (hs : ∀ s ∈ strings, ∀ b ∈ s, b < 256) :
    ∃ r, collisions_found func n strings mem = some r ∧
      (r ≠ 0 ↔ ∃ i j, i < j ∧ j < n ∧
        eval_hash_func func (strings.getD i [])
            (if 0xf4000000 &&& func ≠ 0 then (strings.getD i []).length else 0) =
          eval_hash_func func (strings.getD j [])
            (if 0xf4000000 &&& func ≠ 0 then (strings.getD j []).length else 0)) ∧
      (n < 2 → r = 0) := by
  obtain ⟨r, h1, h2, -⟩ := collisions_found_spec func n strings mem hn hmem
    (hash_of_lt func strings hs)
  refine ⟨r, h1, ?_, ?_⟩
  · rw [not_iff_comm, h2]
    constructor
    · intro h s t hst htn heq
      exact h ⟨s, t, hst, htn, heq⟩
    · rintro h ⟨i, j, hij, hjn, heq⟩
      exact h i j hij hjn heq
  · intro hlt
    rw [h2]
    intro s t hst htn
    omega

set_option maxRecDepth 100000 in
/-- C27 applies to the strings `March`, `May`, `June` under the descriptor
`0x01000000` (the byte at position 0), a scratch area of six words. -/
theorem C27_collisions_exact_witness :
    ∃ r, collisions_found 0x01000000 3 (["March", "May", "June"].map cstr)
        (List.replicate 6 0) = some r ∧
      (r ≠ 0 ↔ ∃ i j, i < j ∧ j < 3 ∧
        eval_hash_func 0x01000000 ((["March", "May", "June"].map cstr).getD i [])
            (if 0xf4000000 &&& 0x01000000 ≠ 0 then
              ((["March", "May", "June"].map cstr).getD i []).length else 0) =
          eval_hash_func 0x01000000 ((["March", "May", "June"].map cstr).getD j [])
            (if 0xf4000000 &&& 0x01000000 ≠ 0 then
              ((["March", "May", "June"].map cstr).getD j []).length else 0)) ∧
      (3 < 2 → r = 0) :=
  C27_collisions_exact 0x01000000 3 (["March", "May", "June"].map cstr) (List.replicate 6 0)
    (by decide) (by decide) (by decide)

/-- C28. For `2 ≤ n` (and `n` in the range of `int`) the bucket count that
`collisions_found` computes is a power of two with `n < bucket_count ≤ 2 n`,
and `2 n` is the number of slots in the scratch area `create_hash_func` sets
up, which in all holds `128 + 2 n` words. -/
theorem C28_bucket_count (n : Nat) (h2 : 2 ≤ n) (hn : n < 2147483648) :
    ∃ K, bucket_count_loop (n + 1) 1 n = 2 ^ K ∧ n < 2 ^ K ∧ 2 ^ K ≤ 2 * n ∧
      (greedy_start n).slots.length = 2 * n ∧
      2 ^ K ≤ ((greedy_start n).probes ++ (greedy_start n).slots).length := by
  obtain ⟨K, k1, k2, k3, -⟩ := bucket_count_spec n hn (n + 1) 0 (Or.inr rfl)
    (by rw [Nat.zero_add]; exact Nat.lt_of_lt_of_le (Nat.lt_succ_self n) (Nat.lt_two_pow _).le)
  have hK : 2 ^ K ≤ 2 * n := by
    rcases k3 with h | h
    · exact h
    · subst h
      simp at k2
      omega
  have hlen : (greedy_start n).slots.length = 2 * n := by
    simp [greedy_start, store_length]
    omega
  refine ⟨K, k1, k2, hK, hlen, ?_⟩
  rw [List.length_append, hlen]
  omega

/-- C28 applies to `n = 5`: the bucket count is 8. -/
theorem C28_bucket_count_witness :
    2 ≤ 5 ∧ ∃ K, bucket_count_loop (5 + 1) 1 5 = 2 ^ K ∧ 5 < 2 ^ K ∧ 2 ^ K ≤ 2 * 5 ∧
      (greedy_start 5).slots.length = 2 * 5 ∧
      2 ^ K ≤ ((greedy_start 5).probes ++ (greedy_start 5).slots).length :=
  ⟨by decide, C28_bucket_count 5 (by decide) (by decide)⟩

/-! ## The month names and the fallback descriptor -/

theorem months_orders {l : List (List Nat)} (h : l.Perm [march, may, june]) :
    l = [march, may, june] ∨ l = [may, march, june] ∨ l = [june, may, march] ∨
      l = [may, june, march] ∨ l = [june, march, may] ∨ l = [march, june, may] := by
  have hnd : l.Nodup := h.nodup_iff.2 (by decide)
  have hlen := h.length_eq
  match l, hlen with
  | [x, y, z], _ =>
    have hx : x ∈ [march, may, june] := h.subset (by simp)
    have hy : y ∈ [march, may, june] := h.subset (by simp)
    have hz : z ∈ [march, may, june] := h.subset (by simp)
    simp only [List.mem_cons, List.mem_singleton, List.not_mem_nil, or_false] at hx hy hz
    simp only [List.nodup_cons, List.mem_cons, List.mem_singleton, List.not_mem_nil,
      or_false, not_or, List.nodup_nil, and_true, not_false_eq_true] at hnd
    obtain ⟨⟨hxy, hxz⟩, hyz⟩ := hnd
    rcases hx with rfl | rfl | rfl <;> rcases hy with rfl | rfl | rfl <;>
      rcases hz with rfl | rfl | rfl <;> simp_all

set_option maxRecDepth 100000 in
/-- C25. For the strings `March`, `May`, `June` in any order and every random
pool (of 4 bytes or more, or fewer), `create_hash_func` returns the non-zero
descriptor `0x04000000`, and `eval_hash_func` under it sends `March` (length
5), `May` (length 3) and `June` (length 4) to 5, 3 and 4, which are pairwise
distinct. -/
theorem C25_march_may_june (strings : List (List Nat)) (random : List Nat)
    (h : strings.Perm [march, may, june]) :
    ∃ f, create_hash_func 3 strings random = some f ∧ f ≠ 0 ∧
      eval_hash_func f march 5 ≠ eval_hash_func f may 3 ∧
      eval_hash_func f may 3 ≠ eval_hash_func f june 4 ∧
      eval_hash_func f march 5 ≠ eval_hash_func f june 4 ∧
      f = 0x04000000 := by
  have hev : eval_hash_func 0x04000000 march 5 ≠ eval_hash_func 0x04000000 may 3 ∧
      eval_hash_func 0x04000000 may 3 ≠ eval_hash_func 0x04000000 june 4 ∧
      eval_hash_func 0x04000000 march 5 ≠ eval_hash_func 0x04000000 june 4 := by decide
  rcases months_orders h with e | e | e | e | e | e <;> subst e <;>
    exact ⟨0x04000000, by rfl, by decide, hev.1, hev.2.1, hev.2.2, rfl⟩

/-- C25 applies to the order `June`, `March`, `May` with the pool `01 02 03 04`. -/
theorem C25_march_may_june_witness :
    [june, march, may].Perm [march, may, june] ∧
    ∃ f, create_hash_func 3 [june, march, may] [1, 2, 3, 4] = some f ∧ f ≠ 0 ∧
      eval_hash_func f march 5 ≠ eval_hash_func f may 3 ∧
      eval_hash_func f may 3 ≠ eval_hash_func f june 4 ∧
      eval_hash_func f march 5 ≠ eval_hash_func f june 4 ∧
      f = 0x04000000 :=
  ⟨by decide, C25_march_may_june [june, march, may] [1, 2, 3, 4] (by decide)⟩

/-! ## Integers through the wire -/


theorem big_endian_length (k x : Nat) : (big_endian k x).length = k := by
  induction k generalizing x with
  | zero => rfl
  | succ k ih => simp [big_endian, ih]

theorem big_endian_lt (k : Nat) : ∀ (x b : Nat), b ∈ big_endian k x → b < 256 := by
  induction k with
  | zero => intro x b h; simp [big_endian] at h
  | succ k ih =>
    intro x b h
    simp only [big_endian, List.mem_append, List.mem_singleton] at h
    rcases h with h | h
    · exact ih _ _ h
    · omega

theorem be_value_big_endian (k : Nat) : ∀ x : Nat, be_value (big_endian k x) = x % 256 ^ k := by
  induction k with
  | zero => intro x; simp [big_endian, be_value, Nat.mod_one]
  | succ k ih =>
    intro x
    have h := ih (x / 256)
    unfold be_value at h ⊢
    simp only [big_endian, List.foldl_append, List.foldl_cons, List.foldl_nil, h]
    rw [Nat.pow_succ, Nat.mul_comm (256 ^ k) 256, Nat.mod_mul, Nat.add_comm, Nat.mul_comm]

theorem shortest_int_enc (n : Int) (h1 : -9223372036854775808 ≤ n)
    (h2 : n < 18446744073709551616) :
    ∃ e : IntEnc, e.wf ∧ e.bytes = shortest_int n ∧ e.value = n := by
  unfold shortest_int
  have wfk : ∀ (k x : Nat), (k = 1 ∨ k = 2 ∨ k = 4 ∨ k = 8) →
      ((big_endian k x).length = 1 ∨ (big_endian k x).length = 2 ∨
        (big_endian k x).length = 4 ∨ (big_endian k x).length = 8) ∧
      ∀ b ∈ big_endian k x, b < 256 := by
    intro k x hk
    rw [big_endian_length]
    exact ⟨hk, fun b hb => big_endian_lt k x b hb⟩
  split_ifs with a0 a1 a2 a3 a4 b1 b2 b3 b4
  · exact ⟨.pos_fixint n.toNat, by show n.toNat ≤ 0x7f; omega, rfl,
      by show ((n.toNat : Nat) : Int) = n; omega⟩
  · refine ⟨.uint (big_endian 1 n.toNat), wfk 1 _ (by simp), ?_, ?_⟩
    · simp [IntEnc.bytes, big_endian_length, width_code]
    · show ((be_value (big_endian 1 n.toNat) : Nat) : Int) = n
      rw [be_value_big_endian]
      omega
  · refine ⟨.uint (big_endian 2 n.toNat), wfk 2 _ (by simp), ?_, ?_⟩
    · simp [IntEnc.bytes, big_endian_length, width_code]
    · show ((be_value (big_endian 2 n.toNat) : Nat) : Int) = n
      rw [be_value_big_endian]
      omega
  · refine ⟨.uint (big_endian 4 n.toNat), wfk 4 _ (by simp), ?_, ?_⟩
    · simp [IntEnc.bytes, big_endian_length, width_code]
    · show ((be_value (big_endian 4 n.toNat) : Nat) : Int) = n
      rw [be_value_big_endian]
      omega
  · refine ⟨.uint (big_endian 8 n.toNat), wfk 8 _ (by simp), ?_, ?_⟩
    · simp [IntEnc.bytes, big_endian_length, width_code]
    · show ((be_value (big_endian 8 n.toNat) : Nat) : Int) = n
      rw [be_value_big_endian]
      omega
  · exact ⟨.neg_fixint (n + 256).toNat,
      by show 0xe0 ≤ (n + 256).toNat ∧ (n + 256).toNat ≤ 0xff; omega, rfl,
      by show (((n + 256).toNat : Nat) : Int) - 256 = n; omega⟩
  · refine ⟨.int (big_endian 1 (n + 256).toNat), wfk 1 _ (by simp), ?_, ?_⟩
    · simp [IntEnc.bytes, big_endian_length, width_code]
    · simp only [IntEnc.value, big_endian_length, be_value_big_endian]
      norm_num
      split_ifs <;> omega
  · refine ⟨.int (big_endian 2 (n + 65536).toNat), wfk 2 _ (by simp), ?_, ?_⟩
    · simp [IntEnc.bytes, big_endian_length, width_code]
    · simp only [IntEnc.value, big_endian_length, be_value_big_endian]
      norm_num
      split_ifs <;> omega
  · refine ⟨.int (big_endian 4 (n + 4294967296).toNat), wfk 4 _ (by simp), ?_, ?_⟩
    · simp [IntEnc.bytes, big_endian_length, width_code]
    · simp only [IntEnc.value, big_endian_length, be_value_big_endian]
      norm_num
      split_ifs <;> omega
  · refine ⟨.int (big_endian 8 (n + 18446744073709551616).toNat), wfk 8 _ (by simp), ?_, ?_⟩
    · simp [IntEnc.bytes, big_endian_length, width_code]
    · simp only [IntEnc.value, big_endian_length, be_value_big_endian]
      norm_num
      split_ifs <;> omega

theorem parse_single_cursor (f : Nat → Nat) (st : State) (inp : List Nat) (tag : Nat)
    (w : Value) (ht : st.t.length = st.t_capacity) (hv : st.v.length = st.t_capacity)
    (hd : decode_at f inp 0 = .scalar tag (some w) inp.length) (hpos : 0 < inp.length) :
    parse_cursor f st inp = inp.length := by
  obtain ⟨r1, r2, r3, r4, r5, r6, r7, r8, -, -, -, -, -, -, -⟩ :=
    with_room_spec { parse_init st with todo := 0 } ht hv (Nat.zero_le _)
  generalize hc1 : ParseCfg.with_room { parse_init st with todo := 0 } = c1 at r1 r2 r3 r4 r5 r6 r7 r8
  simp only [parse_init] at r4 r5 r6 r7 r8
  have s1 : parse_step f inp (parse_init st) =
      .again { (c1.set_typeid tag).set_value w with
        mi := c1.mi + inp.length, value := c1.value + 1 } := by
    rw [parse_step_eq]
    simp only [parse_init, Nat.one_ne_zero, ↓reduceIte, Nat.sub_self]
    rw [if_neg (by omega)]
    have hd0 : decode_at f inp 0 = .scalar tag (some w) inp.length := hd
    rw [hd0]
    simp only [parse_init] at hc1
    rw [hc1]
    rfl
  have s2 : parse_step f inp { (c1.set_typeid tag).set_value w with
        mi := c1.mi + inp.length, value := c1.value + 1 } =
      .done { (c1.set_typeid tag).set_value w with
        mi := c1.mi + inp.length, value := c1.value + 1, todo := 4294967295 } := by
    rw [parse_step_eq]
    simp only [ParseCfg.set_typeid, ParseCfg.set_value, r8, r7, ↓reduceIte]
  have hexit : parse_exit f st inp =
      some (.done { (c1.set_typeid tag).set_value w with
        mi := c1.mi + inp.length, value := c1.value + 1, todo := 4294967295 }) := by
    unfold parse_exit
    rw [show 2 * inp.length + 2 = (2 * inp.length) + 1 + 1 by omega,
      parse_run_again _ s1, parse_run_exit _ (by rw [s2]; simp), s2]
  unfold parse_cursor
  rw [hexit]
  simp only [r5, Nat.zero_add]

theorem unparse_int_slot (f : Nat → Nat) (mem : Nat → Nat) (st : State) (tag : Nat)
    (w : Value) (hres : st.res.length = st.res_capacity)
    (h0 : st.ot.get? 0 = some tag) (h1 : st.ov.get? 0 = some w)
    (hw : w.xlen < 4294967296 ∧ w.xoff < 4294967296)
    (htag : tag = LongValue ∨ tag = UlongValue) :
    ∃ st2, unparse_msgpack f mem st 1 = some (0, st2) ∧
      st2.res.take st2.res_size =
        shortest_int (if tag = LongValue then w.ival else (w.uval : Int)) := by
  have hu := uval_lt w hw
  have key : ∃ n, (∀ c : UnparseCfg, unparse_switch f mem c tag w =
        some (check_buf (c.emit 0
          (shortest_int (if tag = LongValue then w.ival else (w.uval : Int))) n))) ∧
      (shortest_int (if tag = LongValue then w.ival else (w.uval : Int))).length = n ∧
      n ≤ 10 := by
    rcases htag with e | e <;> subst e
    · rw [if_pos rfl, ival_eq w]
      by_cases hneg : w.uval > 9223372036854775807
      · rw [if_pos hneg]
        obtain ⟨n, -, a2, a3⟩ := negative_bytes ⟨st, 0, 0, 0⟩ w.uval hneg hu
        refine ⟨n, fun c => ?_, a2, a3⟩
        obtain ⟨n2, b1, b2, -⟩ := negative_bytes c w.uval hneg hu
        have : n2 = n := by rw [← b2, a2]
        subst this
        show (if w.uval > 9223372036854775807 then some (unparse_negative c w.uval)
          else some (unparse_unsigned c w.uval)) = _
        rw [if_pos hneg, b1]
      · rw [if_neg hneg]
        obtain ⟨n, -, a2, a3⟩ := unsigned_bytes ⟨st, 0, 0, 0⟩ w.uval
        refine ⟨n, fun c => ?_, a2, a3⟩
        obtain ⟨n2, b1, b2, -⟩ := unsigned_bytes c w.uval
        have : n2 = n := by rw [← b2, a2]
        subst this
        show (if w.uval > 9223372036854775807 then some (unparse_negative c w.uval)
          else some (unparse_unsigned c w.uval)) = _
        rw [if_neg hneg, b1]
    · rw [if_neg (by decide)]
      obtain ⟨n, -, a2, a3⟩ := unsigned_bytes ⟨st, 0, 0, 0⟩ w.uval
      refine ⟨n, fun c => ?_, a2, a3⟩
      obtain ⟨n2, b1, b2, -⟩ := unsigned_bytes c w.uval
      have : n2 = n := by rw [← b2, a2]
      subst this
      show some (unparse_unsigned c w.uval) = _
      rw [b1]
  obtain ⟨n, k1, k2, k3⟩ := key
  exact unparse_single f mem st tag w _ n hres h0 h1 k1 k2 k3

/-- C30. A lone Long slot, or a lone Ulong slot whose value is above
`INT64_MAX`, goes through `unparse_msgpack` and the bytes it leaves go through
`parse_msgpack` (on any state with consistent input arrays): both return 0,
the parse writes exactly one slot, of the same type id and with the same
`ival` (Long) or `uval` (Ulong), and its read cursor ends behind the last of
the bytes. -/
theorem C30_integer_wire (f g : Nat → Nat) (mem : Nat → Nat) (st stp : State) (tag : Nat)
    (w : Value) (mi : Nat) (hres : st.res.length = st.res_capacity)
    (h0 : st.ot.get? 0 = some tag) (h1 : st.ov.get? 0 = some w)
    (hw : w.xlen < 4294967296 ∧ w.xoff < 4294967296)
    (htag : tag = LongValue ∨ (tag = UlongValue ∧ 9223372036854775807 < w.uval))
    (ht : stp.t.length = stp.t_capacity) (hv : stp.v.length = stp.t_capacity) :
    ∃ st2 st3, unparse_msgpack g mem st 1 = some (0, st2) ∧
      parse_msgpack f stp (st2.res.take st2.res_size) mi = some (0, st3) ∧
      parse_nslots f stp (st2.res.take st2.res_size) = 1 ∧
      parse_cursor f stp (st2.res.take st2.res_size) = (st2.res.take st2.res_size).length ∧
      st3.t.getD 0 0 = tag ∧
      (tag = LongValue → (st3.v.getD 0 ⟨0, 0⟩).ival = w.ival) ∧
      (tag = UlongValue → (st3.v.getD 0 ⟨0, 0⟩).uval = w.uval) := by
  have hu := uval_lt w hw
  obtain ⟨st2, u1, u2⟩ := unparse_int_slot g mem st tag w hres h0 h1 hw
    (by rcases htag with e | e; exact Or.inl e; exact Or.inr e.1)
  have hiv := ival_eq w
  have hrange : -9223372036854775808 ≤ (if tag = LongValue then w.ival else (w.uval : Int)) ∧
      (if tag = LongValue then w.ival else (w.uval : Int)) < 18446744073709551616 := by
    split_ifs
    · rw [hiv]; split_ifs <;> omega
    · omega
  obtain ⟨e, we, be, ve⟩ := shortest_int_enc _ hrange.1 hrange.2
  obtain ⟨tag2, w2, hd, hpos, d1, d2⟩ := decode_int_enc f e we
  rw [be, ← u2] at hd hpos
  obtain ⟨st3, p1, p2, p3, p4⟩ :=
    parse_single_scalar f stp (st2.res.take st2.res_size) mi tag2 w2 ht hv hd hpos
  have p5 := parse_single_cursor f stp (st2.res.take st2.res_size) tag2 w2 ht hv hd hpos
  rw [ve] at d1 d2
  rcases htag with e1 | ⟨e1, hbig⟩
  · subst e1
    rw [if_pos rfl] at d1 d2
    have hle : w.ival ≤ 9223372036854775807 := by rw [hiv]; split_ifs <;> omega
    obtain ⟨t1, t2⟩ := d1 hle
    refine ⟨st2, st3, u1, p1, p2, p5, by rw [p3, t1], fun _ => by rw [p4, t2], ?_⟩
    intro hc
    exact absurd hc (by decide)
  · subst e1
    rw [if_neg (by decide)] at d1 d2
    obtain ⟨t1, t2, -⟩ := d2 (by omega)
    refine ⟨st2, st3, u1, p1, p2, p5, by rw [p3, t1], ?_, fun _ => by rw [p4]; exact_mod_cast t2⟩
    intro hc
    exact absurd hc (by decide)

set_option maxRecDepth 100000 in
/-- C30 applies to the slot Long(-100), parsed back on a fresh state: the two
bytes `d0 9c` are written, and reading them back gives one Long slot of value
-100. -/
theorem C30_integer_wire_witness :
    ∃ st2 st3, unparse_msgpack id (fun _ => 0)
        (slot_state [LongValue] [Value.of_ival (-100)]) 1 = some (0, st2) ∧
      parse_msgpack id State.zero (st2.res.take st2.res_size) 0 = some (0, st3) ∧
      parse_nslots id State.zero (st2.res.take st2.res_size) = 1 ∧
      parse_cursor id State.zero (st2.res.take st2.res_size) =
        (st2.res.take st2.res_size).length ∧
      st3.t.getD 0 0 = LongValue ∧ (st3.v.getD 0 ⟨0, 0⟩).ival = -100 := by
  obtain ⟨st2, st3, a1, a2, a3, a4, a5, a6, -⟩ := C30_integer_wire id id (fun _ => 0)
    (slot_state [LongValue] [Value.of_ival (-100)]) State.zero LongValue (Value.of_ival (-100)) 0
    rfl rfl rfl (by decide) (Or.inl rfl) rfl rfl
  refine ⟨st2, st3, a1, a2, a3, a4, a5, ?_⟩
  rw [a6 rfl]
  decide

/-! ## Whole-input consumption -/

theorem decode_head (f : Nat → Nat) (inp : List Nat) (mi : Nat) (hlt : mi < inp.length)
    (hbytes : ∀ b ∈ inp, b < 256) (hs : ¬ slip_opcode (byte_at inp mi)) :
    head_agrees inp mi (decode_at f inp mi) := by
  have h256 : byte_at inp mi ≤ 0xff := by
    have := byte_at_lt inp hbytes mi
    omega
  have h16 : load16 inp (mi + 1) < 65536 := by
    unfold load16
    have a := byte_at_lt inp hbytes (mi + 1)
    have b := byte_at_lt inp hbytes (mi + 1 + 1)
    omega
  unfold decode_at
  simp only [apply_ite (head_agrees inp mi)]
  simp only [head_agrees]
  unfold value_head
  simp only [slip_opcode, short_ext] at hs
  generalize hb : byte_at inp mi = b at hs h256
  repeat' (apply ite_intro <;> intro _)
  all_goals first
    | trivial
    | omega
    | (simp +decide only [*, ↓reduceIte]
       first
         | rfl
         | (rw [if_pos (by omega)]; done)
         | (rw [if_pos (by omega)]
            simp only [Option.some.injEq, Prod.mk.injEq, true_and, and_true]; omega)
         | (intro hfit; rw [if_pos (by omega)]; done)
         | (intro hfit; rw [if_pos (by omega)]
            simp only [Option.some.injEq, Prod.mk.injEq, true_and, and_true]; omega))

theorem stack_get_set_eq (ov : List Value) (i x : Nat) (h : i / 2 < ov.length) :
    stack_get (stack_set ov i x) i = x := by
  unfold stack_get stack_set
  simp only [getD_set_eq _ _ _ _ h]
  split_ifs <;> rfl

theorem stack_get_set_ne (ov : List Value) (i j x : Nat) (h : i ≠ j) :
    stack_get (stack_set ov i x) j = stack_get ov j := by
  unfold stack_get stack_set
  by_cases hq : i / 2 = j / 2
  · by_cases hl : i / 2 < ov.length
    · rw [← hq, getD_set_eq _ _ _ _ hl]
      have hpar : i % 2 ≠ j % 2 := by omega
      split_ifs <;> first | rfl | omega
    · rw [List.set_eq_of_length_le (by omega)]
  · rw [getD_set_ne _ _ _ _ _ hq]

theorem stack_sum_congr (ov ov2 : List Value) : ∀ k : Nat,
    (∀ i, i < k → stack_get ov2 i = stack_get ov i) → stack_sum ov2 k = stack_sum ov k := by
  intro k
  induction k with
  | zero => intro _; rfl
  | succ k ih =>
    intro h
    simp only [stack_sum]
    rw [ih (fun i hi => h i (by omega)), h k (by omega)]

theorem stack_sum_push (ov : List Value) (s x : Nat) (h : s / 2 < ov.length) :
    stack_sum (stack_set ov s x) (s + 1) = stack_sum ov s + x := by
  simp only [stack_sum]
  rw [stack_get_set_eq ov s x h,
    stack_sum_congr ov _ s (fun i hi => stack_get_set_ne ov s i x (by omega))]

theorem stack_get_grow (ov : List Value) (n i : Nat) (hn : ov.length ≤ n)
    (hi : i / 2 < ov.length) :
    stack_get (ov.take n ++ List.replicate (n - ov.length) ⟨0, 0⟩) i = stack_get ov i := by
  unfold stack_get
  rw [getD_grow _ _ _ _ _ hn hi]

theorem with_room_value (c : ParseCfg) : c.with_room.value = c.value := by
  unfold ParseCfg.with_room
  split_ifs with h
  · exact h.symm
  · rfl

theorem parse_step_pop {f : Nat → Nat} {inp : List Nat} {c c2 : ParseCfg}
    (hinv : WalkInv inp c) (h0 : c.todo = 0) (h : parse_step f inp c = .again c2) :
    WalkInv inp c2 ∧ c2.mi = c.mi ∧ c2.value = c.value ∧
      c2.todo + stack_sum c2.st.ov c2.stack = c.todo + stack_sum c.st.ov c.stack := by
  rw [parse_step_eq] at h
  rw [if_pos h0] at h
  split_ifs at h with hs
  simp only [ParseStep.again.injEq] at h
  subst h
  obtain ⟨i1, i2, i3⟩ := hinv
  refine ⟨⟨i1, ?_, i3⟩, rfl, rfl, ?_⟩
  · show c.stack - 1 ≤ 2 * c.st.ot_capacity
    omega
  · show stack_get c.st.ov (c.stack - 1) + stack_sum c.st.ov (c.stack - 1) = _
    obtain ⟨k, hk⟩ : ∃ k, c.stack = k + 1 := ⟨c.stack - 1, by omega⟩
    rw [hk, h0]
    simp only [Nat.add_sub_cancel, stack_sum]
    omega

theorem parse_step_value {f : Nat → Nat} {inp : List Nat} {c c2 : ParseCfg}
    (hinv : WalkInv inp c) (hbytes : ∀ b ∈ inp, b < 256) (h0 : c.todo ≠ 0)
    (hs : ¬ slip_opcode (byte_at inp c.mi)) (h : parse_step f inp c = .again c2) :
    ∃ size kids, value_head inp c.mi = some (size, kids) ∧ 1 ≤ size ∧
      (c2.st.ov.length = c2.st.ot_capacity ∧ c2.stack ≤ 2 * c2.st.ot_capacity ∧
        c2.mi ≤ inp.length) ∧
      c2.mi = c.mi + size ∧ c2.value = c.value + 1 ∧
      c2.todo + stack_sum c2.st.ov c2.stack =
        c.todo + stack_sum c.st.ov c.stack - 1 + kids := by
  rw [parse_step_eq] at h
  rw [if_neg h0] at h
  obtain ⟨i1, i2, i3⟩ := hinv
  split_ifs at h with hm
  have hlt : c.mi < inp.length := by omega
  have hg := decode_at_good f inp c.mi hlt
  have hh := decode_head f inp c.mi hlt hbytes hs
  have wv := with_room_value { c with todo := c.todo - 1 }
  obtain ⟨w1, w2, w3, w4, w5, w6, w7, -, -, -⟩ :=
    with_room_frame { c with todo := c.todo - 1 }
  generalize ParseCfg.with_room { c with todo := c.todo - 1 } = c1 at h wv w1 w2 w3 w4 w5 w6 w7
  simp only at wv w1 w2 w3 w4 w5 w6 w7
  generalize decode_at f inp c.mi = d at h hg hh
  cases d with
  | scalar tag w adv =>
    obtain ⟨g1, g2, -⟩ := hg
    refine ⟨adv, 0, hh, g1, ?_⟩
    cases w <;>
    · simp only [apply_decoded, ParseCfg.next_slot, ParseCfg.set_typeid, ParseCfg.set_value,
        ParseStep.again.injEq] at h
      subst h
      simp only [w1, w3, w4, w5, w6, w7, wv]
      and_intros <;> first | omega | rfl | trivial | assumption
  | xdata tag pre len =>
    obtain ⟨g1, -⟩ := hg
    simp only [apply_decoded, do_xdata, ParseCfg.next_slot, ParseCfg.set_typeid,
      ParseCfg.set_xlen, ParseCfg.set_xoff] at h
    split_ifs at h with hu
    simp only [ParseStep.again.injEq] at h
    subst h
    simp only [w1, w3, w4, w5, w6, w7, wv] at hu ⊢
    refine ⟨pre + len + 1, 0, hh (by omega), by omega, ?_⟩
    and_intros <;> first | omega | rfl | trivial | assumption
  | nested tag adv xlen len =>
    obtain ⟨g1, g2, -⟩ := hg
    refine ⟨adv, len, hh, g1, ?_⟩
    have hnc := next_capacity_ge (c.st.ot_capacity + 1)
    simp only [apply_decoded, setup_nested, ParseCfg.next_slot, ParseCfg.set_typeid,
      ParseCfg.set_xlen, ParseCfg.set_xoff, buf_grow_tv, buf_grow, realloc] at h
    split_ifs at h with hu
    · simp only [ParseStep.again.injEq] at h
      subst h
      simp only [w1, w3, w4, w5, w6, w7, wv] at hu ⊢
      have hlen : (List.take (next_capacity (c.st.ot_capacity + 1)) c.st.ov ++
          List.replicate (next_capacity (c.st.ot_capacity + 1) - c.st.ov.length)
            (⟨0, 0⟩ : Value)).length = next_capacity (c.st.ot_capacity + 1) :=
        length_grow _ _ _ (by omega)
      refine ⟨⟨?_, by omega, by omega⟩, trivial, trivial, ?_⟩
      · simp only [stack_set, List.length_set]
        exact hlen
      · rw [stack_sum_push _ _ _ (by rw [hlen]; omega),
          stack_sum_congr c.st.ov _ _ (fun i hi => stack_get_grow _ _ _ (by omega) (by omega))]
        have hu2 : c.stack = 2 * c.st.ot_capacity := by omega
        rw [hu2]
        omega
    · simp only [ParseStep.again.injEq] at h
      subst h
      simp only [w1, w3, w4, w5, w6, w7, wv] at hu ⊢
      refine ⟨⟨?_, by omega, by omega⟩, trivial, trivial, ?_⟩
      · simp only [stack_set, List.length_set]
        exact i1
      · rw [stack_sum_push _ _ _ (by omega)]
        omega
  | underflow => simp [apply_decoded] at h
  | c1 => simp [apply_decoded] at h

theorem value_walk_step (inp : List Nat) (wf p pending count size kids : Nat)
    (hp : pending ≠ 0) (hs : ¬ slip_opcode (byte_at inp p))
    (hh : value_head inp p = some (size, kids)) :
    value_walk inp (wf + 1) p pending count =
      value_walk inp wf (p + size) (pending - 1 + kids) (count + 1) := by
  simp only [value_walk, hp, hs, hh, ↓reduceIte]

theorem parse_run_walk {f : Nat → Nat} {inp : List Nat} (hbytes : ∀ b ∈ inp, b < 256) :
    ∀ (fuel : Nat) (c c2 : ParseCfg) (wf : Nat), WalkInv inp c →
    parse_run f inp fuel c = some (.done c2) → inp.length - c.mi < wf →
    value_walk inp wf c.mi (c.todo + stack_sum c.st.ov c.stack) c.value = .slip ∨
      value_walk inp wf c.mi (c.todo + stack_sum c.st.ov c.stack) c.value =
        .ok c2.value c2.mi := by
  intro fuel
  induction fuel with
  | zero => intro c c2 wf _ h; simp [parse_run] at h
  | succ k ih =>
    intro c c2 wf hinv h hwf
    obtain ⟨wf2, rfl⟩ : ∃ wf2, wf = wf2 + 1 := ⟨wf - 1, by omega⟩
    by_cases hstep : ∃ c3, parse_step f inp c = .again c3
    · obtain ⟨c3, h3⟩ := hstep
      rw [parse_run_again k h3] at h
      by_cases h0 : c.todo = 0
      · obtain ⟨p1, p2, p3, p4⟩ := parse_step_pop hinv h0 h3
        have := ih c3 c2 (wf2 + 1) p1 h (by rw [p2]; exact hwf)
        rw [p2, p3, p4] at this
        exact this
      · by_cases hs : slip_opcode (byte_at inp c.mi)
        · left
          simp only [value_walk, hs, ↓reduceIte]
          rw [if_neg (by omega)]
        · obtain ⟨size, kids, q1, q2, ⟨q3, q4, q5⟩, q6, q7, q8⟩ :=
            parse_step_value hinv hbytes h0 hs h3
          rw [value_walk_step inp wf2 c.mi _ c.value size kids (by omega) hs q1]
          have := ih c3 c2 wf2 ⟨q3, q4, q5⟩ h (by rw [q6]; omega)
          rw [q6, q7, q8] at this
          exact this
    · rw [parse_run_exit k (fun c3 h3 => hstep ⟨c3, h3⟩)] at h
      obtain ⟨e, e0, es⟩ := parse_step_done (Option.some.inj h)
      subst e
      right
      rw [e0, es]
      simp [value_walk, stack_sum]

/-- C24 (amended). When `parse_msgpack` returns 0 on an input of bytes, the
read cursor ends at an offset `k` of the input that need not be its length;
the bytes before `k` are exactly one complete MsgPack value by the format,
and the number of slots written is the number of values in its tree,
containers and leaves counted once each.  This holds when no value met on
the way begins with one of the opcodes of `slip_opcode`, and for a state
whose `ov` has the size `ot_capacity` records. -/
theorem C24_one_value (f : Nat → Nat) (st st2 : State) (inp : List Nat) (mi : Nat)
    (h : parse_msgpack f st inp mi = some (0, st2))
    (hov : st.ov.length = st.ot_capacity) (hbytes : ∀ b ∈ inp, b < 256)
    (hs : value_walk inp (inp.length + 1) 0 1 0 ≠ .slip) :
    parse_cursor f st inp ≤ inp.length ∧
    value_walk inp (inp.length + 1) 0 1 0 =
      .ok (parse_nslots f st inp) (parse_cursor f st inp) := by
  obtain ⟨c, hc, -⟩ := parse_msgpack_done h
  have hrun : parse_run f inp (2 * inp.length + 2) (parse_init st) = some (.done c) := hc
  obtain ⟨n1, -, -, -⟩ := parse_run_frame _ _ c (Nat.zero_le _) hrun
  have hw := parse_run_walk hbytes _ (parse_init st) c (inp.length + 1)
    ⟨hov, Nat.zero_le _, Nat.zero_le _⟩ hrun (by simp [parse_init])
  simp only [parse_init, stack_sum, Nat.add_zero] at hw
  unfold parse_cursor parse_nslots
  rw [hc]
  rcases hw with hw | hw
  · exact absurd hw hs
  · exact ⟨n1, hw⟩

set_option maxRecDepth 100000 in
/-- C24 (amended) applies to the input `92 01 a1 61 ff`: the array of 1 and
the string `a` takes four bytes and three slots, and the byte `ff` is left. -/
theorem C24_one_value_witness :
    (parse_msgpack id State.zero [0x92, 0x01, 0xa1, 0x61, 0xff] 0).map (fun r => r.1) = some 0 ∧
    parse_cursor id State.zero [0x92, 0x01, 0xa1, 0x61, 0xff] = 4 ∧
    parse_nslots id State.zero [0x92, 0x01, 0xa1, 0x61, 0xff] = 3 ∧
    value_walk [0x92, 0x01, 0xa1, 0x61, 0xff] 6 0 1 0 =
      .ok (parse_nslots id State.zero [0x92, 0x01, 0xa1, 0x61, 0xff])
        (parse_cursor id State.zero [0x92, 0x01, 0xa1, 0x61, 0xff]) :=
  ⟨by rfl, by rfl, by rfl,
    (C24_one_value id State.zero
      ((parse_msgpack id State.zero [0x92, 0x01, 0xa1, 0x61, 0xff] 0).getD (0, State.zero)).2
      [0x92, 0x01, 0xa1, 0x61, 0xff] 0 (by rfl) rfl (by decide) (by decide)).2⟩

set_option maxRecDepth 100000 in
/-- C24 as stated fails on the two-byte input `01 02`: `parse_msgpack` returns
0 with one slot and its cursor at offset 1 of 2; the input is two values, not
one, and the second is never read. -/
theorem C24_trailing_counterexample :
    (parse_msgpack id State.zero [0x01, 0x02] 0).map (fun r => r.1) = some 0 ∧
    parse_cursor id State.zero [0x01, 0x02] = 1 ∧
    ([0x01, 0x02] : List Nat).length = 2 ∧
    parse_nslots id State.zero [0x01, 0x02] = 1 ∧
    value_walk [0x01, 0x02] 3 0 2 0 = .ok 2 2 := by
  refine ⟨by rfl, by rfl, by rfl, by rfl, by decide⟩

/-! ## The layout of the greedy descriptor -/

theorem sort_unfold (fuel a b c d : Nat) :
    sort_sample_pos (fuel + 1) [a, b, c, d] =
      if a > b then (if a > c then sort_sample_pos fuel [b, c, a, d] else some [b, a, c, d])
      else (if b > c then sort_sample_pos fuel [a, c, b, d] else some [a, b, c, d]) := by
  rw [sort_sample_pos]
  by_cases h1 : a > b
  · simp only [List.getD_cons_zero, List.getD_cons_succ, h1, ↓reduceIte, List.set_cons_zero,
      List.set_cons_succ]
  · simp only [List.getD_cons_zero, List.getD_cons_succ, h1, ↓reduceIte, List.set_cons_zero,
      List.set_cons_succ]

theorem sort_sample_pos_spec (a b c d : Nat) :
    sort_sample_pos 4 [a, b, c, d] = some (List.insertionSort (· ≤ ·) [a, b, c] ++ [d]) := by
  simp only [List.insertionSort, List.orderedInsert]
  rw [sort_unfold]
  by_cases hab : a ≤ b <;> by_cases hbc : b ≤ c <;> by_cases hac : a ≤ c
  all_goals
    have h1 : (a > b) = ¬ (a ≤ b) := by simp
    have h2 : (b > c) = ¬ (b ≤ c) := by simp
    have h3 : (a > c) = ¬ (a ≤ c) := by simp
    simp only [h1, h2, h3, hab, hbc, hac, not_true_eq_false, not_false_eq_true, ↓reduceIte,
      List.orderedInsert, List.cons_append, List.nil_append]
  all_goals first
    | rfl
    | omega
    | (rw [sort_unfold]; split_ifs <;> first | rfl | omega | (exfalso; omega))

theorem scan_positions_bound (strings : List (List Nat)) (slots : List Nat)
    (indices n_active : Nat) (max_len : Int) (hml : max_len ≤ 256) :
    ∀ (fuel : Nat) (pos : Int) (probes : List Nat) (gen cm : Nat) (bp : Int) (s : ScanOut),
    scan_positions strings slots indices n_active max_len fuel pos probes gen cm bp = some s →
    bp ≤ 255 → s.best_pos ≤ 255 ∧ s.max_len ≤ 256 := by
  intro fuel
  induction fuel with
  | zero => intro pos probes gen cm bp s h; simp [scan_positions] at h
  | succ k ih =>
    intro pos probes gen cm bp s h hbp
    unfold scan_positions at h
    by_cases hp : pos < max_len
    · rw [if_pos hp] at h
      split at h
      · simp only [Option.some.injEq] at h
        subst h
        exact ⟨hbp, by show pos ≤ 256; omega⟩
      · split_ifs at h
        · exact ih _ _ _ _ _ _ h (by omega)
        · exact ih _ _ _ _ _ _ h hbp
    · rw [if_neg hp] at h
      simp only [Option.some.injEq] at h
      subst h
      exact ⟨hbp, hml⟩

theorem pack_desc (k x y z : Nat) (hk : k ≤ 3) (hx : x < 256) (hy : y < 256) (hz : z < 256) :
    ((k <<< 24) ||| (x <<< 16) ||| (y <<< 8) ||| z) % 4294967296 =
      k * 16777216 + x * 65536 + y * 256 + z := by
  have e1 : 2 ^ 8 * y ||| z = 2 ^ 8 * y + z :=
    (Nat.mul_add_lt_is_or (show z < 2 ^ 8 by omega) y).symm
  have e2 : 2 ^ 16 * x ||| (2 ^ 8 * y + z) = 2 ^ 16 * x + (2 ^ 8 * y + z) :=
    (Nat.mul_add_lt_is_or (show 2 ^ 8 * y + z < 2 ^ 16 by omega) x).symm
  have e3 : 2 ^ 24 * k ||| (2 ^ 16 * x + (2 ^ 8 * y + z)) =
      2 ^ 24 * k + (2 ^ 16 * x + (2 ^ 8 * y + z)) :=
    (Nat.mul_add_lt_is_or (show 2 ^ 16 * x + (2 ^ 8 * y + z) < 2 ^ 24 by omega) k).symm
  simp only [Nat.shiftLeft_eq]
  rw [Nat.lor_assoc, Nat.lor_assoc, Nat.mul_comm k, Nat.mul_comm x, Nat.mul_comm y, e1, e2, e3]
  omega

theorem or_bit26 (x : Nat) (h : x < 67108864) : x ||| 0x04000000 = x + 67108864 := by
  have := Nat.mul_add_lt_is_or (show x < 2 ^ 26 by omega) 1
  rw [Nat.lor_comm]
  rw [show (0x04000000 : Nat) = 2 ^ 26 * 1 by decide, ← this]
  omega

theorem or_bit27 (x : Nat) (h : x < 134217728) : x ||| 0x08000000 = x + 134217728 := by
  have := Nat.mul_add_lt_is_or (show x < 2 ^ 27 by omega) 1
  rw [Nat.lor_comm]
  rw [show (0x08000000 : Nat) = 2 ^ 27 * 1 by decide, ← this]
  omega

theorem and_255 (x : Nat) : x &&& 255 = x % 256 :=
  Nat.and_pow_two_sub_one_eq_mod x 8


theorem layout_bytes (a b c d k : Nat) (hk : k ≤ 3)
    (lo : ∀ i, i < k → [a, b, c, d].getD i 0 < 256)
    (hi : ∀ i, k ≤ i → i < 4 → [a, b, c, d].getD i 0 = 256) :
    ∃ x y z, List.insertionSort (· ≤ ·) [a, b, c] = [x, y, z] ∧
      x ≤ 256 ∧ y ≤ 256 ∧ z ≤ 256 ∧
      [x % 256, y % 256, z % 256] =
        List.insertionSort (· ≤ ·) ([a, b, c, d].take k) ++ List.replicate (3 - k) 0 := by
  have a1 := lo 0
  have a2 := hi 0
  have b1 := lo 1
  have b2 := hi 1
  have c1 := lo 2
  have c2 := hi 2
  simp only [List.getD_cons_zero, List.getD_cons_succ] at a1 a2 b1 b2 c1 c2
  have ha : a ≤ 256 := by
    by_cases h : 0 < k
    · have := a1 h; omega
    · have := a2 (by omega) (by omega); omega
  have hb : b ≤ 256 := by
    by_cases h : 1 < k
    · have := b1 h; omega
    · have := b2 (by omega) (by omega); omega
  have hc : c ≤ 256 := by
    by_cases h : 2 < k
    · have := c1 h; omega
    · have := c2 (by omega) (by omega); omega
  interval_cases k
  · have e1 := a2 (by omega) (by omega)
    have e2 := b2 (by omega) (by omega)
    have e3 := c2 (by omega) (by omega)
    subst e1 e2 e3
    exact ⟨256, 256, 256, by decide, by omega, by omega, by omega, by rfl⟩
  · have e2 := b2 (by omega) (by omega)
    have e3 := c2 (by omega) (by omega)
    have e1 := a1 (by omega)
    subst e2 e3
    refine ⟨a, 256, 256, ?_, by omega, by omega, by omega, ?_⟩
    · simp [List.insertionSort, List.orderedInsert, ha]
    · simp [List.insertionSort, List.orderedInsert]
      omega
  · have e3 := c2 (by omega) (by omega)
    have e1 := a1 (by omega)
    have e2 := b1 (by omega)
    subst e3
    by_cases hab : a ≤ b
    · refine ⟨a, b, 256, ?_, by omega, by omega, by omega, ?_⟩
      · simp [List.insertionSort, List.orderedInsert, hab, hb]
      · simp [List.insertionSort, List.orderedInsert, hab]
        omega
    · refine ⟨b, a, 256, ?_, by omega, by omega, by omega, ?_⟩
      · simp [List.insertionSort, List.orderedInsert, hab, hb, ha]
      · simp [List.insertionSort, List.orderedInsert, hab]
        omega
  · have e1 := a1 (by omega)
    have e2 := b1 (by omega)
    have e3 := c1 (by omega)
    have hx : ∀ v ∈ List.insertionSort (· ≤ ·) [a, b, c], v < 256 := by
      intro v hv
      have := (List.perm_insertionSort (· ≤ ·) [a, b, c]).subset hv
      simp only [List.mem_cons, List.mem_singleton, List.not_mem_nil, or_false] at this
      omega
    have hl := List.length_insertionSort (· ≤ ·) [a, b, c]
    match hs : List.insertionSort (· ≤ ·) [a, b, c], hl with
    | [x, y, z], _ =>
      rw [hs] at hx
      have h1 := hx x (by simp)
      have h2 := hx y (by simp)
      have h3 := hx z (by simp)
      refine ⟨x, y, z, rfl, by omega, by omega, by omega, ?_⟩
      simp only [List.take, Nat.sub_self, List.replicate, List.append_nil]
      rw [Nat.mod_eq_of_lt h1, Nat.mod_eq_of_lt h2, Nat.mod_eq_of_lt h3]

theorem save_best_pos_inv (n : Nat) (c : HashCfg) (s : ScanOut) (hinv : PosInv n c)
    (hcnt : c.sample_count ≤ 3) (hbp : s.best_pos ≤ 255) (hml : s.max_len ≤ 256) :
    PosInv n (if s.best_pos = -1 then
        ({ c with probes := s.probes, max_len := s.max_len, use_len := 1 } : HashCfg)
      else { c with probes := s.probes, max_len := s.max_len,
                    sample_pos := c.sample_pos.set c.sample_count s.best_pos.toNat,
                    sample_count := c.sample_count + 1 }) := by
  obtain ⟨i1, i2, i3, i4, i5⟩ := hinv
  split_ifs with h
  · exact ⟨i1, i2, i3, hml, i5⟩
  · refine ⟨by simpa using i1, ?_, ?_, hml, i5⟩
    · intro i hi
      show (c.sample_pos.set c.sample_count s.best_pos.toNat).getD i 0 < 256
      by_cases he : i = c.sample_count
      · subst he
        rw [getD_set_eq _ _ _ _ (by omega)]
        omega
      · rw [getD_set_ne _ _ _ _ _ (fun h => he h.symm)]
        exact i2 i (by
          have : i < c.sample_count + 1 := hi
          omega)
    · intro i hi h4
      show (c.sample_pos.set c.sample_count s.best_pos.toNat).getD i 0 = 256
      have : c.sample_count + 1 ≤ i := hi
      rw [getD_set_ne _ _ _ _ _ (by omega)]
      exact i3 i (by omega) h4

theorem greedy_exit_spec (n : Nat) (strings : List (List Nat)) (random : List Nat) :
    ∀ (fuel : Nat) (c cf : HashCfg), PosInv n c → c.sample_count ≤ 3 →
    greedy_exit n strings fuel c = some (some cf) →
    pick_next_sample n strings random fuel c = encode_func n strings cf ∧ PosInv n cf := by
  intro fuel
  induction fuel with
  | zero => intro c cf _ _ h; simp [greedy_exit] at h
  | succ k ih =>
    intro c cf hinv hcnt h
    unfold greedy_exit at h
    unfold pick_next_sample
    cases e : scan_positions strings c.slots c.indices c.n_active c.max_len 258
        ((c.use_len : Int) - 1) c.probes 1 (c.n_active + 1) 0 with
    | none => rw [e] at h; simp at h
    | some s =>
      rw [e] at h
      simp only at h ⊢
      obtain ⟨hbp, hml⟩ := scan_positions_bound strings c.slots c.indices c.n_active c.max_len
        hinv.ml _ _ _ _ _ _ s e (by omega)
      have hinv2 := save_best_pos_inv n c s hinv hcnt hbp hml
      have hc4 : (if s.best_pos = -1 then
            ({ c with probes := s.probes, max_len := s.max_len, use_len := 1 } : HashCfg)
          else { c with probes := s.probes, max_len := s.max_len,
                        sample_pos := c.sample_pos.set c.sample_count s.best_pos.toNat,
                        sample_count := c.sample_count + 1 }).sample_count ≤ 4 := by
        split_ifs
        · exact Nat.le_trans hcnt (by omega)
        · show c.sample_count + 1 ≤ 4
          omega
      generalize (if s.best_pos = -1 then
            ({ c with probes := s.probes, max_len := s.max_len, use_len := 1 } : HashCfg)
          else { c with probes := s.probes, max_len := s.max_len,
                        sample_pos := c.sample_pos.set c.sample_count s.best_pos.toNat,
                        sample_count := c.sample_count + 1 }) = c2 at h hinv2 hc4 ⊢
      by_cases h0 : s.collisions_min = 0
      · rw [if_pos h0] at h
        rw [if_pos h0]
        simp only [Option.some.injEq] at h
        subst h
        exact ⟨rfl, hinv2⟩
      · rw [if_neg h0] at h
        rw [if_neg h0]
        by_cases h4 : c2.sample_count = 4
        · rw [if_pos h4] at h
          simp at h
        · rw [if_neg h4] at h
          rw [if_neg h4]
          cases e2 : rebuild_domains strings s.best_pos c2.indices
              (if c2.indices = 0 then c2.n_active else 0) c2.n_active (c2.n_active + 1) 0
              c2.slots (List.replicate 128 0) 0 with
          | none => rw [e2] at h; simp at h
          | some r =>
            obtain ⟨slots, probes, o⟩ := r
            rw [e2] at h
            simp only at h ⊢
            have hl := rebuild_domains_length strings s.best_pos _ _ _ _ _ _ _ _ _ e2
            simp only at hl
            exact ih _ cf ⟨hinv2.sp_len, hinv2.lo, hinv2.hi, hinv2.ml, by
              show slots.length = 2 * n
              rw [hl]; exact hinv2.sl⟩
              (by show c2.sample_count ≤ 3; omega) h

theorem greedy_start_inv (n : Nat) : PosInv n (greedy_start n) := by
  refine ⟨rfl, ?_, ?_, by show (256 : Int) ≤ 256; omega, ?_⟩
  · intro i hi
    exact absurd hi (Nat.not_lt_zero i)
  · intro i _ h4
    show ([256, 256, 256, 256] : List Nat).getD i 0 = 256
    interval_cases i <;> rfl
  · rw [greedy_start_length]
    omega

theorem encode_func_layout (n : Nat) (strings : List (List Nat)) (c : HashCfg)
    (hn : n < 2147483648) (hs : ∀ s ∈ strings, ∀ b ∈ s, b < 256)
    (hinv : PosInv n c) (hk : c.sample_count ≤ 3) :
    ∃ f flag, encode_func n strings c = some f ∧ flag ≤ 1 ∧
      f = c.sample_count * 16777216 + (if c.use_len ≠ 0 then 67108864 else 0) +
        flag * 134217728 + f % 16777216 ∧
      [f / 65536 % 256, f / 256 % 256, f % 256] =
        List.insertionSort (· ≤ ·) (c.sample_pos.take c.sample_count) ++
          List.replicate (3 - c.sample_count) 0 := by
  obtain ⟨i1, i2, i3, i4, i5⟩ := hinv
  match hsp : c.sample_pos, i1 with
  | [a, b, c0, d], _ =>
    rw [hsp] at i2 i3
    obtain ⟨x, y, z, hsort, hx, hy, hz, hbytes⟩ := layout_bytes a b c0 d c.sample_count hk i2 i3
    unfold encode_func
    rw [hsp, sort_sample_pos_spec, hsort]
    simp only [List.cons_append, List.nil_append, List.getD_cons_zero, List.getD_cons_succ,
      and_255]
    rw [pack_desc c.sample_count _ _ _ hk (Nat.mod_lt _ (by omega)) (Nat.mod_lt _ (by omega))
      (Nat.mod_lt _ (by omega))]
    have hx2 := Nat.mod_lt x (show 256 > 0 by omega)
    have hy2 := Nat.mod_lt y (show 256 > 0 by omega)
    have hz2 := Nat.mod_lt z (show 256 > 0 by omega)
    generalize x % 256 = x2 at hbytes hx2 ⊢
    generalize y % 256 = y2 at hbytes hy2 ⊢
    generalize z % 256 = z2 at hbytes hz2 ⊢
    rw [← hbytes]
    have hfun : (if c.use_len ≠ 0 then
          (c.sample_count * 16777216 + x2 * 65536 + y2 * 256 + z2) ||| 0x04000000
        else c.sample_count * 16777216 + x2 * 65536 + y2 * 256 + z2) =
        c.sample_count * 16777216 + x2 * 65536 + y2 * 256 + z2 +
          (if c.use_len ≠ 0 then 67108864 else 0) := by
      split_ifs
      · exact or_bit26 _ (by omega)
      · exact (Nat.add_zero _).symm
    rw [hfun]
    generalize hu : (if c.use_len ≠ 0 then 67108864 else 0) = u
    have hu2 : u = 0 ∨ u = 67108864 := by
      rw [← hu]; split_ifs
      · exact Or.inr rfl
      · exact Or.inl rfl
    obtain ⟨r, hr, -, hr01⟩ := collisions_found_spec
      (c.sample_count * 16777216 + x2 * 65536 + y2 * 256 + z2 + u) n strings
      (c.probes ++ c.slots) hn (by rw [List.length_append, i5]; omega)
      (hash_of_lt _ strings hs)
    rw [hr]
    simp only
    rcases hr01 with e | e
    · subst e
      refine ⟨_, 0, rfl, by omega, ?_, ?_⟩
      · simp only [ne_eq, not_true_eq_false, ↓reduceIte]
        omega
      · simp only [ne_eq, not_true_eq_false, ↓reduceIte, List.cons.injEq, and_true]
        omega
    · subst e
      refine ⟨_, 1, rfl, by omega, ?_, ?_⟩
      · simp only [ne_eq, one_ne_zero, not_false_eq_true, ↓reduceIte]
        rw [or_bit27 _ (by omega)]
        omega
      · simp only [ne_eq, one_ne_zero, not_false_eq_true, ↓reduceIte, List.cons.injEq, and_true]
        rw [or_bit27 _ (by omega)]
        omega


/-- C21 (amended). When the greedy search of `create_hash_func` finds a
solution with at most three sampled positions (locals `cf` after
`save_best_pos` in that pass), the descriptor returned has the family byte in
bits 24..27, with the number of sampled positions in bits 24..25 and bit 26
set exactly when the length is used, and its three position bytes, from the
high byte (bits 16..23) down, are the sampled positions in ascending order
followed by the byte 0 in every unused position byte. -/
theorem C21_descriptor_layout (n : Nat) (strings : List (List Nat)) (random : List Nat)
    (cf : HashCfg) (h0 : n ≠ 0) (h1 : n ≤ 1000) (hs : ∀ s ∈ strings, ∀ b ∈ s, b < 256)
    (hg : greedy_exit n strings 6 (greedy_start n) = some (some cf))
    (hk : cf.sample_count ≤ 3) :
    ∃ f, create_hash_func n strings random = some f ∧ f < 268435456 ∧
      f / 16777216 % 4 = cf.sample_count ∧
      (f / 67108864 % 2 = 1 ↔ cf.use_len ≠ 0) ∧
      [f / 65536 % 256, f / 256 % 256, f % 256] =
        List.insertionSort (· ≤ ·) (cf.sample_pos.take cf.sample_count) ++
          List.replicate (3 - cf.sample_count) 0 := by
  obtain ⟨p1, p2⟩ := greedy_exit_spec n strings random 6 (greedy_start n) cf
    (greedy_start_inv n) (Nat.zero_le 3) hg
  obtain ⟨f, flag, e1, e2, e3, e4⟩ := encode_func_layout n strings cf (by omega) hs p2 hk
  rw [create_hash_func_greedy n strings random h0 h1, p1]
  refine ⟨f, e1, ?_, ?_, ?_, e4⟩
  · split_ifs at e3 <;> omega
  · split_ifs at e3 <;> omega
  · split_ifs at e3 with hu
    · exact ⟨fun _ => hu, fun _ => by omega⟩
    · exact ⟨fun h => by omega, fun h => absurd h hu⟩

set_option maxRecDepth 1000000 in
/-- C21 (amended) applies to the strings `aax`, `aay`, `aaz`, `abx`: the search
samples position 2, then position 1, and the descriptor carries the count 2
and the position bytes 1, 2, 0. -/
theorem C21_descriptor_layout_witness :
    ∃ f, create_hash_func 4 (["aax", "aay", "aaz", "abx"].map cstr) [] = some f ∧
      f / 16777216 % 4 = 2 ∧
      [f / 65536 % 256, f / 256 % 256, f % 256] = [1, 2, 0] := by
  obtain ⟨f, a1, -, a3, -, a5⟩ := C21_descriptor_layout 4
    (["aax", "aay", "aaz", "abx"].map cstr) []
    (Option.getD (Option.getD
      (greedy_exit 4 (["aax", "aay", "aaz", "abx"].map cstr) 6 (greedy_start 4)) none)
      (greedy_start 0))
    (by decide) (by decide) (by decide) (by rfl) (by decide)
  refine ⟨f, a1, ?_, ?_⟩
  · rw [a3]; rfl
  · rw [a5]; rfl

set_option maxRecDepth 1000000 in
/-- C21 as stated fails on the strings `March`, `May`, `June`: the greedy
search finds its solution with the length alone, no position sampled, and the
descriptor `0x04000000` it returns has family byte 4 and the byte 0, not
`0xff`, in all three unused position bytes. -/
theorem C21_unused_counterexample :
    create_hash_func 3 [march, may, june] [] = some 0x04000000 ∧
    (greedy_exit 3 [march, may, june] 6 (greedy_start 3)).map
      (fun o => o.map (fun c => (c.sample_count, c.use_len))) = some (some (0, 1)) ∧
    0x04000000 / 16777216 = 4 ∧
    [0x04000000 / 65536 % 256, 0x04000000 / 256 % 256, 0x04000000 % 256] = [0, 0, 0] := by
  refine ⟨by rfl, by rfl, by decide, by decide⟩

/-! ## Sampled positions and the strings -/

theorem char_at_ne_zero (str : List Nat) (i : Nat) (h : char_at str i ≠ 0) : i < str.length := by
  by_contra hge
  apply h
  unfold char_at
  rw [List.getD_eq_getElem?_getD, List.getElem?_eq_none (by omega)]
  rfl

theorem scan_strings_some (strings : List (List Nat)) (slots : List Nat) (indices : Nat)
    (pos : Int) :
    ∀ (k i : Nat) (probes : List Nat) (gen col : Nat) (p2 : List Nat) (g : Nat × Nat),
    scan_strings strings slots indices pos k i probes gen col = (p2, some g) →
    ∀ j, i ≤ j → j < i + k →
      ¬ (pos ≠ -1 ∧
        char_at (strings.getD (slots.getD (indices + j) 0 &&& IDX_MASK) []) pos.toNat = 0) := by
  intro k
  induction k with
  | zero => intro i probes gen col p2 g _ j h1 h2; omega
  | succ k ih =>
    intro i probes gen col p2 g h j h1 h2
    unfold scan_strings at h
    simp only at h
    split_ifs at h with hz
    · simp at h
    · by_cases hj : j = i
      · subst hj; exact hz
      · exact ih _ _ _ _ _ _ h j (by omega) (by omega)
    · by_cases hj : j = i
      · subst hj; exact hz
      · exact ih _ _ _ _ _ _ h j (by omega) (by omega)

theorem scan_positions_inside (n : Nat) (strings : List (List Nat)) (slots : List Nat)
    (indices : Nat) (max_len : Int)
    (hcover : ∀ j, j < n → slots.getD (indices + j) 0 &&& IDX_MASK = j) :
    ∀ (fuel : Nat) (pos : Int) (probes : List Nat) (gen cm : Nat) (bp : Int) (s : ScanOut),
    scan_positions strings slots indices n max_len fuel pos probes gen cm bp = some s →
    -1 ≤ pos → (∀ t, t < n → pos ≤ ((strings.getD t []).length : Int)) →
    ∀ t, t < n → s.max_len ≤ ((strings.getD t []).length : Int) := by
  intro fuel
  induction fuel with
  | zero => intro pos probes gen cm bp s h; simp [scan_positions] at h
  | succ k ih =>
    intro pos probes gen cm bp s h hpos hH
    unfold scan_positions at h
    by_cases hp : pos < max_len
    · rw [if_pos hp] at h
      cases e : scan_strings strings slots indices pos n 0 probes gen 0 with
      | mk p2 o =>
        rw [e] at h
        cases o with
        | none =>
          simp only [Option.some.injEq] at h
          subst h
          exact hH
        | some g =>
          have hall := scan_strings_some strings slots indices pos n 0 probes gen 0 p2 g e
          have hnext : ∀ t, t < n → pos + 1 ≤ ((strings.getD t []).length : Int) := by
            intro t ht
            have h1 := hall t (Nat.zero_le _) (by omega)
            rw [hcover t ht] at h1
            by_cases hm : pos = -1
            · subst hm; omega
            · have h2 : char_at (strings.getD t []) pos.toNat ≠ 0 := fun h0 => h1 ⟨hm, h0⟩
              have h3 := char_at_ne_zero _ _ h2
              omega
          simp only at h
          split_ifs at h
          · exact ih _ _ _ _ _ _ h (by omega) hnext
          · exact ih _ _ _ _ _ _ h (by omega) hnext
    · rw [if_neg hp] at h
      simp only [Option.some.injEq] at h
      subst h
      intro t ht
      have := hH t ht
      show max_len ≤ _
      omega

theorem scan_positions_best (strings : List (List Nat)) (slots : List Nat)
    (indices n_active : Nat) (max_len : Int) :
    ∀ (fuel : Nat) (pos : Int) (probes : List Nat) (gen cm : Nat) (bp : Int) (s : ScanOut),
    scan_positions strings slots indices n_active max_len fuel pos probes gen cm bp = some s →
    (bp = 0 ∨ (bp < pos ∧ bp < max_len)) →
    s.max_len ≤ max_len ∧ (s.best_pos = 0 ∨ s.best_pos < s.max_len) := by
  intro fuel
  induction fuel with
  | zero => intro pos probes gen cm bp s h; simp [scan_positions] at h
  | succ k ih =>
    intro pos probes gen cm bp s h hbp
    unfold scan_positions at h
    by_cases hp : pos < max_len
    · rw [if_pos hp] at h
      split at h
      · simp only [Option.some.injEq] at h
        subst h
        refine ⟨by show pos ≤ max_len; omega, ?_⟩
        show bp = 0 ∨ bp < pos
        omega
      · split_ifs at h
        · exact ih _ _ _ _ _ _ h (Or.inr ⟨by omega, hp⟩)
        · exact ih _ _ _ _ _ _ h (by omega)
    · rw [if_neg hp] at h
      simp only [Option.some.injEq] at h
      subst h
      refine ⟨by show max_len ≤ max_len; omega, ?_⟩
      show bp = 0 ∨ bp < max_len
      omega

theorem getD_store (bs : List Nat) : ∀ (buf : List Nat) (out i : Nat),
    out + bs.length ≤ buf.length →
    (store buf out bs).getD i 0 =
      if out ≤ i ∧ i < out + bs.length then bs.getD (i - out) 0 else buf.getD i 0 := by
  induction bs with
  | nil =>
    intro buf out i _
    simp only [store, List.length_nil, Nat.add_zero]
    rw [if_neg (by omega)]
  | cons b bs ih =>
    intro buf out i h
    simp only [List.length_cons] at h
    simp only [store, List.length_cons]
    rw [ih _ _ _ (by simp only [List.length_set]; omega)]
    by_cases h1 : out + 1 ≤ i ∧ i < out + 1 + bs.length
    · rw [if_pos h1, if_pos (by omega)]
      obtain ⟨k, hk⟩ : ∃ k, i - out = k + 1 := ⟨i - out - 1, by omega⟩
      rw [hk, List.getD_cons_succ, show i - (out + 1) = k by omega]
    · rw [if_neg h1]
      by_cases h2 : i = out
      · subst h2
        rw [if_pos (by omega), getD_set_eq _ _ _ _ (by omega), Nat.sub_self, List.getD_cons_zero]
      · rw [if_neg (by omega), getD_set_ne _ _ _ _ _ (fun h => h2 h.symm)]

theorem end_bit_mask (x : Nat) (h : x < 2147483648) : (DOMAIN_END_BIT ||| x) &&& IDX_MASK = x := by
  have h1 : (DOMAIN_END_BIT ||| x) = 2 ^ 31 * 1 + x := by
    rw [Nat.mul_add_lt_is_or (show x < 2 ^ 31 by omega) 1]
  have h2 : IDX_MASK = 2 ^ 31 - 1 := by decide
  rw [h1, h2, Nat.and_pow_two_sub_one_eq_mod]
  omega

theorem idx_mask_small (x : Nat) (h : x < 2147483648) : x &&& IDX_MASK = x := by
  have h2 : IDX_MASK = 2 ^ 31 - 1 := by decide
  rw [h2, Nat.and_pow_two_sub_one_eq_mod]
  omega

theorem greedy_start_inside (n : Nat) (strings : List (List Nat)) (hn : n ≤ 1000) :
    InsideInv n strings (greedy_start n) := by
  refine ⟨fun i hi => absurd hi (Nat.not_lt_zero i), Or.inr ⟨rfl, Nat.zero_le 1, ?_⟩⟩
  intro j hj
  show ((store (List.replicate (n * 2) 0) 0 (List.range n)).set (n - 1)
    (DOMAIN_END_BIT ||| (n - 1))).getD (0 + j) 0 &&& IDX_MASK = j
  rw [Nat.zero_add]
  by_cases he : j = n - 1
  · rw [he, getD_set_eq _ _ _ _ (by simp [store_length]; omega)]
    exact end_bit_mask _ (by omega)
  · rw [getD_set_ne _ _ _ _ _ (fun h => he h.symm),
      getD_store _ _ _ _ (by simp; omega), if_pos (by simp; omega)]
    simp only [Nat.sub_zero]
    rw [List.getD_eq_getElem?_getD, List.getElem?_range hj]
    exact idx_mask_small _ (by simp; omega)

theorem greedy_exit_inside (n : Nat) (strings : List (List Nat)) :
    ∀ (fuel : Nat) (c cf : HashCfg), InsideInv n strings c → PosInv n c → c.sample_count ≤ 3 →
    greedy_exit n strings fuel c = some (some cf) → InsideInv n strings cf := by
  intro fuel
  induction fuel with
  | zero => intro c cf _ _ _ h; simp [greedy_exit] at h
  | succ k ih =>
    intro c cf hins hinv hcnt h
    unfold greedy_exit at h
    cases e : scan_positions strings c.slots c.indices c.n_active c.max_len 258
        ((c.use_len : Int) - 1) c.probes 1 (c.n_active + 1) 0 with
    | none => rw [e] at h; simp at h
    | some s =>
      rw [e] at h
      simp only at h
      obtain ⟨hbp, hml⟩ := scan_positions_bound strings c.slots c.indices c.n_active c.max_len
        hinv.ml _ _ _ _ _ _ s e (by omega)
      obtain ⟨hmono, hbest⟩ := scan_positions_best strings c.slots c.indices c.n_active
        c.max_len _ _ _ _ _ _ s e (Or.inl rfl)
      have hQ : ∀ t, t < n → s.max_len ≤ ((strings.getD t []).length : Int) := by
        rcases hins.len_or with hq | ⟨ha, hu, hcov⟩
        · intro t ht
          have := hq t ht
          omega
        · rw [ha] at e
          exact scan_positions_inside n strings c.slots c.indices c.max_len hcov _ _ _ _ _ _ s e
            (by omega) (fun t _ => by omega)
      have hinv2 := save_best_pos_inv n c s hinv hcnt hbp hml
      have hins2 : InsideInv n strings (if s.best_pos = -1 then
            ({ c with probes := s.probes, max_len := s.max_len, use_len := 1 } : HashCfg)
          else { c with probes := s.probes, max_len := s.max_len,
                        sample_pos := c.sample_pos.set c.sample_count s.best_pos.toNat,
                        sample_count := c.sample_count + 1 }) := by
        split_ifs with hb
        · exact ⟨hins.pos_le, Or.inl hQ⟩
        · refine ⟨?_, Or.inl hQ⟩
          intro i hi t ht
          show (c.sample_pos.set c.sample_count s.best_pos.toNat).getD i 0 ≤ _
          by_cases he : i = c.sample_count
          · subst he
            rw [getD_set_eq _ _ _ _ (by rw [hinv.sp_len]; omega)]
            have := hQ t ht
            omega
          · rw [getD_set_ne _ _ _ _ _ (fun h => he h.symm)]
            exact hins.pos_le i (by
              have : i < c.sample_count + 1 := hi
              omega) t ht
      have hc4 : (if s.best_pos = -1 then
            ({ c with probes := s.probes, max_len := s.max_len, use_len := 1 } : HashCfg)
          else { c with probes := s.probes, max_len := s.max_len,
                        sample_pos := c.sample_pos.set c.sample_count s.best_pos.toNat,
                        sample_count := c.sample_count + 1 }).sample_count ≤ 4 := by
        split_ifs
        · exact Nat.le_trans hcnt (by omega)
        · show c.sample_count + 1 ≤ 4
          omega
      have hmax : (if s.best_pos = -1 then
            ({ c with probes := s.probes, max_len := s.max_len, use_len := 1 } : HashCfg)
          else { c with probes := s.probes, max_len := s.max_len,
                        sample_pos := c.sample_pos.set c.sample_count s.best_pos.toNat,
                        sample_count := c.sample_count + 1 }).max_len = s.max_len := by
        split_ifs <;> rfl
      generalize (if s.best_pos = -1 then
            ({ c with probes := s.probes, max_len := s.max_len, use_len := 1 } : HashCfg)
          else { c with probes := s.probes, max_len := s.max_len,
                        sample_pos := c.sample_pos.set c.sample_count s.best_pos.toNat,
                        sample_count := c.sample_count + 1 }) = c2 at h hinv2 hins2 hc4 hmax
      by_cases h0 : s.collisions_min = 0
      · rw [if_pos h0] at h
        simp only [Option.some.injEq] at h
        subst h
        exact hins2
      · rw [if_neg h0] at h
        by_cases h4 : c2.sample_count = 4
        · rw [if_pos h4] at h
          simp at h
        · rw [if_neg h4] at h
          cases e2 : rebuild_domains strings s.best_pos c2.indices
              (if c2.indices = 0 then c2.n_active else 0) c2.n_active (c2.n_active + 1) 0
              c2.slots (List.replicate 128 0) 0 with
          | none => rw [e2] at h; simp at h
          | some r =>
            obtain ⟨slots, probes, o⟩ := r
            rw [e2] at h
            simp only at h
            have hl := rebuild_domains_length strings s.best_pos _ _ _ _ _ _ _ _ _ e2
            simp only at hl
            refine ih _ cf ?_ ?_ ?_ h
            · refine ⟨hins2.pos_le, Or.inl ?_⟩
              intro t ht
              show c2.max_len ≤ _
              rw [hmax]
              exact hQ t ht
            · refine ⟨hinv2.sp_len, hinv2.lo, hinv2.hi, hinv2.ml, ?_⟩
              show slots.length = 2 * n
              rw [hl]
              exact hinv2.sl
            · show c2.sample_count ≤ 3
              omega

/-- The positions that the greedy search of `create_hash_func` encodes lie
inside every string of the set: when the search finds a solution with at most
three sampled positions, every position byte of the descriptor returned is at
most the length of every string, so `eval_hash_func` reads no further than
the terminator. -/
theorem greedy_positions_inside (n : Nat) (strings : List (List Nat)) (random : List Nat)
    (cf : HashCfg) (h0 : n ≠ 0) (h1 : n ≤ 1000) (hs : ∀ s ∈ strings, ∀ b ∈ s, b < 256)
    (hg : greedy_exit n strings 6 (greedy_start n) = some (some cf))
    (hk : cf.sample_count ≤ 3) :
    ∃ f, create_hash_func n strings random = some f ∧
      ∀ p ∈ [f / 65536 % 256, f / 256 % 256, f % 256], ∀ t, t < n →
        p ≤ (strings.getD t []).length := by
  obtain ⟨p1, p2⟩ := greedy_exit_spec n strings random 6 (greedy_start n) cf
    (greedy_start_inv n) (Nat.zero_le 3) hg
  have hins := greedy_exit_inside n strings 6 (greedy_start n) cf
    (greedy_start_inside n strings h1) (greedy_start_inv n) (Nat.zero_le 3) hg
  obtain ⟨f, flag, e1, -, -, e4⟩ := encode_func_layout n strings cf (by omega) hs p2 hk
  rw [create_hash_func_greedy n strings random h0 h1, p1]
  refine ⟨f, e1, ?_⟩
  intro p hp t ht
  rw [e4, List.mem_append] at hp
  rcases hp with hp | hp
  · have hp2 := (List.perm_insertionSort (· ≤ ·) _).subset hp
    obtain ⟨i, hi, hget⟩ := List.getElem_of_mem hp2
    rw [List.getElem_take] at hget
    rw [List.length_take] at hi
    have := hins.pos_le i (by omega) t ht
    rw [List.getD_eq_getElem?_getD, List.getElem?_eq_getElem (by omega)] at this
    rw [← hget]
    exact this
  · rw [List.eq_of_mem_replicate hp]
    exact Nat.zero_le _

set_option maxRecDepth 1000000 in
/-- C29 (sampled positions), evaluated on the two strings `a` and `a` repeated
129 times with the random pool `0f 00 00 05`.  The greedy search gives up
after four positions and the fallback returns the window `0x0f000005`: its
family byte is `0x0f` and its third position byte is 5, beyond the length 1 of
the shortest string.  `eval_hash_func` reads `str[5]` of the string `a`: on
two memory images that agree up to and including the terminator at index 1
and differ at index 5, the values differ.  The descriptors of the greedy
search itself are not affected: when it finds a solution with at most three
sampled positions, every position byte is at most the length of every
string. -/
theorem C29_position_past_end :
    (create_hash_func 2 [[0x61], List.replicate 129 0x61] [0x0f, 0, 0, 5] = some 0x0f000005 ∧
      0x0f000005 / 16777216 = 0x0f ∧ 0x0f000005 % 256 = 5 ∧
      ([0x61] : List Nat).length = 1 ∧
      eval_hash_func 0x0f000005 [0x61, 0, 0, 0, 0, 1] 1 = 0x01616101 ∧
      eval_hash_func 0x0f000005 [0x61, 0, 0, 0, 0, 2] 1 = 0x01616102) ∧
    (∀ (n : Nat) (strings : List (List Nat)) (random : List Nat) (cf : HashCfg),
      n ≠ 0 → n ≤ 1000 → (∀ s ∈ strings, ∀ b ∈ s, b < 256) →
      greedy_exit n strings 6 (greedy_start n) = some (some cf) → cf.sample_count ≤ 3 →
      ∃ f, create_hash_func n strings random = some f ∧
        ∀ p ∈ [f / 65536 % 256, f / 256 % 256, f % 256], ∀ t, t < n →
          p ≤ (strings.getD t []).length) := by
  refine ⟨⟨by rfl, by decide, by decide, by decide, by decide, by decide⟩, ?_⟩
  intro n strings random cf h0 h1 hs hg hk
  exact greedy_positions_inside n strings random cf h0 h1 hs hg hk

/-! ## Every blob slot and its own blob -/

theorem decode_size (f : Nat → Nat) (inp : List Nat) (mi : Nat) (hlt : mi < inp.length)
    (hbytes : ∀ b ∈ inp, b < 256) (hs : ¬ short_ext (byte_at inp mi)) :
    size_agrees inp mi (decode_at f inp mi) := by
  by_cases hdf : byte_at inp mi = 0xdf
  · have hd : decode_at f inp mi =
        if mi + 5 > inp.length then .underflow
        else .nested MapValue 5 (load32 inp (mi + 1)) (load32 inp (mi + 1)) := by
      unfold decode_at
      simp only [hdf]
      simp +decide only [↓reduceIte]
    have hv : value_head inp mi =
        if mi + 5 ≤ inp.length then some (5, 2 * load32 inp (mi + 1)) else none := by
      unfold value_head
      simp only [hdf]
      simp +decide only [↓reduceIte]
    rw [hd]
    split_ifs with hu
    · trivial
    · exact ⟨_, by rw [hv, if_pos (by omega)]⟩
  · have hh := decode_head f inp mi hlt hbytes (by
      unfold slip_opcode
      exact fun h => h.elim hs hdf)
    generalize decode_at f inp mi = d at hh
    cases d with
    | scalar tag w adv => exact ⟨0, hh⟩
    | xdata tag pre len => exact fun hfit => ⟨0, hh hfit⟩
    | nested tag adv xlen len => exact ⟨len, hh⟩
    | underflow => trivial
    | c1 => trivial

theorem slot_offset_succ (f : Nat → Nat) (inp : List Nat) (i p size : Nat)
    (h : slot_offset f inp i = some p) (hs : decoded_size (decode_at f inp p) = some size) :
    slot_offset f inp (i + 1) = some (p + size) := by
  simp only [slot_offset, h, hs]

theorem value_offset_succ (inp : List Nat) (i p size kids : Nat)
    (h : value_offset inp i = some p) (hs : value_head inp p = some (size, kids)) :
    value_offset inp (i + 1) = some (p + size) := by
  simp only [value_offset, h, hs]

theorem parse_step_slot {f : Nat → Nat} {inp : List Nat} {c c2 : ParseCfg}
    (hL : inp.length < 4294967296) (hinv : ParseInv inp c) (h0 : c.todo ≠ 0)
    (h : parse_step f inp c = .again c2) :
    c.mi < inp.length ∧
    ∃ size, decoded_size (decode_at f inp c.mi) = some size ∧
      (∀ tag pre len, decode_at f inp c.mi = .xdata tag pre len →
        c.mi + pre + len + 1 ≤ inp.length) ∧
      c2.mi = c.mi + size ∧ c2.value = c.value + 1 ∧
      (∀ i, i < c.value → c2.st.t.getD i 0 = c.st.t.getD i 0 ∧
        c2.st.v.getD i ⟨0, 0⟩ = c.st.v.getD i ⟨0, 0⟩) ∧
      ((c2.st.t.getD c.value 0 = StringValue ∨ c2.st.t.getD c.value 0 = BinValue ∨
          c2.st.t.getD c.value 0 = ExtValue) →
        ∃ hdr n, blob_frame inp c.mi = some (c2.st.t.getD c.value 0, hdr, n) ∧
          c.mi + hdr + (c2.st.v.getD c.value ⟨0, 0⟩).xoff = inp.length ∧
          (¬ short_ext (byte_at inp c.mi) →
            (c2.st.v.getD c.value ⟨0, 0⟩).xlen = n ∧ c.mi + hdr + n ≤ inp.length)) := by
  rw [parse_step_eq] at h
  rw [if_neg h0] at h
  obtain ⟨ht, hv, hle, hmi, hvm, hch, hbl⟩ := hinv
  split_ifs at h with hm
  have hlt : c.mi < inp.length := by omega
  refine ⟨hlt, ?_⟩
  have hg := decode_at_good f inp c.mi hlt
  obtain ⟨r1, r2, r3, r4, r5, r6, r7, r8, -, -, -, -, -, -, r9⟩ :=
    with_room_spec { c with todo := c.todo - 1 } ht hv hle
  generalize ParseCfg.with_room { c with todo := c.todo - 1 } = c1 at h r1 r2 r3 r4 r5 r6 r7 r8 r9
  simp only at r4 r5 r6 r7 r8 r9
  generalize decode_at f inp c.mi = d at h hg
  have hin : c1.value < c1.st.t.length := by omega
  have hin2 : c1.value < c1.st.v.length := by omega
  have r9a : ∀ i, i < c1.value → c1.st.t.getD i 0 = c.st.t.getD i 0 ∧
      c1.st.v.getD i ⟨0, 0⟩ = c.st.v.getD i ⟨0, 0⟩ := fun i hi => r9 i (by omega)
  cases d with
  | scalar tag w adv =>
    obtain ⟨g1, g2, g3, g4, g5, g6, g7⟩ := hg
    refine ⟨adv, rfl, fun tag2 pre len hx => by simp at hx, ?_⟩
    cases w with
    | none =>
      simp only [apply_decoded, ParseCfg.next_slot, ParseCfg.set_typeid,
        ParseStep.again.injEq] at h
      subst h
      refine ⟨by show c1.mi + adv = _; omega, by show c1.value + 1 = _; omega, ?_, ?_⟩
      · intro i hi
        show (c1.st.t.set c1.value tag).getD i 0 = _ ∧ c1.st.v.getD i ⟨0, 0⟩ = _
        rw [getD_set_ne _ c1.value i _ _ (by omega)]
        exact r9a i (by omega)
      · intro hb
        exfalso
        have hb2 : (c1.st.t.set c1.value tag).getD c.value 0 = StringValue ∨
            (c1.st.t.set c1.value tag).getD c.value 0 = BinValue ∨
            (c1.st.t.set c1.value tag).getD c.value 0 = ExtValue := hb
        rw [← r4, getD_set_eq _ _ _ _ hin] at hb2
        omega
    | some w =>
      simp only [apply_decoded, ParseCfg.next_slot, ParseCfg.set_typeid, ParseCfg.set_value,
        ParseStep.again.injEq] at h
      subst h
      refine ⟨by show c1.mi + adv = _; omega, by show c1.value + 1 = _; omega, ?_, ?_⟩
      · intro i hi
        show (c1.st.t.set c1.value tag).getD i 0 = _ ∧
          (c1.st.v.set c1.value w).getD i ⟨0, 0⟩ = _
        rw [getD_set_ne _ c1.value i _ _ (by omega), getD_set_ne _ c1.value i _ _ (by omega)]
        exact r9a i (by omega)
      · intro hb
        exfalso
        have hb2 : (c1.st.t.set c1.value tag).getD c.value 0 = StringValue ∨
            (c1.st.t.set c1.value tag).getD c.value 0 = BinValue ∨
            (c1.st.t.set c1.value tag).getD c.value 0 = ExtValue := hb
        rw [← r4, getD_set_eq _ _ _ _ hin] at hb2
        omega
  | xdata tag pre len =>
    obtain ⟨g1, g2, n, g3, g4⟩ := hg
    simp only [apply_decoded, do_xdata, ParseCfg.next_slot, ParseCfg.set_typeid,
      ParseCfg.set_xlen, ParseCfg.set_xoff] at h
    split_ifs at h with hu
    simp only [ParseStep.again.injEq] at h
    subst h
    simp only [r5] at hu
    refine ⟨pre + len + 1, rfl, ?_, by show c1.mi + pre + len + 1 = _; omega,
      by show c1.value + 1 = _; omega, ?_, ?_⟩
    · intro tag2 pre2 len2 hx
      simp only [Decoded.xdata.injEq] at hx
      obtain ⟨-, e2, e3⟩ := hx
      rw [← e2, ← e3]
      omega
    · intro i hi
      show (c1.st.t.set c1.value tag).getD i 0 = _ ∧
        ((c1.st.v.set c1.value ⟨len, (c1.st.v.getD c1.value ⟨0, 0⟩).xoff⟩).set c1.value
          ⟨((c1.st.v.set c1.value ⟨len, (c1.st.v.getD c1.value ⟨0, 0⟩).xoff⟩).getD
              c1.value ⟨0, 0⟩).xlen,
            (inp.length - (c1.mi + pre) - 1) % 4294967296⟩).getD i ⟨0, 0⟩ = _
      rw [getD_set_ne _ c1.value i _ _ (by omega), getD_set_ne _ c1.value i _ _ (by omega),
        getD_set_ne _ c1.value i _ _ (by omega)]
      exact r9a i (by omega)
    · intro _
      show ∃ hdr n, blob_frame inp c.mi = some ((c1.st.t.set c1.value tag).getD c.value 0, hdr, n) ∧
        c.mi + hdr + (((c1.st.v.set c1.value ⟨len, (c1.st.v.getD c1.value ⟨0, 0⟩).xoff⟩).set
          c1.value
          ⟨((c1.st.v.set c1.value ⟨len, (c1.st.v.getD c1.value ⟨0, 0⟩).xoff⟩).getD
              c1.value ⟨0, 0⟩).xlen,
            (inp.length - (c1.mi + pre) - 1) % 4294967296⟩).getD c.value ⟨0, 0⟩).xoff =
          inp.length ∧
        (¬ short_ext (byte_at inp c.mi) →
          (((c1.st.v.set c1.value ⟨len, (c1.st.v.getD c1.value ⟨0, 0⟩).xoff⟩).set
            c1.value
            ⟨((c1.st.v.set c1.value ⟨len, (c1.st.v.getD c1.value ⟨0, 0⟩).xoff⟩).getD
                c1.value ⟨0, 0⟩).xlen,
              (inp.length - (c1.mi + pre) - 1) % 4294967296⟩).getD c.value ⟨0, 0⟩).xlen = n ∧
          c.mi + hdr + n ≤ inp.length)
      rw [← r4, getD_set_eq _ _ _ _ hin, getD_set_eq _ _ _ _ (by simpa using hin2),
        getD_set_eq _ _ _ _ hin2]
      refine ⟨pre + 1, n, g3, ?_, ?_⟩
      · show c.mi + (pre + 1) + (inp.length - (c1.mi + pre) - 1) % 4294967296 = inp.length
        rw [Nat.mod_eq_of_lt (by omega)]
        omega
      · intro hs
        have := g4 hs
        simp only
        omega
  | nested tag adv xlen len =>
    obtain ⟨g1, g2, g3⟩ := hg
    refine ⟨adv, rfl, fun tag2 pre len hx => by simp at hx, ?_⟩
    simp only [apply_decoded, setup_nested, ParseCfg.next_slot, ParseCfg.set_typeid,
      ParseCfg.set_xlen, ParseCfg.set_xoff, buf_grow_tv, buf_grow, realloc] at h
    split_ifs at h with hu
    all_goals
      simp only [ParseStep.again.injEq] at h
      subst h
      refine ⟨by show c1.mi + adv = _; omega, by show c1.value + 1 = _; omega, ?_, ?_⟩
      · intro i hi
        show (c1.st.t.set c1.value tag).getD i 0 = _ ∧
          ((c1.st.v.set c1.value ⟨xlen, (c1.st.v.getD c1.value ⟨0, 0⟩).xoff⟩).set c1.value
            ⟨((c1.st.v.set c1.value ⟨xlen, (c1.st.v.getD c1.value ⟨0, 0⟩).xoff⟩).getD
                c1.value ⟨0, 0⟩).xlen, c1.patch⟩).getD i ⟨0, 0⟩ = _
        rw [getD_set_ne _ c1.value i _ _ (by omega), getD_set_ne _ c1.value i _ _ (by omega),
          getD_set_ne _ c1.value i _ _ (by omega)]
        exact r9a i (by omega)
      · intro hb
        exfalso
        have hb2 : (c1.st.t.set c1.value tag).getD c.value 0 = StringValue ∨
            (c1.st.t.set c1.value tag).getD c.value 0 = BinValue ∨
            (c1.st.t.set c1.value tag).getD c.value 0 = ExtValue := hb
        rw [← r4, getD_set_eq _ _ _ _ hin] at hb2
        rcases g3 with e | e <;> rw [e] at hb2 <;> simp at hb2
  | underflow => simp [apply_decoded] at h
  | c1 => simp [apply_decoded] at h

theorem parse_step_own {f : Nat → Nat} {inp : List Nat} {c c2 : ParseCfg}
    (hL : inp.length < 4294967296) (hbytes : ∀ b ∈ inp, b < 256)
    (hinv : ParseInv inp c) (hown : OwnInv f inp c)
    (h : parse_step f inp c = .again c2) : OwnInv f inp c2 := by
  by_cases h0 : c.todo = 0
  · -- one turn of the pop loop
    have hch := hinv.chain
    rw [parse_step_eq, if_pos h0] at h
    split_ifs at h with hs
    simp only [ParseStep.again.injEq] at h
    subst h
    obtain ⟨d, hd⟩ : ∃ d, c.stack = d + 1 := ⟨c.stack - 1, by omega⟩
    rw [hd] at hch
    obtain ⟨hp, htag, -⟩ := hch
    refine ⟨hown.start, hown.fmt, ?_⟩
    intro i hi hb
    simp only at hi hb ⊢
    by_cases hip : c.patch = i
    · subst hip
      exfalso; rcases htag with e | e <;> rw [e] at hb <;> simp at hb
    · rw [getD_set_ne _ _ _ _ _ hip]
      exact hown.own i hi hb
  · obtain ⟨hlt, size, s1, s2, s3, s4, s5, s6⟩ := parse_step_slot hL hinv h0 h
    have hstart : slot_offset f inp c2.value = some c2.mi := by
      rw [s3, s4]
      exact slot_offset_succ f inp _ _ _ hown.start s1
    refine ⟨hstart, ?_, ?_⟩
    · intro i hi H
      rw [s4] at hi
      by_cases hiv : i ≤ c.value
      · exact hown.fmt i hiv H
      have hie : i = c.value + 1 := by omega
      subst hie
      have e := hown.fmt c.value (Nat.le_refl _) (fun j hj => H j (by omega))
      rw [hown.start] at e
      have ns := H c.value (by omega) c.mi e
      have ha := decode_size f inp c.mi hlt hbytes ns
      rw [slot_offset_succ f inp _ _ _ hown.start s1]
      generalize hd : decode_at f inp c.mi = d at ha s1 s2
      cases d with
      | scalar tag w adv =>
        obtain ⟨k, hk⟩ := ha
        simp only [decoded_size, Option.some.injEq] at s1
        subst s1
        exact value_offset_succ inp _ _ _ k e hk
      | xdata tag pre len =>
        obtain ⟨k, hk⟩ := ha (s2 tag pre len rfl)
        simp only [decoded_size, Option.some.injEq] at s1
        subst s1
        exact value_offset_succ inp _ _ _ k e hk
      | nested tag adv xlen len =>
        obtain ⟨k, hk⟩ := ha
        simp only [decoded_size, Option.some.injEq] at s1
        subst s1
        exact value_offset_succ inp _ _ _ k e hk
      | underflow => simp [decoded_size] at s1
      | c1 => simp [decoded_size] at s1
    · intro i hi hb
      rw [s4] at hi
      by_cases hiv : i = c.value
      · subst hiv
        obtain ⟨hdr, n, b1, b2, b3⟩ := s6 hb
        exact ⟨c.mi, hdr, n, hown.start, b1, b2, b3⟩
      · rw [(s5 i (by omega)).1] at hb ⊢
        rw [(s5 i (by omega)).2]
        exact hown.own i (by omega) hb

theorem parse_run_own {f : Nat → Nat} {inp : List Nat} (hL : inp.length < 4294967296)
    (hbytes : ∀ b ∈ inp, b < 256) :
    ∀ (fuel : Nat) (c c2 : ParseCfg), ParseInv inp c → OwnInv f inp c →
    parse_run f inp fuel c = some (.done c2) → OwnInv f inp c2 := by
  intro fuel
  induction fuel with
  | zero => intro c c2 _ _ h; simp [parse_run] at h
  | succ k ih =>
    intro c c2 hinv hown h
    by_cases hs : ∃ c3, parse_step f inp c = .again c3
    · obtain ⟨c3, h3⟩ := hs
      rw [parse_run_again k h3] at h
      exact ih c3 c2 (parse_step_inv hL hinv h3) (parse_step_own hL hbytes hinv hown h3) h
    · rw [parse_run_exit k (fun c3 h3 => hs ⟨c3, h3⟩)] at h
      obtain ⟨e, -, -⟩ := parse_step_done (Option.some.inj h)
      subst e
      exact ⟨hown.start, hown.fmt, hown.own⟩

/-- C4 (amended). After a successful `parse_msgpack` of an input of bytes
shorter than 4 GiB, every String, Bin or Ext slot `i` carries the framing of
its own blob: the blob whose opcode stands at the offset `p` where the decoder
began slot `i` (`slot_offset`), which is the offset at which value number `i`
of the message begins by the format (`value_offset`) whenever no value before
it begins with fixext 1, fixext 2, ext 16 or ext 32.  The type id of the slot
is the type of that blob, its payload starts at input offset `L - xoff`,
right behind its header, and, unless its opcode is fixext 1, fixext 2, ext 16
or ext 32, `xlen` is the size of its payload, which lies inside the input. -/
theorem C4_blob_offsets (f : Nat → Nat) (st st2 : State) (inp : List Nat) (mi i : Nat)
    (ht : st.t.length = st.t_capacity) (hv : st.v.length = st.t_capacity)
    (hL : inp.length < 4294967296) (hbytes : ∀ b ∈ inp, b < 256)
    (h : parse_msgpack f st inp mi = some (0, st2))
    (hi : i < parse_nslots f st inp)
    (htag : st2.t.getD i 0 = StringValue ∨ st2.t.getD i 0 = BinValue ∨
      st2.t.getD i 0 = ExtValue) :
    ∃ p hdr n, slot_offset f inp i = some p ∧
      ((∀ j, j < i → ∀ q, value_offset inp j = some q → ¬ short_ext (byte_at inp q)) →
        value_offset inp i = some p) ∧
      blob_frame inp p = some (st2.t.getD i 0, hdr, n) ∧
      (st2.v.getD i ⟨0, 0⟩).xoff ≤ inp.length ∧
      inp.length - (st2.v.getD i ⟨0, 0⟩).xoff = p + hdr ∧
      (¬ short_ext (byte_at inp p) →
        (st2.v.getD i ⟨0, 0⟩).xlen = n ∧ p + hdr + n ≤ inp.length) := by
  obtain ⟨c, hc, rfl⟩ := parse_msgpack_done h
  have hn : parse_nslots f st inp = c.value := by
    unfold parse_nslots; rw [hc]
  rw [hn] at hi
  have hinit : ParseInv inp (parse_init st) :=
    ⟨ht, hv, Nat.zero_le _, Nat.zero_le _, Nat.le_refl _, trivial,
      fun i hi => absurd hi (Nat.not_lt_zero i)⟩
  have hown0 : OwnInv f inp (parse_init st) :=
    ⟨rfl, fun i hi _ => by
      have : i = 0 := Nat.le_zero.mp hi
      subst this
      rfl, fun i hi => absurd hi (Nat.not_lt_zero i)⟩
  have hown := parse_run_own hL hbytes _ _ _ hinit hown0 hc
  obtain ⟨p, hdr, n, b0, b1, b2, b3⟩ := hown.own i hi htag
  refine ⟨p, hdr, n, b0, ?_, b1, ?_, ?_, b3⟩
  · intro H
    rw [hown.fmt i (by omega) H, b0]
  · show (c.st.v.getD i ⟨0, 0⟩).xoff ≤ inp.length
    omega
  · show inp.length - (c.st.v.getD i ⟨0, 0⟩).xoff = p + hdr
    omega

set_option maxRecDepth 100000 in
/-- C4 (amended) at the second string of `92 a2 62 63 a1 61`: slot 2 begins
at offset 4, by the decoder and by the format, and carries `xlen = 1`,
`xoff = 1`, the framing of the fixstr at offset 4 and not that of the string
before it. -/
theorem C4_blob_offsets_witness :
    parse_msgpack id State.zero two_strings 0 = some (0, parsed id two_strings) ∧
    slot_offset id two_strings 2 = some 4 ∧ value_offset two_strings 2 = some 4 ∧
    ((parsed id two_strings).v.getD 2 ⟨0, 0⟩).xlen = 1 ∧
    ((parsed id two_strings).v.getD 2 ⟨0, 0⟩).xoff = 1 ∧
    ∃ p hdr n, slot_offset id two_strings 2 = some p ∧
      ((∀ j, j < 2 → ∀ q, value_offset two_strings j = some q →
          ¬ short_ext (byte_at two_strings q)) →
        value_offset two_strings 2 = some p) ∧
      blob_frame two_strings p = some ((parsed id two_strings).t.getD 2 0, hdr, n) ∧
      ((parsed id two_strings).v.getD 2 ⟨0, 0⟩).xoff ≤ two_strings.length ∧
      two_strings.length - ((parsed id two_strings).v.getD 2 ⟨0, 0⟩).xoff = p + hdr ∧
      (¬ short_ext (byte_at two_strings p) →
        ((parsed id two_strings).v.getD 2 ⟨0, 0⟩).xlen = n ∧ p + hdr + n ≤ two_strings.length) :=
  ⟨by rfl, by rfl, by rfl, by rfl, by rfl,
    C4_blob_offsets id State.zero (parsed id two_strings) two_strings 0 2 rfl rfl
      (by decide) (by decide) (by rfl) (by decide) (Or.inl (by decide))⟩

end AvroSchemaRt
